import Mathlib

/-!
Verification development for the `worth-my-time` repository.

This file shallowly embeds the core modules of the repository in Lean 4:

* `src/wmt/state.py`   — the idempotency ledger with its two backends
  (`JsonStateStore`, `SqliteStateStore`);
* `src/wmt/stable.py`  — the stable-file tracker (`StableFileTracker`);
* `src/wmt/urls.py`    — URL normalization (`normalize_url`,
  `_canonicalize_youtube`) together with the parts of Python's
  `urllib.parse` it relies on (`urlsplit`, `urlunsplit`, `parse_qsl`,
  `unquote`, the `hostname`/`port` properties);
* `src/wmt/bookmarks.py` — bookmark identity (`identity_string`,
  `identity_sha256`) together with SHA-256 (what `hashlib.sha256` computes);
* the JSON-loading behaviour of `JsonStateStore._load_or_init`, together
  with the grammar accepted by Python's `json.loads`.

Python `float` timestamps are modelled as rationals (`ℚ`), Python `int`
as `Int`/`Nat`, `None`-able values as `Option`, raised exceptions as
`Except`/`Option`, and dictionaries as insertion-ordered association
lists.  Machine-word arithmetic inside SHA-256 is `Nat` arithmetic with
explicit reduction modulo `2 ^ 32`.
-/

namespace Wmt

/-! ## Insertion-ordered association lists (model of Python `dict`) -/

/-- `dict.get k` / `dict[k]`: first binding of `k`, if any. -/
def alGet {α : Type} (l : List (String × α)) (k : String) : Option α :=
  match l with
  | [] => none
  | (k', v) :: t => if k' = k then some v else alGet t k

/-- `dict[k] = v`: replace the binding in place if `k` is present,
otherwise append the new binding at the end (Python dicts preserve
insertion order). -/
def alSet {α : Type} (l : List (String × α)) (k : String) (v : α) :
    List (String × α) :=
  match l with
  | [] => [(k, v)]
  | (k', v') :: t => if k' = k then (k, v) :: t else (k', v') :: alSet t k v

/-- `k in dict`. -/
def alMem {α : Type} (l : List (String × α)) (k : String) : Bool :=
  (alGet l k).isSome

/-! ## Ledger data model (`src/wmt/state.py`)

Status strings used by the store. -/

def statusInProgress : String := "in_progress"

def statusProcessed : String := "processed"

def statusFailed : String := "failed"

/-- One record of the JSON ledger (`records["<sha256>"]`), with the
fields `JsonStateStore.get` reads back.  A missing dictionary key and an
explicit JSON `null` both read back as `None` via `rec.get(...)`, so both
are modelled as `none`.  `status` reads back as `str(rec.get("status", ""))`,
hence a plain `String` with `""` for a missing status. -/
structure JsonRec where
  status : String
  startedAt : Option ℚ
  processedAt : Option ℚ
  sourcePath : Option String
  sourceMtimeNs : Option Int
  sourceSize : Option Int
  archivePath : Option String
  topicFile : Option String
  codexStatus : Option String
  error : Option String
  deriving DecidableEq, Inhabited

/-- `records.get(sha256, {})` for a missing key: the empty dict, whose
every `get` is `None`. -/
def emptyJsonRec : JsonRec :=
  { status := ""
    startedAt := none
    processedAt := none
    sourcePath := none
    sourceMtimeNs := none
    sourceSize := none
    archivePath := none
    topicFile := none
    codexStatus := none
    error := none }

/-- State of a `JsonStateStore`: the in-memory document
`{"records": {...}, "source_snapshots": {...}}` (the constant
`"version": 1` field is omitted).  A snapshot entry is the dict
`{"mtime_ns": ..., "size": ...}` whose fields may be null/absent. -/
structure JsonState where
  records : List (String × JsonRec)
  snapshots : List (String × (Option Int × Option Int))
  deriving DecidableEq

/-- A fresh/empty ledger (`{"version": 1, "records": {}, "source_snapshots": {}}`). -/
def JsonState.fresh : JsonState := { records := [], snapshots := [] }

/-- `JsonStateStore.get`. -/
def JsonState.get (st : JsonState) (sha : String) : Option JsonRec :=
  alGet st.records sha

/-- `JsonStateStore.is_processed`. -/
def JsonState.isProcessed (st : JsonState) (sha : String) : Bool :=
  match st.get sha with
  | none => false
  | some rec => rec.status = statusProcessed

/-- `JsonStateStore.is_source_processed`. -/
def JsonState.isSourceProcessed (st : JsonState) (sourcePath : String)
    (sourceMtimeNs : Option Int) (sourceSize : Option Int) : Bool :=
  match alGet st.snapshots sourcePath with
  | none => false
  | some (mtimeNs, size) =>
    if mtimeNs = none ∨ size = none then true
    else if sourceMtimeNs = none ∨ sourceSize = none then true
    else decide (mtimeNs = sourceMtimeNs ∧ size = sourceSize)

/-- `JsonStateStore.mark_in_progress`, with the wall clock passed
explicitly (`now = time.time()`). -/
def JsonState.markInProgress (st : JsonState) (sha : String)
    (sourcePath : String) (sourceMtimeNs sourceSize : Option Int)
    (force : Bool) (now : ℚ) : JsonState :=
  if alMem st.records sha ∧ ¬force then st
  else
    let rec0 := (alGet st.records sha).getD emptyJsonRec
    let rec1 : JsonRec :=
      { rec0 with
        status := statusInProgress
        startedAt := some now
        processedAt := none
        sourcePath := some sourcePath
        sourceMtimeNs := sourceMtimeNs
        sourceSize := sourceSize
        error := none }
    { st with records := alSet st.records sha rec1 }

/-- `JsonStateStore.mark_processed`. -/
def JsonState.markProcessed (st : JsonState) (sha : String)
    (archivePath topicFile codexStatus : Option String)
    (sourcePath : Option String) (sourceMtimeNs sourceSize : Option Int)
    (now : ℚ) : JsonState :=
  let rec0 := (alGet st.records sha).getD emptyJsonRec
  let rec1 : JsonRec :=
    { status := statusProcessed
      startedAt := none
      processedAt := some now
      sourcePath := match sourcePath with
        | some p => some p
        | none => rec0.sourcePath
      sourceMtimeNs := match sourceMtimeNs with
        | some m => some m
        | none => rec0.sourceMtimeNs
      sourceSize := match sourceSize with
        | some s => some s
        | none => rec0.sourceSize
      archivePath := archivePath
      topicFile := topicFile
      codexStatus := codexStatus
      error := none }
  let records' := alSet st.records sha rec1
  let snapshots' :=
    match sourcePath, sourceMtimeNs, sourceSize with
    | some p, some m, some s => alSet st.snapshots p (some m, some s)
    | _, _, _ => st.snapshots
  { records := records', snapshots := snapshots' }

/-- `JsonStateStore.mark_failed`. -/
def JsonState.markFailed (st : JsonState) (sha : String) (err : String)
    (now : ℚ) : JsonState :=
  let rec0 := (alGet st.records sha).getD emptyJsonRec
  let rec1 : JsonRec :=
    { rec0 with
      status := statusFailed
      startedAt := none
      processedAt := some now
      error := some err }
  { st with records := alSet st.records sha rec1 }

/-- `JsonStateStore.allow_retry_in_progress`, with the wall clock passed
explicitly. -/
def JsonState.allowRetryInProgress (st : JsonState) (sha : String)
    (ttlSeconds : Int) (now : ℚ) : Bool :=
  match st.get sha with
  | none => true
  | some rec =>
    if rec.status = statusProcessed then false
    else if rec.status ≠ statusInProgress then true
    else
      match rec.startedAt with
      | none => true
      | some startedAt => decide ((now - startedAt) > (ttlSeconds : ℚ))

/-- `JsonStateStore.stats`, as the counts for the keys
`processed`, `failed`, `in_progress` (the only statuses the store ever
writes; other statuses are ignored by the Python loop). -/
def JsonState.stats (st : JsonState) : Nat × Nat × Nat :=
  ( (st.records.filter (fun r => r.2.status = statusProcessed)).length
  , (st.records.filter (fun r => r.2.status = statusFailed)).length
  , (st.records.filter (fun r => r.2.status = statusInProgress)).length )

/-! ### SQLite backend (`SqliteStateStore`) -/

/-- One row of the `processed_files` table.  `sha256` is the primary
key; all other columns are nullable except `status`. -/
structure SqliteRow where
  sha256 : String
  status : String
  startedAt : Option ℚ
  processedAt : Option ℚ
  sourcePath : Option String
  sourceMtimeNs : Option Int
  sourceSize : Option Int
  archivePath : Option String
  topicFile : Option String
  codexStatus : Option String
  error : Option String
  deriving DecidableEq

/-- The table, in row-insertion order.  The primary key keeps `sha256`
unique in every reachable state. -/
structure SqliteState where
  rows : List SqliteRow
  deriving DecidableEq

def SqliteState.fresh : SqliteState := { rows := [] }

/-- First row with the given key (the `sha256` column is the primary
key, so at most one row matches in any state the store itself builds). -/
def getRows : List SqliteRow → String → Option SqliteRow
  | [], _ => none
  | r :: t, sha => if r.sha256 = sha then some r else getRows t sha

/-- `SELECT * FROM processed_files WHERE sha256 = ?` (primary-key lookup). -/
def SqliteState.get (st : SqliteState) (sha : String) : Option SqliteRow :=
  getRows st.rows sha

/-- `SqliteStateStore.is_processed`. -/
def SqliteState.isProcessed (st : SqliteState) (sha : String) : Bool :=
  match st.get sha with
  | none => false
  | some row => row.status = statusProcessed

/-- Update the (unique) row with the given key in place. -/
def sqliteUpdate (rows : List SqliteRow) (sha : String)
    (f : SqliteRow → SqliteRow) : List SqliteRow :=
  rows.map (fun r => if r.sha256 = sha then f r else r)

/-- `SqliteStateStore.mark_in_progress`: an
`INSERT ... ON CONFLICT(sha256) DO UPDATE/DO NOTHING` upsert. -/
def SqliteState.markInProgress (st : SqliteState) (sha : String)
    (sourcePath : String) (sourceMtimeNs sourceSize : Option Int)
    (force : Bool) (now : ℚ) : SqliteState :=
  match st.get sha with
  | none =>
    -- INSERT (sha256, 'in_progress', started_at, source_path, mtime, size);
    -- all remaining columns NULL.
    { rows := st.rows ++
        [{ sha256 := sha
           status := statusInProgress
           startedAt := some now
           processedAt := none
           sourcePath := some sourcePath
           sourceMtimeNs := sourceMtimeNs
           sourceSize := sourceSize
           archivePath := none
           topicFile := none
           codexStatus := none
           error := none }] }
  | some _ =>
    if force then
      -- DO UPDATE SET status, started_at, source_path, mtime, size, error=NULL
      -- (processed_at, archive_path, topic_file, codex_status untouched).
      { rows := sqliteUpdate st.rows sha (fun r =>
          { r with
            status := statusInProgress
            startedAt := some now
            sourcePath := some sourcePath
            sourceMtimeNs := sourceMtimeNs
            sourceSize := sourceSize
            error := none }) }
    else
      -- DO NOTHING
      st

/-- The `DO UPDATE` row transformation of `mark_processed`:
`COALESCE(excluded.x, x)` on the source-snapshot columns, `started_at`
untouched (it is not listed in the UPDATE). -/
def sqlProcessedF (archivePath topicFile codexStatus : Option String)
    (sourcePath : Option String) (sourceMtimeNs sourceSize : Option Int)
    (now : ℚ) (r : SqliteRow) : SqliteRow :=
  { r with
    status := statusProcessed
    processedAt := some now
    sourcePath := match sourcePath with
      | some p => some p
      | none => r.sourcePath
    sourceMtimeNs := match sourceMtimeNs with
      | some m => some m
      | none => r.sourceMtimeNs
    sourceSize := match sourceSize with
      | some s => some s
      | none => r.sourceSize
    archivePath := archivePath
    topicFile := topicFile
    codexStatus := codexStatus
    error := none }

/-- `SqliteStateStore.mark_processed` (upsert). -/
def SqliteState.markProcessed (st : SqliteState) (sha : String)
    (archivePath topicFile codexStatus : Option String)
    (sourcePath : Option String) (sourceMtimeNs sourceSize : Option Int)
    (now : ℚ) : SqliteState :=
  match st.get sha with
  | none =>
    { rows := st.rows ++
        [{ sha256 := sha
           status := statusProcessed
           startedAt := none
           processedAt := some now
           sourcePath := sourcePath
           sourceMtimeNs := sourceMtimeNs
           sourceSize := sourceSize
           archivePath := archivePath
           topicFile := topicFile
           codexStatus := codexStatus
           error := none }] }
  | some _ =>
    { rows := sqliteUpdate st.rows sha
        (sqlProcessedF archivePath topicFile codexStatus sourcePath
          sourceMtimeNs sourceSize now) }

/-- `SqliteStateStore.mark_failed` (upsert; `started_at` is NULL on
insert but untouched on conflict). -/
def SqliteState.markFailed (st : SqliteState) (sha : String) (err : String)
    (now : ℚ) : SqliteState :=
  match st.get sha with
  | none =>
    { rows := st.rows ++
        [{ sha256 := sha
           status := statusFailed
           startedAt := none
           processedAt := some now
           sourcePath := none
           sourceMtimeNs := none
           sourceSize := none
           archivePath := none
           topicFile := none
           codexStatus := none
           error := some err }] }
  | some _ =>
    { rows := sqliteUpdate st.rows sha (fun r =>
        { r with
          status := statusFailed
          processedAt := some now
          error := some err }) }

/-- `SqliteStateStore.allow_retry_in_progress`. -/
def SqliteState.allowRetryInProgress (st : SqliteState) (sha : String)
    (ttlSeconds : Int) (now : ℚ) : Bool :=
  match st.get sha with
  | none => true
  | some row =>
    if row.status = statusProcessed then false
    else if row.status ≠ statusInProgress then true
    else
      match row.startedAt with
      | none => true
      | some startedAt => decide ((now - startedAt) > (ttlSeconds : ℚ))

/-- `SqliteStateStore.stats`
(`SELECT status, COUNT(*) ... GROUP BY status` plus `setdefault` for the
three known statuses), as the counts for `processed`, `failed`,
`in_progress`.  In every state reachable by the store's own writes the
status column is one of these three, so the triple is the whole
dictionary. -/
def SqliteState.stats (st : SqliteState) : Nat × Nat × Nat :=
  ( (st.rows.filter (fun r => r.status = statusProcessed)).length
  , (st.rows.filter (fun r => r.status = statusFailed)).length
  , (st.rows.filter (fun r => r.status = statusInProgress)).length )

/-- The row `is_source_processed` reads in the SQLite backend:
`WHERE source_path = ? AND status = 'processed'
ORDER BY processed_at DESC LIMIT 1`.
NULL `processed_at` sorts below every value in SQLite's DESC order; the
order among equal `processed_at` values is unspecified by SQLite, and
this model picks the earliest-inserted such row. -/
def SqliteState.latestProcessedRow (st : SqliteState) (sourcePath : String) :
    Option SqliteRow :=
  let cand := st.rows.filter
    (fun r => r.sourcePath = some sourcePath ∧ r.status = statusProcessed)
  cand.foldl
    (fun best r =>
      match best with
      | none => some r
      | some b =>
        match b.processedAt, r.processedAt with
        | none, some _ => some r
        | some tb, some tr => if tr > tb then some r else some b
        | _, none => some b)
    none

/-- `SqliteStateStore.is_source_processed`. -/
def SqliteState.isSourceProcessed (st : SqliteState) (sourcePath : String)
    (sourceMtimeNs : Option Int) (sourceSize : Option Int) : Bool :=
  match st.latestProcessedRow sourcePath with
  | none => false
  | some row =>
    if row.sourceMtimeNs = none ∨ row.sourceSize = none then true
    else if sourceMtimeNs = none ∨ sourceSize = none then true
    else decide (row.sourceMtimeNs = sourceMtimeNs ∧ row.sourceSize = sourceSize)

/-! ### Operation sequences (for backend equivalence)

A mutating ledger call together with its arguments and the wall-clock
time at which it runs.  The read-only calls (`get`, `is_processed`,
`allow_retry_in_progress`, `is_source_processed`, `stats`) do not change
the state, so a sequence of calls is captured by its mutations; the
equivalence theorem quantifies over the reads at every point. -/
inductive LedgerOp where
  | markInProgress (sha sourcePath : String)
      (sourceMtimeNs sourceSize : Option Int) (force : Bool) (now : ℚ)
  | markProcessed (sha : String) (archivePath topicFile codexStatus : Option String)
      (sourcePath : Option String) (sourceMtimeNs sourceSize : Option Int) (now : ℚ)
  | markFailed (sha err : String) (now : ℚ)

/-- Apply one call to the JSON backend. -/
def JsonState.applyOp (st : JsonState) : LedgerOp → JsonState
  | .markInProgress sha p m s force now => st.markInProgress sha p m s force now
  | .markProcessed sha a t c p m s now => st.markProcessed sha a t c p m s now
  | .markFailed sha err now => st.markFailed sha err now

/-- Apply one call to the SQLite backend. -/
def SqliteState.applyOp (st : SqliteState) : LedgerOp → SqliteState
  | .markInProgress sha p m s force now => st.markInProgress sha p m s force now
  | .markProcessed sha a t c p m s now => st.markProcessed sha a t c p m s now
  | .markFailed sha err now => st.markFailed sha err now

/-- Run a sequence of calls against a fresh JSON store. -/
def runJson (ops : List LedgerOp) : JsonState :=
  ops.foldl JsonState.applyOp JsonState.fresh

/-- Run a sequence of calls against a fresh SQLite store. -/
def runSqlite (ops : List LedgerOp) : SqliteState :=
  ops.foldl SqliteState.applyOp SqliteState.fresh

/-! ## Stable-file tracker (`src/wmt/stable.py`) -/

/-- `StatSnapshot`: `(size, mtime_ns)`. -/
structure StatSnapshot where
  size : Int
  mtimeNs : Int
  deriving DecidableEq

/-- `StableFileTracker._seen`: path ↦ (snapshot, monotonic time at which
that snapshot was first recorded), in insertion order. -/
structure TrackerState where
  seen : List (String × (StatSnapshot × ℚ))
  deriving DecidableEq

def TrackerState.fresh : TrackerState := { seen := [] }

/-- The body of the `for path in candidates` loop in
`StableFileTracker.observe`.  Each candidate carries the result of
`self._stat(path)`: `none` models a raised `FileNotFoundError`
(the candidate is skipped, prior tracking state kept). -/
def observeGo (stableSeconds : Int) (now : ℚ) :
    List (String × Option StatSnapshot) →
    List (String × (StatSnapshot × ℚ)) →
    List String × List (String × (StatSnapshot × ℚ))
  | [], seen => ([], seen)
  | (path, stat) :: rest, seen =>
    match stat with
    | none => observeGo stableSeconds now rest seen
    | some snap =>
      match alGet seen path with
      | none =>
        let out := observeGo stableSeconds now rest (alSet seen path (snap, now))
        (if stableSeconds ≤ 0 then path :: out.1 else out.1, out.2)
      | some (priorSnap, lastChange) =>
        if snap ≠ priorSnap then
          observeGo stableSeconds now rest (alSet seen path (snap, now))
        else if (now - lastChange) ≥ (stableSeconds : ℚ) then
          let out := observeGo stableSeconds now rest seen
          (path :: out.1, out.2)
        else
          observeGo stableSeconds now rest seen

/-- `StableFileTracker.observe`: first drop tracking state for paths no
longer in the candidate set, then process each candidate in order,
returning the list of paths reported stable and the new tracker state. -/
def TrackerState.observe (st : TrackerState) (stableSeconds : Int)
    (candidates : List (String × Option StatSnapshot)) (now : ℚ) :
    List String × TrackerState :=
  let pruned := st.seen.filter (fun e => candidates.any (fun c => c.1 = e.1))
  let out := observeGo stableSeconds now candidates pruned
  (out.1, { seen := out.2 })

/-- `StableFileTracker.forget`. -/
def TrackerState.forget (st : TrackerState) (path : String) : TrackerState :=
  { seen := st.seen.filter (fun e => e.1 ≠ path) }

/-! ## Basic association-list lemmas -/

theorem alGet_alSet_self {α : Type} (l : List (String × α)) (k : String) (v : α) :
    alGet (alSet l k v) k = some v := by
  induction l with
  | nil => simp [alSet, alGet]
  | cons e t ih =>
    by_cases h : e.1 = k
    · simp [alSet, alGet, h]
    · simp [alSet, alGet, h, ih]

theorem alGet_alSet_ne {α : Type} (l : List (String × α)) (k k' : String) (v : α)
    (h : k' ≠ k) : alGet (alSet l k' v) k = alGet l k := by
  induction l with
  | nil => simp [alSet, alGet, h]
  | cons e t ih =>
    by_cases he : e.1 = k'
    · simp [alSet, alGet, he, h]
    · simp only [alSet, alGet, if_neg he]
      by_cases hk : e.1 = k
      · simp [alGet, hk]
      · simp [alGet, hk, ih]

theorem alSet_of_notMem {α : Type} (l : List (String × α)) (k : String) (v : α)
    (h : alGet l k = none) : alSet l k v = l ++ [(k, v)] := by
  induction l with
  | nil => simp [alSet]
  | cons e t ih =>
    by_cases he : e.1 = k
    · simp [alGet, he] at h
    · simp only [alGet, if_neg he] at h
      simp [alSet, he, ih h]

theorem alGet_filter_of_kept {α : Type} (l : List (String × α)) (k : String)
    (f : String × α → Bool) (h : ∀ v, f (k, v) = true) :
    alGet (l.filter f) k = alGet l k := by
  induction l with
  | nil => simp [alGet]
  | cons e t ih =>
    by_cases he : e.1 = k
    · have : f e = true := by
        obtain ⟨k', v⟩ := e
        simp only at he
        subst he
        exact h v
      simp [List.filter, this, alGet, he, ih]
    · by_cases hf : f e = true
      · simp [List.filter, hf, alGet, he, ih]
      · simp only [List.filter, Bool.not_eq_true] at hf ⊢
        rw [hf]
        simp [alGet, he] at ih ⊢
        exact ih

theorem inProgress_ne_processed : statusInProgress ≠ statusProcessed := by
  decide

theorem failed_ne_processed : statusFailed ≠ statusProcessed := by decide

theorem failed_ne_inProgress : statusFailed ≠ statusInProgress := by decide

/-! ## Sample concrete states (used by the witnesses below) -/

def shaA : String := "item-a"

def pathA : String := "inbox/a.json"

def sampleRecInProgress : JsonRec :=
  { emptyJsonRec with status := statusInProgress, startedAt := some 0 }

def sampleRecNoStart : JsonRec :=
  { emptyJsonRec with status := statusInProgress, startedAt := none }

def sampleJson : JsonState :=
  { records := [(shaA, sampleRecInProgress)]
    snapshots := [(pathA, (some 1, some 2))] }

def sampleJsonNoStart : JsonState :=
  { records := [(shaA, sampleRecNoStart)], snapshots := [] }

def sampleRowInProgress : SqliteRow :=
  { sha256 := shaA
    status := statusInProgress
    startedAt := some 0
    processedAt := none
    sourcePath := none
    sourceMtimeNs := none
    sourceSize := none
    archivePath := none
    topicFile := none
    codexStatus := none
    error := none }

def sampleRowNoStart : SqliteRow :=
  { sampleRowInProgress with startedAt := none }

def sampleRowProcessed : SqliteRow :=
  { sampleRowInProgress with
    status := statusProcessed
    startedAt := none
    processedAt := some 5
    sourcePath := some pathA
    sourceMtimeNs := some 1
    sourceSize := some 2 }

def sampleSqlite : SqliteState :=
  { rows := [sampleRowInProgress, sampleRowProcessed] }

def sampleSqliteNoStart : SqliteState := { rows := [sampleRowNoStart] }

/-! ## Claim C1 — `allow_retry_in_progress` semantics -/

/-- C1.  For every ledger state of either backend, every id and every
`ttl_seconds`: `allow_retry_in_progress` returns true when no record
exists; false when the record's status is `processed`; true when it is
`failed`; and when it is `in_progress` with a recorded `started_at`, it
returns true exactly when `now - started_at > ttl_seconds`, so it flips
from false to true once the elapsed time exceeds the TTL. -/
theorem wmt_c1_allow_retry_characterization (jst : JsonState)
    (sst : SqliteState) (sha : String) (ttl : Int) (now : ℚ) :
    ((jst.get sha = none → jst.allowRetryInProgress sha ttl now = true) ∧
      (∀ rec : JsonRec, jst.get sha = some rec →
        (rec.status = statusProcessed →
          jst.allowRetryInProgress sha ttl now = false) ∧
        (rec.status = statusFailed →
          jst.allowRetryInProgress sha ttl now = true) ∧
        (∀ t : ℚ, rec.status = statusInProgress → rec.startedAt = some t →
          (jst.allowRetryInProgress sha ttl now = true ↔
            now - t > (ttl : ℚ))))) ∧
    ((sst.get sha = none → sst.allowRetryInProgress sha ttl now = true) ∧
      (∀ row : SqliteRow, sst.get sha = some row →
        (row.status = statusProcessed →
          sst.allowRetryInProgress sha ttl now = false) ∧
        (row.status = statusFailed →
          sst.allowRetryInProgress sha ttl now = true) ∧
        (∀ t : ℚ, row.status = statusInProgress → row.startedAt = some t →
          (sst.allowRetryInProgress sha ttl now = true ↔
            now - t > (ttl : ℚ))))) := by
  constructor
  · constructor
    · intro h
      simp [JsonState.allowRetryInProgress, h]
    · intro rec h
      refine ⟨fun hs => ?_, fun hs => ?_, fun t hs hst => ?_⟩
      · simp [JsonState.allowRetryInProgress, h, hs]
      · have h1 : rec.status ≠ statusProcessed := by
          rw [hs]; decide
        have h2 : rec.status ≠ statusInProgress := by
          rw [hs]; decide
        simp [JsonState.allowRetryInProgress, h, h1, h2]
      · have h1 : rec.status ≠ statusProcessed := by
          rw [hs]; decide
        simp [JsonState.allowRetryInProgress, h, h1, hs, hst,
          inProgress_ne_processed]
  · constructor
    · intro h
      simp [SqliteState.allowRetryInProgress, h]
    · intro row h
      refine ⟨fun hs => ?_, fun hs => ?_, fun t hs hst => ?_⟩
      · simp [SqliteState.allowRetryInProgress, h, hs]
      · have h1 : row.status ≠ statusProcessed := by
          rw [hs]; decide
        have h2 : row.status ≠ statusInProgress := by
          rw [hs]; decide
        simp [SqliteState.allowRetryInProgress, h, h1, h2]
      · have h1 : row.status ≠ statusProcessed := by
          rw [hs]; decide
        simp [SqliteState.allowRetryInProgress, h, h1, hs, hst,
          inProgress_ne_processed]

/-- Witness for C1 at a concrete state: an `in_progress` record started
at time 0 is retryable at time 11 with a 10-second TTL on both backends. -/
theorem wmt_c1_witness :
    sampleJson.allowRetryInProgress shaA 10 11 = true ∧
    sampleSqlite.allowRetryInProgress shaA 10 11 = true := by
  have h := wmt_c1_allow_retry_characterization sampleJson sampleSqlite shaA 10 11
  refine ⟨?_, ?_⟩
  · exact ((h.1.2 sampleRecInProgress (by decide)).2.2 0 (by decide)
      (by decide)).mpr (by norm_num)
  · exact ((h.2.2 sampleRowInProgress (by decide)).2.2 0 (by decide)
      (by decide)).mpr (by norm_num)

/-! ## Claim C10 — null `started_at` never blocks a retry -/

/-- C10.  In either backend, an `in_progress` record whose `started_at`
is null allows a retry for every TTL and every current time. -/
theorem wmt_c10_null_started_at_retryable (jst : JsonState)
    (sst : SqliteState) (sha : String) (ttl : Int) (now : ℚ) :
    (∀ rec : JsonRec, jst.get sha = some rec →
      rec.status = statusInProgress → rec.startedAt = none →
      jst.allowRetryInProgress sha ttl now = true) ∧
    (∀ row : SqliteRow, sst.get sha = some row →
      row.status = statusInProgress → row.startedAt = none →
      sst.allowRetryInProgress sha ttl now = true) := by
  constructor
  · intro rec h hs hst
    have h1 : rec.status ≠ statusProcessed := by
      rw [hs]; decide
    simp [JsonState.allowRetryInProgress, h, h1, hs, hst,
      inProgress_ne_processed]
  · intro row h hs hst
    have h1 : row.status ≠ statusProcessed := by
      rw [hs]; decide
    simp [SqliteState.allowRetryInProgress, h, h1, hs, hst,
      inProgress_ne_processed]

/-- Witness for C10 at a concrete state, with a huge TTL. -/
theorem wmt_c10_witness :
    sampleJsonNoStart.allowRetryInProgress shaA 1000000 0 = true ∧
    sampleSqliteNoStart.allowRetryInProgress shaA 1000000 0 = true := by
  have h := wmt_c10_null_started_at_retryable sampleJsonNoStart
    sampleSqliteNoStart shaA 1000000 0
  exact ⟨h.1 sampleRecNoStart (by decide) (by decide) (by decide),
    h.2 sampleRowNoStart (by decide) (by decide) (by decide)⟩

/-! ## Claim C7 — `is_source_processed` semantics -/

/-- C7.  In either backend, `is_source_processed` compares the requested
`(mtime, size)` with the stored snapshot for the path (for SQLite, the
snapshot columns of the most recently processed row for that path): with
no stored snapshot there is no match and the result is false; if any of
the four values is missing the result is conservatively true; otherwise
the result is true exactly when both values match. -/
theorem wmt_c7_source_processed_characterization (jst : JsonState)
    (sst : SqliteState) (p : String) (reqM reqS : Option Int) :
    ((alGet jst.snapshots p = none → jst.isSourceProcessed p reqM reqS = false) ∧
      (∀ m s : Option Int, alGet jst.snapshots p = some (m, s) →
        ((m = none ∨ s = none ∨ reqM = none ∨ reqS = none) →
          jst.isSourceProcessed p reqM reqS = true) ∧
        (∀ mv sv rmv rsv : Int, m = some mv → s = some sv →
          reqM = some rmv → reqS = some rsv →
          (jst.isSourceProcessed p reqM reqS = true ↔ (mv = rmv ∧ sv = rsv))))) ∧
    ((sst.latestProcessedRow p = none →
        sst.isSourceProcessed p reqM reqS = false) ∧
      (∀ row : SqliteRow, sst.latestProcessedRow p = some row →
        ((row.sourceMtimeNs = none ∨ row.sourceSize = none ∨
            reqM = none ∨ reqS = none) →
          sst.isSourceProcessed p reqM reqS = true) ∧
        (∀ mv sv rmv rsv : Int, row.sourceMtimeNs = some mv →
          row.sourceSize = some sv → reqM = some rmv → reqS = some rsv →
          (sst.isSourceProcessed p reqM reqS = true ↔ (mv = rmv ∧ sv = rsv))))) := by
  constructor
  · constructor
    · intro h
      simp [JsonState.isSourceProcessed, h]
    · intro m s h
      constructor
      · intro hmiss
        rcases hmiss with hm | hs | hrm | hrs
        · simp [JsonState.isSourceProcessed, h, hm]
        · simp [JsonState.isSourceProcessed, h, hs]
        · simp [JsonState.isSourceProcessed, h, hrm]
        · simp [JsonState.isSourceProcessed, h, hrs]
      · intro mv sv rmv rsv hm hs hrm hrs
        subst hm hs hrm hrs
        simp [JsonState.isSourceProcessed, h]
  · constructor
    · intro h
      simp [SqliteState.isSourceProcessed, h]
    · intro row h
      constructor
      · intro hmiss
        rcases hmiss with hm | hs | hrm | hrs
        · simp [SqliteState.isSourceProcessed, h, hm]
        · simp [SqliteState.isSourceProcessed, h, hs]
        · simp [SqliteState.isSourceProcessed, h, hrm]
        · simp [SqliteState.isSourceProcessed, h, hrs]
      · intro mv sv rmv rsv hm hs hrm hrs
        simp [SqliteState.isSourceProcessed, h, hm, hs, hrm, hrs]

/-- Witness for C7 at a concrete state: a matching snapshot on both
backends, and a mismatching request on the JSON backend. -/
theorem wmt_c7_witness :
    sampleJson.isSourceProcessed pathA (some 1) (some 2) = true ∧
    sampleJson.isSourceProcessed pathA (some 1) (some 3) = false ∧
    sampleSqlite.isSourceProcessed pathA (some 1) (some 2) = true := by
  have h := wmt_c7_source_processed_characterization sampleJson sampleSqlite
    pathA (some 1) (some 2)
  have h3 := wmt_c7_source_processed_characterization sampleJson sampleSqlite
    pathA (some 1) (some 3)
  refine ⟨?_, ?_, ?_⟩
  · exact ((h.1.2 (some 1) (some 2) (by decide)).2 1 2 1 2 rfl rfl rfl rfl).mpr
      ⟨rfl, rfl⟩
  · have := (h3.1.2 (some 1) (some 2) (by decide)).2 1 2 1 3 rfl rfl rfl rfl
    rcases hb : sampleJson.isSourceProcessed pathA (some 1) (some 3) with _ | _
    · rfl
    · exact absurd (this.mp hb).2 (by decide)
  · exact ((h.2.2 sampleRowProcessed (by decide)).2 1 2 1 2 rfl rfl rfl rfl).mpr
      ⟨rfl, rfl⟩

/-! ## Claim C5 — `mark_in_progress` semantics -/

theorem getRows_append_of_none (rows l : List SqliteRow) (sha : String)
    (h : getRows rows sha = none) : getRows (rows ++ l) sha = getRows l sha := by
  induction rows with
  | nil => simp
  | cons r t ih =>
    by_cases hr : r.sha256 = sha
    · simp [getRows, hr] at h
    · simp only [getRows, if_neg hr] at h
      simp [getRows, hr, ih h]

theorem getRows_sqliteUpdate (rows : List SqliteRow) (sha : String)
    (f : SqliteRow → SqliteRow) (hf : ∀ r, (f r).sha256 = r.sha256) :
    getRows (sqliteUpdate rows sha f) sha = (getRows rows sha).map f := by
  induction rows with
  | nil => simp [sqliteUpdate, getRows]
  | cons r t ih =>
    by_cases hr : r.sha256 = sha
    · simp [sqliteUpdate, getRows, hr, hf]
    · have h1 : sqliteUpdate (r :: t) sha f = r :: sqliteUpdate t sha f := by
        simp [sqliteUpdate, hr]
      rw [h1]
      simp only [getRows, if_neg hr]
      exact ih

/-- C5.  In either backend: `mark_in_progress` with `force` false is a
no-op (the whole state is unchanged) when a record already exists;
otherwise it (re)writes the record with status `in_progress`,
`started_at = now`, a cleared `error`, and the supplied source snapshot
fields.  On a fresh ledger, after `mark_in_progress` the id is still not
processed, and `allow_retry_in_progress` with `ttl = 3600` is false as
long as at most 3600 seconds have elapsed. -/
theorem wmt_c5_mark_in_progress (sha p : String) (m s : Option Int)
    (force : Bool) (now : ℚ) :
    (∀ jst : JsonState, alMem jst.records sha = true →
      jst.markInProgress sha p m s false now = jst) ∧
    (∀ sst : SqliteState, (sst.get sha).isSome = true →
      sst.markInProgress sha p m s false now = sst) ∧
    (∀ jst : JsonState, (alMem jst.records sha = false ∨ force = true) →
      ∃ rec : JsonRec,
        (jst.markInProgress sha p m s force now).get sha = some rec ∧
        rec.status = statusInProgress ∧ rec.startedAt = some now ∧
        rec.error = none ∧ rec.sourcePath = some p ∧
        rec.sourceMtimeNs = m ∧ rec.sourceSize = s) ∧
    (∀ sst : SqliteState, ((sst.get sha).isSome = false ∨ force = true) →
      ∃ row : SqliteRow,
        (sst.markInProgress sha p m s force now).get sha = some row ∧
        row.status = statusInProgress ∧ row.startedAt = some now ∧
        row.error = none ∧ row.sourcePath = some p ∧
        row.sourceMtimeNs = m ∧ row.sourceSize = s) ∧
    ((JsonState.fresh.markInProgress sha p m s force now).isProcessed sha
      = false) ∧
    (∀ now' : ℚ, now' - now ≤ 3600 →
      (JsonState.fresh.markInProgress sha p m s force now).allowRetryInProgress
        sha 3600 now' = false) ∧
    ((SqliteState.fresh.markInProgress sha p m s force now).isProcessed sha
      = false) ∧
    (∀ now' : ℚ, now' - now ≤ 3600 →
      (SqliteState.fresh.markInProgress sha p m s force
        now).allowRetryInProgress sha 3600 now' = false) := by
  have hjson_fresh :
      (JsonState.fresh.markInProgress sha p m s force now).get sha =
        some { emptyJsonRec with
          status := statusInProgress
          startedAt := some now
          processedAt := none
          sourcePath := some p
          sourceMtimeNs := m
          sourceSize := s
          error := none } := by
    simp [JsonState.markInProgress, JsonState.fresh, alMem, alGet,
      JsonState.get, alSet]
  have hsql_fresh :
      (SqliteState.fresh.markInProgress sha p m s force now).get sha =
        some { sha256 := sha
               status := statusInProgress
               startedAt := some now
               processedAt := none
               sourcePath := some p
               sourceMtimeNs := m
               sourceSize := s
               archivePath := none
               topicFile := none
               codexStatus := none
               error := none } := by
    simp [SqliteState.markInProgress, SqliteState.fresh, SqliteState.get,
      getRows]
  refine ⟨?_, ?_, ?_, ?_, ?_, ?_, ?_, ?_⟩
  · intro jst hmem
    simp [JsonState.markInProgress, hmem]
  · intro sst hsome
    rw [Option.isSome_iff_exists] at hsome
    obtain ⟨row, hrow⟩ := hsome
    simp only [SqliteState.markInProgress, SqliteState.get] at hrow ⊢
    rw [show getRows sst.rows sha = some row from hrow]
    simp
  · intro jst hcond
    have hnot : ¬(alMem jst.records sha ∧ ¬force) := by
      rcases hcond with hc | hc
      · intro hk
        rw [hc] at hk
        exact absurd hk.1 (by simp)
      · intro hk
        rw [hc] at hk
        exact hk.2 rfl
    refine ⟨{ (alGet jst.records sha).getD emptyJsonRec with
        status := statusInProgress
        startedAt := some now
        processedAt := none
        sourcePath := some p
        sourceMtimeNs := m
        sourceSize := s
        error := none }, ?_, rfl, rfl, rfl, rfl, rfl, rfl⟩
    simp only [JsonState.markInProgress, if_neg hnot, JsonState.get]
    exact alGet_alSet_self _ _ _
  · intro sst hcond
    rcases hrow : sst.get sha with _ | row
    · have hrow' : getRows sst.rows sha = none := hrow
      refine ⟨{ sha256 := sha
                status := statusInProgress
                startedAt := some now
                processedAt := none
                sourcePath := some p
                sourceMtimeNs := m
                sourceSize := s
                archivePath := none
                topicFile := none
                codexStatus := none
                error := none }, ?_, rfl, rfl, rfl, rfl, rfl, rfl⟩
      simp only [SqliteState.markInProgress, SqliteState.get, hrow']
      rw [getRows_append_of_none _ _ _ hrow']
      simp [getRows]
    · have hrow' : getRows sst.rows sha = some row := hrow
      have hforce : force = true := by
        rcases hcond with hc | hc
        · rw [hrow] at hc
          simp at hc
        · exact hc
      subst hforce
      refine ⟨{ row with
        status := statusInProgress
        startedAt := some now
        sourcePath := some p
        sourceMtimeNs := m
        sourceSize := s
        error := none }, ?_, rfl, rfl, rfl, rfl, rfl, rfl⟩
      have hupd := getRows_sqliteUpdate sst.rows sha
        (fun r =>
          { r with
            status := statusInProgress
            startedAt := some now
            sourcePath := some p
            sourceMtimeNs := m
            sourceSize := s
            error := none }) (fun r => rfl)
      simp [SqliteState.markInProgress, SqliteState.get, hrow', hupd]
  · simp [JsonState.isProcessed, hjson_fresh, inProgress_ne_processed]
  · intro now' hle
    simp only [JsonState.allowRetryInProgress, hjson_fresh]
    simp [inProgress_ne_processed]
    linarith
  · simp [SqliteState.isProcessed, hsql_fresh, inProgress_ne_processed]
  · intro now' hle
    simp only [SqliteState.allowRetryInProgress, hsql_fresh]
    simp [inProgress_ne_processed]
    linarith

/-- Witness for C5: concrete no-op on an existing record, and concrete
fresh-ledger behaviour at `now = now' = 7`. -/
theorem wmt_c5_witness :
    sampleJson.markInProgress shaA pathA none none false 7 = sampleJson ∧
    (JsonState.fresh.markInProgress shaA pathA none none false
      7).allowRetryInProgress shaA 3600 7 = false ∧
    (SqliteState.fresh.markInProgress shaA pathA none none false
      7).isProcessed shaA = false := by
  have h := wmt_c5_mark_in_progress shaA pathA none none false 7
  exact ⟨h.1 sampleJson (by decide),
    h.2.2.2.2.2.1 7 (by norm_num), h.2.2.2.2.2.2.1⟩

/-! ## Claim C8 — stable-file tracker -/

theorem observeGo_skip (w : Int) (now : ℚ)
    (l : List (String × Option StatSnapshot))
    (seen : List (String × (StatSnapshot × ℚ))) (p : String)
    (hp : p ∉ l.map Prod.fst) :
    alGet (observeGo w now l seen).2 p = alGet seen p ∧
      p ∉ (observeGo w now l seen).1 := by
  induction l generalizing seen with
  | nil => simp [observeGo]
  | cons c rest ih =>
    obtain ⟨q, stat⟩ := c
    have hq : q ≠ p := by
      intro h
      exact hp (by simp [h])
    have hq' : ¬p = q := fun h => hq h.symm
    have hrest : p ∉ rest.map Prod.fst := by
      intro h
      exact hp (by simp [h])
    match stat with
    | none => exact ih _ hrest
    | some snap =>
      simp only [observeGo]
      rcases hg : alGet seen q with _ | pr
      · have h2 := ih (alSet seen q (snap, now)) hrest
        refine ⟨?_, ?_⟩
        · show alGet (observeGo w now rest (alSet seen q (snap, now))).2 p = _
          rw [h2.1, alGet_alSet_ne _ _ _ _ hq]
        · show p ∉ (if w ≤ 0 then
              q :: (observeGo w now rest (alSet seen q (snap, now))).1
            else (observeGo w now rest (alSet seen q (snap, now))).1)
          by_cases hw : w ≤ 0
          · rw [if_pos hw]
            intro hm
            rcases List.mem_cons.mp hm with h | h
            · exact hq' h
            · exact h2.2 h
          · rw [if_neg hw]
            exact h2.2
      · obtain ⟨ps, t⟩ := pr
        by_cases hne : snap ≠ ps
        · simp only [if_pos hne]
          have h2 := ih (alSet seen q (snap, now)) hrest
          exact ⟨h2.1.trans (alGet_alSet_ne _ _ _ _ hq), h2.2⟩
        · simp only [if_neg hne]
          by_cases hst : (now - t) ≥ (w : ℚ)
          · simp only [if_pos hst]
            have h2 := ih seen hrest
            refine ⟨h2.1, ?_⟩
            intro hm
            rcases List.mem_cons.mp hm with h | h
            · exact hq' h
            · exact h2.2 h
          · simp only [if_neg hst]
            exact ih seen hrest

theorem observeGo_append (w : Int) (now : ℚ)
    (l₁ l₂ : List (String × Option StatSnapshot))
    (seen : List (String × (StatSnapshot × ℚ))) :
    observeGo w now (l₁ ++ l₂) seen =
      ((observeGo w now l₁ seen).1 ++
        (observeGo w now l₂ (observeGo w now l₁ seen).2).1,
       (observeGo w now l₂ (observeGo w now l₁ seen).2).2) := by
  induction l₁ generalizing seen with
  | nil => simp [observeGo]
  | cons c rest ih =>
    obtain ⟨q, stat⟩ := c
    match stat with
    | none =>
      show observeGo w now ((q, none) :: (rest ++ l₂)) seen = _
      simp only [observeGo]
      exact ih seen
    | some snap =>
      show observeGo w now ((q, some snap) :: (rest ++ l₂)) seen = _
      simp only [observeGo]
      rcases hg : alGet seen q with _ | pr
      · simp only [hg]
        rw [ih (alSet seen q (snap, now))]
        by_cases hw : w ≤ 0 <;> simp [hw]
      · obtain ⟨ps, t⟩ := pr
        simp only [hg]
        by_cases hne : snap ≠ ps
        · simp only [if_pos hne]
          exact ih (alSet seen q (snap, now))
        · simp only [if_neg hne]
          by_cases hst : (now - t) ≥ (w : ℚ)
          · simp only [if_pos hst]
            rw [ih seen]
            simp
          · simp only [if_neg hst]
            exact ih seen

/-- C8.  One poll of the stable-file tracker over a candidate path `p`
(appearing once among the candidates, with a successful stat `snap`):
a path seen for the first time is reported stable exactly when the
configured window is ≤ 0 (and its snapshot/timestamp are recorded); a
changed snapshot resets the stored timestamp to `now` and is not stable
this poll; an unchanged snapshot is stable exactly when the elapsed time
since the stored timestamp is ≥ the window. -/
theorem wmt_c8_stable_tracker (w : Int) (st : TrackerState)
    (l₁ l₂ : List (String × Option StatSnapshot)) (p : String)
    (snap : StatSnapshot) (now : ℚ)
    (h₁ : p ∉ l₁.map Prod.fst) (h₂ : p ∉ l₂.map Prod.fst) :
    (alGet st.seen p = none →
      ((p ∈ (st.observe w (l₁ ++ (p, some snap) :: l₂) now).1 ↔ w ≤ 0) ∧
        alGet (st.observe w (l₁ ++ (p, some snap) :: l₂) now).2.seen p =
          some (snap, now))) ∧
    (∀ ps : StatSnapshot, ∀ t : ℚ, alGet st.seen p = some (ps, t) →
      snap ≠ ps →
      (p ∉ (st.observe w (l₁ ++ (p, some snap) :: l₂) now).1 ∧
        alGet (st.observe w (l₁ ++ (p, some snap) :: l₂) now).2.seen p =
          some (snap, now))) ∧
    (∀ t : ℚ, alGet st.seen p = some (snap, t) →
      (p ∈ (st.observe w (l₁ ++ (p, some snap) :: l₂) now).1 ↔
        now - t ≥ (w : ℚ))) := by
  set cs := l₁ ++ (p, some snap) :: l₂ with hcs
  have hkeep : alGet (st.seen.filter (fun e => cs.any (fun c => c.1 = e.1))) p
      = alGet st.seen p := by
    apply alGet_filter_of_kept
    intro v
    simp only [List.any_eq_true, decide_eq_true_eq]
    exact ⟨(p, some snap), by simp [hcs], rfl⟩
  set pruned := st.seen.filter (fun e => cs.any (fun c => c.1 = e.1))
    with hpruned
  have hskip₁ := observeGo_skip w now l₁ pruned p h₁
  set seen₁ := (observeGo w now l₁ pruned).2 with hseen₁
  have hobs : st.observe w cs now =
      ((observeGo w now l₁ pruned).1 ++
        (observeGo w now ((p, some snap) :: l₂) seen₁).1,
       { seen := (observeGo w now ((p, some snap) :: l₂) seen₁).2 }) := by
    simp only [TrackerState.observe, ← hpruned]
    rw [hcs, observeGo_append]
  have hget₁ : alGet seen₁ p = alGet st.seen p := by
    rw [hseen₁, hskip₁.1, hkeep]
  refine ⟨?_, ?_, ?_⟩
  · intro hnone
    have hstep : observeGo w now ((p, some snap) :: l₂) seen₁ =
        (if w ≤ 0 then
          p :: (observeGo w now l₂ (alSet seen₁ p (snap, now))).1
         else (observeGo w now l₂ (alSet seen₁ p (snap, now))).1,
         (observeGo w now l₂ (alSet seen₁ p (snap, now))).2) := by
      simp only [observeGo, hget₁.trans hnone]
    have hskip₂ := observeGo_skip w now l₂ (alSet seen₁ p (snap, now)) p h₂
    constructor
    · rw [hobs, hstep]
      constructor
      · intro hmem
        rcases List.mem_append.mp hmem with hm | hm
        · exact absurd hm hskip₁.2
        · by_cases hw : w ≤ 0
          · exact hw
          · rw [if_neg hw] at hm
            exact absurd hm hskip₂.2
      · intro hw
        simp [hw]
    · rw [hobs, hstep]
      simp only
      rw [hskip₂.1, alGet_alSet_self]
  · intro ps t hsome hne
    have hstep : observeGo w now ((p, some snap) :: l₂) seen₁ =
        observeGo w now l₂ (alSet seen₁ p (snap, now)) := by
      simp only [observeGo, hget₁.trans hsome, if_pos hne]
    have hskip₂ := observeGo_skip w now l₂ (alSet seen₁ p (snap, now)) p h₂
    constructor
    · rw [hobs, hstep]
      intro hmem
      rcases List.mem_append.mp hmem with hm | hm
      · exact absurd hm hskip₁.2
      · exact absurd hm hskip₂.2
    · rw [hobs, hstep]
      simp only
      rw [hskip₂.1, alGet_alSet_self]
  · intro t hsome
    have hnn : ¬(snap ≠ snap) := by simp
    by_cases hst : (now - t) ≥ (w : ℚ)
    · have hstep : observeGo w now ((p, some snap) :: l₂) seen₁ =
          (p :: (observeGo w now l₂ seen₁).1,
           (observeGo w now l₂ seen₁).2) := by
        simp only [observeGo, hget₁.trans hsome, if_neg hnn, if_pos hst]
      rw [hobs, hstep]
      simp [hst]
    · have hstep : observeGo w now ((p, some snap) :: l₂) seen₁ =
          observeGo w now l₂ seen₁ := by
        simp only [observeGo, hget₁.trans hsome, if_neg hnn, if_neg hst]
      have hskip₂ := observeGo_skip w now l₂ seen₁ p h₂
      rw [hobs, hstep]
      constructor
      · intro hmem
        rcases List.mem_append.mp hmem with hm | hm
        · exact absurd hm hskip₁.2
        · exact absurd hm hskip₂.2
      · intro hge
        exact absurd hge hst

def snapA : StatSnapshot := { size := 1, mtimeNs := 100 }

def trackerAfter0 : TrackerState :=
  (TrackerState.fresh.observe 10 [(pathA, some snapA)] 0).2

/-- Witness for C8: with `stable_seconds = 10`, a file first seen at
t = 0 is not stable then, is still not stable at t = 9, and is stable at
t = 10.1. -/
theorem wmt_c8_witness :
    pathA ∉ (TrackerState.fresh.observe 10 [(pathA, some snapA)] 0).1 ∧
    pathA ∉ (trackerAfter0.observe 10 [(pathA, some snapA)] 9).1 ∧
    pathA ∈ (trackerAfter0.observe 10 [(pathA, some snapA)]
      (10.1 : ℚ)).1 := by
  have hempty : pathA ∉ ([] : List (String × Option StatSnapshot)).map
      Prod.fst := by simp
  have h0 := wmt_c8_stable_tracker 10 TrackerState.fresh [] [] pathA snapA 0
    hempty hempty
  have h9 := wmt_c8_stable_tracker 10 trackerAfter0 [] [] pathA snapA 9
    hempty hempty
  have h10 := wmt_c8_stable_tracker 10 trackerAfter0 [] [] pathA snapA
    (10.1 : ℚ) hempty hempty
  refine ⟨?_, ?_, ?_⟩
  · intro hmem
    have := ((h0.1 (by decide)).1).mp (by simpa using hmem)
    norm_num at this
  · intro hmem
    have := (h9.2.2 0 (by decide)).mp (by simpa using hmem)
    norm_num at this
  · have := (h10.2.2 0 (by decide)).mpr (by norm_num)
    simpa using this

/-! ## Claim C2 — behavioural equivalence of the two backends

The three observables of the claim (`stats`, `is_processed`,
`allow_retry_in_progress`) depend only on each record's status together
with its `started_at` when the status is `in_progress`.  We prove that a
fresh JSON store and a fresh SQLite store, fed the same call sequence,
always agree on that projection, and derive the three observables. -/

/-- The part of a record the three observables can see. -/
def obsOf (status : String) (startedAt : Option ℚ) : String × Option ℚ :=
  (status, if status = statusInProgress then startedAt else none)

def recObs (rec : JsonRec) : String × Option ℚ := obsOf rec.status rec.startedAt

def rowObs (row : SqliteRow) : String × Option ℚ := obsOf row.status row.startedAt

def JsonState.obsList (st : JsonState) : List (String × (String × Option ℚ)) :=
  st.records.map (fun e => (e.1, recObs e.2))

def SqliteState.obsList (st : SqliteState) : List (String × (String × Option ℚ)) :=
  st.rows.map (fun r => (r.sha256, rowObs r))

/-- Invariant tying the two backends together. -/
def ledgerInv (jst : JsonState) (sst : SqliteState) : Prop :=
  jst.obsList = sst.obsList ∧ (jst.records.map Prod.fst).Nodup

theorem alGet_map {α β : Type} (f : α → β) (l : List (String × α)) (k : String) :
    alGet (l.map (fun e => (e.1, f e.2))) k = (alGet l k).map f := by
  induction l with
  | nil => simp [alGet]
  | cons e t ih =>
    by_cases h : e.1 = k
    · simp [alGet, h]
    · simp [alGet, h, ih]

theorem alGet_rows_map {β : Type} (g : SqliteRow → β) (rows : List SqliteRow)
    (sha : String) :
    alGet (rows.map (fun r => (r.sha256, g r))) sha =
      (getRows rows sha).map g := by
  induction rows with
  | nil => simp [alGet, getRows]
  | cons r t ih =>
    by_cases h : r.sha256 = sha
    · simp [alGet, getRows, h]
    · simp [alGet, getRows, h, ih]

theorem alGet_eq_none_iff {α : Type} (l : List (String × α)) (k : String) :
    alGet l k = none ↔ k ∉ l.map Prod.fst := by
  induction l with
  | nil => simp [alGet]
  | cons e t ih =>
    by_cases h : e.1 = k
    · simp [alGet, h]
    · simp only [alGet, if_neg h, List.map_cons, List.mem_cons, ih]
      constructor
      · intro hn hc
        rcases hc with hc | hc
        · exact h hc.symm
        · exact hn hc
      · intro hn
        exact fun hc => hn (Or.inr hc)

theorem getRows_eq_none_iff (rows : List SqliteRow) (sha : String) :
    getRows rows sha = none ↔ sha ∉ rows.map SqliteRow.sha256 := by
  induction rows with
  | nil => simp [getRows]
  | cons r t ih =>
    by_cases h : r.sha256 = sha
    · simp [getRows, h]
    · simp only [getRows, if_neg h, List.map_cons, List.mem_cons, ih]
      constructor
      · intro hn hc
        rcases hc with hc | hc
        · exact h hc.symm
        · exact hn hc
      · intro hn
        exact fun hc => hn (Or.inr hc)

theorem alSet_map_comm {α β : Type} (f : α → β) (l : List (String × α))
    (k : String) (v : α) :
    (alSet l k v).map (fun e => (e.1, f e.2)) =
      alSet (l.map (fun e => (e.1, f e.2))) k (f v) := by
  induction l with
  | nil => simp [alSet]
  | cons e t ih =>
    by_cases h : e.1 = k
    · simp [alSet, h]
    · simp [alSet, h, ih]

theorem map_fst_alSet_of_get_some {α : Type} (l : List (String × α))
    (k : String) (v w : α) (h : alGet l k = some w) :
    (alSet l k v).map Prod.fst = l.map Prod.fst := by
  induction l with
  | nil => simp [alGet] at h
  | cons e t ih =>
    by_cases he : e.1 = k
    · simp [alSet, he]
    · simp only [alGet, if_neg he] at h
      simp [alSet, he, ih h]

theorem sqliteUpdate_of_absent (rows : List SqliteRow) (sha : String)
    (f : SqliteRow → SqliteRow) (h : sha ∉ rows.map SqliteRow.sha256) :
    sqliteUpdate rows sha f = rows := by
  induction rows with
  | nil => simp [sqliteUpdate]
  | cons r t ih =>
    have hr : ¬r.sha256 = sha := by
      intro hc
      exact h (by simp [hc])
    have ht : sha ∉ t.map SqliteRow.sha256 := by
      intro hc
      exact h (by simp [hc])
    simp only [sqliteUpdate, List.map_cons, if_neg hr]
    have := ih ht
    simp only [sqliteUpdate] at this
    rw [this]

theorem sqliteUpdate_cons (r : SqliteRow) (t : List SqliteRow) (sha : String)
    (f : SqliteRow → SqliteRow) :
    sqliteUpdate (r :: t) sha f =
      (if r.sha256 = sha then f r else r) :: sqliteUpdate t sha f := rfl

/-- Updating a present key (with a key-preserving, observation-constant
row function) acts on the observable projection exactly like `alSet`. -/
theorem obs_sqliteUpdate (rows : List SqliteRow) (sha : String)
    (f : SqliteRow → SqliteRow) (v : String × Option ℚ)
    (hsha : ∀ r, (f r).sha256 = r.sha256) (hv : ∀ r, rowObs (f r) = v)
    (hnd : (rows.map SqliteRow.sha256).Nodup)
    (hpres : sha ∈ rows.map SqliteRow.sha256) :
    (sqliteUpdate rows sha f).map (fun r => (r.sha256, rowObs r)) =
      alSet (rows.map (fun r => (r.sha256, rowObs r))) sha v := by
  induction rows with
  | nil => simp at hpres
  | cons r t ih =>
    have hnd' : (t.map SqliteRow.sha256).Nodup := (List.nodup_cons.mp hnd).2
    rw [sqliteUpdate_cons]
    by_cases hr : r.sha256 = sha
    · have habs : sha ∉ t.map SqliteRow.sha256 := by
        rw [← hr]
        exact (List.nodup_cons.mp hnd).1
      rw [if_pos hr, sqliteUpdate_of_absent t sha f habs]
      have h1 : alSet ((r.sha256, rowObs r) ::
            t.map (fun r => (r.sha256, rowObs r))) sha v
          = (sha, v) :: t.map (fun r => (r.sha256, rowObs r)) := by
        simp [alSet, hr]
      simp only [List.map_cons]
      rw [h1, hsha, hv, hr]
    · have hpres' : sha ∈ t.map SqliteRow.sha256 := by
        rcases List.mem_cons.mp hpres with h | h
        · exact absurd h.symm hr
        · exact h
      rw [if_neg hr]
      simp only [List.map_cons, alSet, if_neg hr]
      rw [ih hnd' hpres']

theorem map_fst_obs_json (jst : JsonState) :
    jst.obsList.map Prod.fst = jst.records.map Prod.fst := by
  simp [JsonState.obsList, List.map_map]

theorem map_fst_obs_sql (sst : SqliteState) :
    sst.obsList.map Prod.fst = sst.rows.map SqliteRow.sha256 := by
  simp [SqliteState.obsList, List.map_map]

theorem processed_ne_inProgress : statusProcessed ≠ statusInProgress := by
  decide

theorem obsOf_inProgress (now : ℚ) :
    obsOf statusInProgress (some now) = (statusInProgress, some now) := by
  simp [obsOf]

theorem obsOf_processed (sa : Option ℚ) :
    obsOf statusProcessed sa = (statusProcessed, none) := by
  simp [obsOf, processed_ne_inProgress]

theorem obsOf_failed (sa : Option ℚ) :
    obsOf statusFailed sa = (statusFailed, none) := by
  simp [obsOf, failed_ne_inProgress]

theorem nodup_alSet {α : Type} (l : List (String × α)) (k : String) (v : α)
    (hnd : (l.map Prod.fst).Nodup) : ((alSet l k v).map Prod.fst).Nodup := by
  rcases h : alGet l k with _ | w
  · rw [alSet_of_notMem l k v h]
    have hk : k ∉ l.map Prod.fst := (alGet_eq_none_iff l k).mp h
    simp only [List.map_append, List.map_cons, List.map_nil]
    exact List.Nodup.append hnd (by simp) (by simp [List.disjoint_right, hk])
  · rw [map_fst_alSet_of_get_some l k v w h]
    exact hnd

theorem inv_lookup (jst : JsonState) (sst : SqliteState)
    (hobs : jst.obsList = sst.obsList) (sha : String) :
    (alGet jst.records sha).map recObs = (getRows sst.rows sha).map rowObs := by
  have h := congrArg (fun l => alGet l sha) hobs
  simpa [JsonState.obsList, SqliteState.obsList, alGet_map, alGet_rows_map]
    using h

theorem inv_nodup_sql (jst : JsonState) (sst : SqliteState)
    (hobs : jst.obsList = sst.obsList)
    (hnd : (jst.records.map Prod.fst).Nodup) :
    (sst.rows.map SqliteRow.sha256).Nodup := by
  rw [← map_fst_obs_sql, ← hobs, map_fst_obs_json]
  exact hnd

/-- `mark_in_progress` preserves the cross-backend invariant. -/
theorem inv_markInProgress (jst : JsonState) (sst : SqliteState)
    (h : ledgerInv jst sst) (sha p : String) (m s : Option Int)
    (force : Bool) (now : ℚ) :
    ledgerInv (jst.markInProgress sha p m s force now)
      (sst.markInProgress sha p m s force now) := by
  obtain ⟨hobs, hnd⟩ := h
  have hnds := inv_nodup_sql jst sst hobs hnd
  have hlk := inv_lookup jst sst hobs sha
  rcases hj : alGet jst.records sha with _ | rec
  · -- no record on either side: both insert
    have hs : getRows sst.rows sha = none := by
      rw [hj] at hlk
      rcases hgr : getRows sst.rows sha with _ | row
      · rfl
      · rw [hgr] at hlk
        simp at hlk
    have hcond : ¬((alMem jst.records sha : Prop) ∧ ¬(force : Prop)) := by
      intro hk
      have : alMem jst.records sha = true := hk.1
      simp [alMem, hj] at this
    have hjrec : (jst.markInProgress sha p m s force now).records =
        alSet jst.records sha
          { (alGet jst.records sha).getD emptyJsonRec with
            status := statusInProgress
            startedAt := some now
            processedAt := none
            sourcePath := some p
            sourceMtimeNs := m
            sourceSize := s
            error := none } := by
      simp only [JsonState.markInProgress, if_neg hcond]
    have hjobs : alGet jst.obsList sha = none := by
      simp [JsonState.obsList, alGet_map, hj]
    have hsobs : alGet sst.obsList sha = none := by
      simp [SqliteState.obsList, alGet_rows_map, hs]
    constructor
    · show (jst.markInProgress sha p m s force now).obsList = _
      simp only [JsonState.obsList, hjrec, alSet_map_comm]
      rw [show (jst.records.map (fun e => (e.1, recObs e.2))) = jst.obsList
        from rfl]
      rw [alSet_of_notMem _ _ _ hjobs]
      show _ = SqliteState.obsList _
      simp only [SqliteState.markInProgress, SqliteState.get, hs,
        SqliteState.obsList, List.map_append, List.map_cons, List.map_nil]
      rw [show (sst.rows.map (fun r => (r.sha256, rowObs r)))
        = sst.obsList from rfl]
      rw [hobs]
      simp [recObs, rowObs, obsOf_inProgress, hj]
    · rw [hjrec]
      exact nodup_alSet _ _ _ hnd
  · -- record exists on both sides
    have hs : ∃ row, getRows sst.rows sha = some row := by
      rw [hj] at hlk
      rcases hgr : getRows sst.rows sha with _ | row
      · rw [hgr] at hlk
        simp at hlk
      · exact ⟨row, rfl⟩
    obtain ⟨row, hs⟩ := hs
    by_cases hforce : force = true
    · -- force: both rewrite in place
      have hcond : ¬((alMem jst.records sha : Prop) ∧ ¬(force : Prop)) := by
        intro hk
        rw [hforce] at hk
        exact hk.2 rfl
      have hjrec : (jst.markInProgress sha p m s force now).records =
          alSet jst.records sha
            { (alGet jst.records sha).getD emptyJsonRec with
              status := statusInProgress
              startedAt := some now
              processedAt := none
              sourcePath := some p
              sourceMtimeNs := m
              sourceSize := s
              error := none } := by
        simp only [JsonState.markInProgress, if_neg hcond]
      have hpres : sha ∈ sst.rows.map SqliteRow.sha256 := by
        by_contra hc
        rw [(getRows_eq_none_iff sst.rows sha).mpr hc] at hs
        exact Option.noConfusion hs
      have hsrows : (sst.markInProgress sha p m s force now).rows =
          sqliteUpdate sst.rows sha (fun r =>
            { r with
              status := statusInProgress
              startedAt := some now
              sourcePath := some p
              sourceMtimeNs := m
              sourceSize := s
              error := none }) := by
        simp only [SqliteState.markInProgress, SqliteState.get, hs, hforce]
        simp
      have hupd := obs_sqliteUpdate sst.rows sha
        (fun r =>
          { r with
            status := statusInProgress
            startedAt := some now
            sourcePath := some p
            sourceMtimeNs := m
            sourceSize := s
            error := none }) (statusInProgress, some now)
        (fun r => rfl) (fun r => by simp [rowObs, obsOf]) hnds hpres
      constructor
      · show (jst.markInProgress sha p m s force now).obsList = _
        simp only [JsonState.obsList, hjrec, alSet_map_comm]
        rw [show (jst.records.map (fun e => (e.1, recObs e.2))) = jst.obsList
          from rfl]
        show _ = SqliteState.obsList _
        simp only [SqliteState.obsList, hsrows]
        rw [hupd]
        rw [show (sst.rows.map (fun r => (r.sha256, rowObs r)))
          = sst.obsList from rfl]
        rw [hobs]
        simp [recObs, obsOf]
      · rw [hjrec]
        exact nodup_alSet _ _ _ hnd
    · -- not force: both no-ops
      have hf : force = false := by
        simpa using hforce
      subst hf
      have halMem : alMem jst.records sha = true := by
        simp [alMem, hj]
      have hjeq : jst.markInProgress sha p m s false now = jst := by
        simp [JsonState.markInProgress, halMem]
      have hseq : sst.markInProgress sha p m s false now = sst := by
        simp only [SqliteState.markInProgress, SqliteState.get, hs]
        simp
      rw [hjeq, hseq]
      exact ⟨hobs, hnd⟩

/-- `mark_processed` preserves the cross-backend invariant. -/
theorem inv_markProcessed (jst : JsonState) (sst : SqliteState)
    (h : ledgerInv jst sst) (sha : String) (a t c : Option String)
    (sp : Option String) (m s : Option Int) (now : ℚ) :
    ledgerInv (jst.markProcessed sha a t c sp m s now)
      (sst.markProcessed sha a t c sp m s now) := by
  obtain ⟨hobs, hnd⟩ := h
  have hnds := inv_nodup_sql jst sst hobs hnd
  have hlk := inv_lookup jst sst hobs sha
  have hjrec : (jst.markProcessed sha a t c sp m s now).records =
      alSet jst.records sha
        { status := statusProcessed
          startedAt := none
          processedAt := some now
          sourcePath := match sp with
            | some p => some p
            | none => ((alGet jst.records sha).getD emptyJsonRec).sourcePath
          sourceMtimeNs := match m with
            | some mv => some mv
            | none => ((alGet jst.records sha).getD emptyJsonRec).sourceMtimeNs
          sourceSize := match s with
            | some sv => some sv
            | none => ((alGet jst.records sha).getD emptyJsonRec).sourceSize
          archivePath := a
          topicFile := t
          codexStatus := c
          error := none } := rfl
  have hjobs : (jst.markProcessed sha a t c sp m s now).obsList =
      alSet jst.obsList sha (statusProcessed, none) := by
    simp only [JsonState.obsList, hjrec, alSet_map_comm]
    rw [show (jst.records.map (fun e => (e.1, recObs e.2))) = jst.obsList
      from rfl]
    simp [recObs, obsOf_processed]
  constructor
  · rw [hjobs]
    rcases hs : getRows sst.rows sha with _ | row
    · have hsobs : alGet sst.obsList sha = none := by
        simp [SqliteState.obsList, alGet_rows_map, hs]
      have hjg : alGet jst.obsList sha = none := by
        rw [hobs]
        exact hsobs
      rw [alSet_of_notMem _ _ _ hjg]
      show _ = SqliteState.obsList _
      simp only [SqliteState.markProcessed, SqliteState.get, hs,
        SqliteState.obsList, List.map_append, List.map_cons, List.map_nil]
      rw [show (sst.rows.map (fun r => (r.sha256, rowObs r)))
        = sst.obsList from rfl]
      rw [hobs]
      simp [rowObs, obsOf_processed]
    · have hpres : sha ∈ sst.rows.map SqliteRow.sha256 := by
        by_contra hc
        rw [(getRows_eq_none_iff sst.rows sha).mpr hc] at hs
        exact Option.noConfusion hs
      have hupd := obs_sqliteUpdate sst.rows sha
        (sqlProcessedF a t c sp m s now) (statusProcessed, none)
        (fun r => rfl)
        (fun r => by simp [sqlProcessedF, rowObs, obsOf, processed_ne_inProgress])
        hnds hpres
      show _ = SqliteState.obsList _
      simp only [SqliteState.markProcessed, SqliteState.get, hs,
        SqliteState.obsList]
      rw [hupd]
      rw [show (sst.rows.map (fun r => (r.sha256, rowObs r)))
        = sst.obsList from rfl]
      rw [hobs]
  · rw [hjrec]
    exact nodup_alSet _ _ _ hnd

/-- `mark_failed` preserves the cross-backend invariant. -/
theorem inv_markFailed (jst : JsonState) (sst : SqliteState)
    (h : ledgerInv jst sst) (sha err : String) (now : ℚ) :
    ledgerInv (jst.markFailed sha err now) (sst.markFailed sha err now) := by
  obtain ⟨hobs, hnd⟩ := h
  have hnds := inv_nodup_sql jst sst hobs hnd
  have hjrec : (jst.markFailed sha err now).records =
      alSet jst.records sha
        { (alGet jst.records sha).getD emptyJsonRec with
          status := statusFailed
          startedAt := none
          processedAt := some now
          error := some err } := rfl
  have hjobs : (jst.markFailed sha err now).obsList =
      alSet jst.obsList sha (statusFailed, none) := by
    simp only [JsonState.obsList, hjrec, alSet_map_comm]
    rw [show (jst.records.map (fun e => (e.1, recObs e.2))) = jst.obsList
      from rfl]
    simp [recObs, obsOf_failed]
  constructor
  · rw [hjobs]
    rcases hs : getRows sst.rows sha with _ | row
    · have hsobs : alGet sst.obsList sha = none := by
        simp [SqliteState.obsList, alGet_rows_map, hs]
      have hjg : alGet jst.obsList sha = none := by
        rw [hobs]
        exact hsobs
      rw [alSet_of_notMem _ _ _ hjg]
      show _ = SqliteState.obsList _
      simp only [SqliteState.markFailed, SqliteState.get, hs,
        SqliteState.obsList, List.map_append, List.map_cons, List.map_nil]
      rw [show (sst.rows.map (fun r => (r.sha256, rowObs r)))
        = sst.obsList from rfl]
      rw [hobs]
      simp [rowObs, obsOf_failed]
    · have hpres : sha ∈ sst.rows.map SqliteRow.sha256 := by
        by_contra hc
        rw [(getRows_eq_none_iff sst.rows sha).mpr hc] at hs
        exact Option.noConfusion hs
      have hupd := obs_sqliteUpdate sst.rows sha
        (fun r =>
          { r with
            status := statusFailed
            processedAt := some now
            error := some err }) (statusFailed, none)
        (fun r => rfl) (fun r => by simp [rowObs, obsOf, failed_ne_inProgress])
        hnds hpres
      show _ = SqliteState.obsList _
      simp only [SqliteState.markFailed, SqliteState.get, hs,
        SqliteState.obsList]
      rw [hupd]
      rw [show (sst.rows.map (fun r => (r.sha256, rowObs r)))
        = sst.obsList from rfl]
      rw [hobs]
  · rw [hjrec]
    exact nodup_alSet _ _ _ hnd

theorem inv_applyOp (jst : JsonState) (sst : SqliteState)
    (h : ledgerInv jst sst) (op : LedgerOp) :
    ledgerInv (jst.applyOp op) (sst.applyOp op) := by
  cases op with
  | markInProgress sha p m s force now =>
    exact inv_markInProgress jst sst h sha p m s force now
  | markProcessed sha a t c p m s now =>
    exact inv_markProcessed jst sst h sha a t c p m s now
  | markFailed sha err now =>
    exact inv_markFailed jst sst h sha err now

theorem inv_run (ops : List LedgerOp) :
    ledgerInv (runJson ops) (runSqlite ops) := by
  suffices h : ∀ jst sst, ledgerInv jst sst →
      ledgerInv (ops.foldl JsonState.applyOp jst)
        (ops.foldl SqliteState.applyOp sst) by
    exact h JsonState.fresh SqliteState.fresh ⟨rfl, List.nodup_nil⟩
  induction ops with
  | nil => intro jst sst h; exact h
  | cons op rest ih =>
    intro jst sst h
    exact ih _ _ (inv_applyOp jst sst h op)

/-- `allow_retry_in_progress` as a function of the observable projection
of the looked-up record. -/
def allowRetryObs (o : Option (String × Option ℚ)) (ttl : Int) (now : ℚ) :
    Bool :=
  match o with
  | none => true
  | some (st, sa) =>
    if st = statusProcessed then false
    else if st ≠ statusInProgress then true
    else
      match sa with
      | none => true
      | some t => decide ((now - t) > (ttl : ℚ))

theorem json_allowRetry_obs (jst : JsonState) (sha : String) (ttl : Int)
    (now : ℚ) :
    jst.allowRetryInProgress sha ttl now =
      allowRetryObs ((alGet jst.records sha).map recObs) ttl now := by
  rcases hj : alGet jst.records sha with _ | rec
  · simp [JsonState.allowRetryInProgress, JsonState.get, hj, allowRetryObs]
  · have hmap : (some rec).map recObs =
        some (rec.status, if rec.status = statusInProgress
          then rec.startedAt else none) := rfl
    rw [hmap]
    simp only [JsonState.allowRetryInProgress, JsonState.get, hj,
      allowRetryObs]
    by_cases h1 : rec.status = statusProcessed
    · simp [h1]
    · by_cases h2 : rec.status = statusInProgress
      · simp [h1, h2]
      · simp [h1, h2]

theorem sql_allowRetry_obs (sst : SqliteState) (sha : String) (ttl : Int)
    (now : ℚ) :
    sst.allowRetryInProgress sha ttl now =
      allowRetryObs ((getRows sst.rows sha).map rowObs) ttl now := by
  rcases hs : getRows sst.rows sha with _ | row
  · simp [SqliteState.allowRetryInProgress, SqliteState.get, hs, allowRetryObs]
  · have hmap : (some row).map rowObs =
        some (row.status, if row.status = statusInProgress
          then row.startedAt else none) := rfl
    rw [hmap]
    simp only [SqliteState.allowRetryInProgress, SqliteState.get, hs,
      allowRetryObs]
    by_cases h1 : row.status = statusProcessed
    · simp [h1]
    · by_cases h2 : row.status = statusInProgress
      · simp [h1, h2]
      · simp [h1, h2]

theorem json_filter_status (records : List (String × JsonRec)) (s : String) :
    ((records.map (fun e => (e.1, recObs e.2))).filter
        (fun e => e.2.1 = s)).length =
      (records.filter (fun r => r.2.status = s)).length := by
  induction records with
  | nil => rfl
  | cons e t ih =>
    simp only [List.map_cons, List.filter_cons]
    have hpe : (decide ((e.1, recObs e.2).2.1 = s)) = decide (e.2.status = s) :=
      rfl
    rw [hpe]
    by_cases h : e.2.status = s
    · simp [h, ih]
    · simp [h, ih]

theorem sql_filter_status (rows : List SqliteRow) (s : String) :
    ((rows.map (fun r => (r.sha256, rowObs r))).filter
        (fun e => e.2.1 = s)).length =
      (rows.filter (fun r => r.status = s)).length := by
  induction rows with
  | nil => rfl
  | cons r t ih =>
    simp only [List.map_cons, List.filter_cons]
    have hpe : (decide ((r.sha256, rowObs r).2.1 = s)) = decide (r.status = s) :=
      rfl
    rw [hpe]
    by_cases h : r.status = s
    · simp [h, ih]
    · simp [h, ih]

/-- C2.  For every sequence of mutating ledger calls (each with its
arguments and wall-clock time), running it against a fresh JSON store
and a fresh SQLite store yields stores that agree on `stats()`,
`is_processed(id)` and `allow_retry_in_progress(id, ttl)` for every id,
ttl and query time.  Since this holds for every sequence, it holds in
particular for every prefix, i.e. at every point of a call sequence. -/
theorem wmt_c2_backend_equivalence (ops : List LedgerOp) (sha : String)
    (ttl : Int) (now : ℚ) :
    (runJson ops).isProcessed sha = (runSqlite ops).isProcessed sha ∧
    (runJson ops).allowRetryInProgress sha ttl now =
      (runSqlite ops).allowRetryInProgress sha ttl now ∧
    (runJson ops).stats = (runSqlite ops).stats := by
  obtain ⟨hobs, hnd⟩ := inv_run ops
  have hlk := inv_lookup _ _ hobs sha
  refine ⟨?_, ?_, ?_⟩
  · rcases hj : alGet (runJson ops).records sha with _ | rec <;>
      rcases hs : getRows (runSqlite ops).rows sha with _ | row
    · simp [JsonState.isProcessed, JsonState.get, SqliteState.isProcessed,
        SqliteState.get, hj, hs]
    · rw [hj, hs] at hlk
      simp at hlk
    · rw [hj, hs] at hlk
      simp at hlk
    · rw [hj, hs] at hlk
      have hlk2 : recObs rec = rowObs row := by simpa using hlk
      have hstat : rec.status = row.status := congrArg Prod.fst hlk2
      simp [JsonState.isProcessed, JsonState.get, SqliteState.isProcessed,
        SqliteState.get, hj, hs, hstat]
  · rw [json_allowRetry_obs, sql_allowRetry_obs, hlk]
  · have hcomp : ∀ s : String,
        ((runJson ops).records.filter (fun r => r.2.status = s)).length =
          ((runSqlite ops).rows.filter (fun r => r.status = s)).length := by
      intro s
      rw [← json_filter_status, ← sql_filter_status]
      rw [show ((runJson ops).records.map (fun e => (e.1, recObs e.2)))
        = (runJson ops).obsList from rfl]
      rw [show ((runSqlite ops).rows.map (fun r => (r.sha256, rowObs r)))
        = (runSqlite ops).obsList from rfl]
      rw [hobs]
    simp only [JsonState.stats, SqliteState.stats]
    rw [hcomp statusProcessed, hcomp statusFailed, hcomp statusInProgress]

/-! ## SHA-256 (what `hashlib.sha256(...).hexdigest()` computes, FIPS 180-4)

All word arithmetic is `Nat` arithmetic reduced modulo `2 ^ 32`. -/

/-- The 64 round constants: fractional parts of the cube roots of the
first 64 primes. -/
def sha256K : List Nat :=
  [1116352408, 1899447441, 3049323471, 3921009573,
   961987163, 1508970993, 2453635748, 2870763221,
   3624381080, 310598401, 607225278, 1426881987,
   1925078388, 2162078206, 2614888103, 3248222580,
   3835390401, 4022224774, 264347078, 604807628,
   770255983, 1249150122, 1555081692, 1996064986,
   2554220882, 2821834349, 2952996808, 3210313671,
   3336571891, 3584528711, 113926993, 338241895,
   666307205, 773529912, 1294757372, 1396182291,
   1695183700, 1986661051, 2177026350, 2456956037,
   2730485921, 2820302411, 3259730800, 3345764771,
   3516065817, 3600352804, 4094571909, 275423344,
   430227734, 506948616, 659060556, 883997877,
   958139571, 1322822218, 1537002063, 1747873779,
   1955562222, 2024104815, 2227730452, 2361852424,
   2428436474, 2756734187, 3204031479, 3329325298]

/-- Initial hash state: fractional parts of the square roots of the
first 8 primes. -/
def sha256H0 : List Nat :=
  [1779033703, 3144134277, 1013904242, 2773480762,
   1359893119, 2600822924, 528734635, 1541459225]

/-- 32-bit right-rotation. -/
def rotr32 (n x : Nat) : Nat :=
  ((x >>> n) ||| (x <<< (32 - n))) % 4294967296

/-- Big-endian byte serialization of `n`, `k` bytes wide. -/
def toBytesBE : Nat → Nat → List Nat
  | 0, _ => []
  | k + 1, n => toBytesBE k (n / 256) ++ [n % 256]

/-- SHA-256 padding: append `0x80`, zeros to 56 mod 64, and the 64-bit
big-endian bit length. -/
def sha256Pad (msg : List Nat) : List Nat :=
  let padZeros := (120 - ((msg.length + 1) % 64)) % 64
  msg ++ [128] ++ List.replicate padZeros 0 ++ toBytesBE 8 (msg.length * 8)

/-- Big-endian 32-bit words from bytes. -/
def bytesToWords : List Nat → List Nat
  | b0 :: b1 :: b2 :: b3 :: rest =>
    (((b0 * 256 + b1) * 256 + b2) * 256 + b3) :: bytesToWords rest
  | _ => []

/-- Split into 16-word blocks (structural recursion on a fuel bounded
by the list length, so that the definition computes by `rfl`). -/
def chunks16Go : Nat → List Nat → List (List Nat)
  | 0, _ => []
  | fuel + 1, ws =>
    if ws.isEmpty then [] else ws.take 16 :: chunks16Go fuel (ws.drop 16)

def chunks16 (ws : List Nat) : List (List Nat) := chunks16Go ws.length ws

/-- One step of the message-schedule extension: append
`w[n-16] + σ₀(w[n-15]) + w[n-7] + σ₁(w[n-2])`. -/
def scheduleStep (w : List Nat) : List Nat :=
  let n := w.length
  let w15 := w.getD (n - 15) 0
  let w2 := w.getD (n - 2) 0
  let w16 := w.getD (n - 16) 0
  let w7 := w.getD (n - 7) 0
  let s0 := (rotr32 7 w15) ^^^ (rotr32 18 w15) ^^^ (w15 >>> 3)
  let s1 := (rotr32 17 w2) ^^^ (rotr32 19 w2) ^^^ (w2 >>> 10)
  w ++ [(w16 + s0 + w7 + s1) % 4294967296]

def iterN {α : Type} (f : α → α) : Nat → α → α
  | 0, a => a
  | n + 1, a => iterN f n (f a)

/-- Extend a 16-word block to the 64-word schedule. -/
def fullSchedule (w : List Nat) : List Nat := iterN scheduleStep 48 w

/-- One compression round on the state `[a,b,c,d,e,f,g,h]`. -/
def roundFn (state : List Nat) (ki wi : Nat) : List Nat :=
  match state with
  | [a, b, c, d, e, f, g, h] =>
    let s1 := (rotr32 6 e) ^^^ (rotr32 11 e) ^^^ (rotr32 25 e)
    let ch := (e &&& f) ^^^ ((e ^^^ 4294967295) &&& g)
    let temp1 := (h + s1 + ch + ki + wi) % 4294967296
    let s0 := (rotr32 2 a) ^^^ (rotr32 13 a) ^^^ (rotr32 22 a)
    let maj := (a &&& b) ^^^ (a &&& c) ^^^ (b &&& c)
    let temp2 := (s0 + maj) % 4294967296
    [(temp1 + temp2) % 4294967296, a, b, c, (d + temp1) % 4294967296, e, f, g]
  | _ => state

/-- Compress one 16-word block into the hash state. -/
def sha256Compress (hs : List Nat) (chunk : List Nat) : List Nat :=
  let w := fullSchedule chunk
  let final := (List.zip sha256K w).foldl (fun st p => roundFn st p.1 p.2) hs
  List.zipWith (fun x y => (x + y) % 4294967296) hs final

/-- The eight 32-bit words of the digest of a byte string. -/
def sha256Words (msg : List Nat) : List Nat :=
  (chunks16 (bytesToWords (sha256Pad msg))).foldl sha256Compress sha256H0

/-- The digest as a single 256-bit number (big-endian word order, as in
the hex digest). -/
def sha256Nat (msg : List Nat) : Nat :=
  (sha256Words msg).foldl (fun acc w => acc * 4294967296 + w) 0

def hexChar (n : Nat) : Char :=
  if n < 10 then Char.ofNat (48 + n) else Char.ofNat (87 + n)

/-- Fixed-width lowercase hex rendering (most significant digit first). -/
def toHexFixed : Nat → Nat → List Char
  | 0, _ => []
  | k + 1, n => toHexFixed k (n / 16) ++ [hexChar (n % 16)]

/-- `hashlib.sha256(bytes).hexdigest()`. -/
def sha256HexOfBytes (msg : List Nat) : String :=
  String.mk (toHexFixed 64 (sha256Nat msg))

/-- UTF-8 encoding of one character (`str.encode("utf-8")`). -/
def utf8Char (c : Char) : List Nat :=
  let n := c.toNat
  if n < 128 then [n]
  else if n < 2048 then [192 + n / 64, 128 + n % 64]
  else if n < 65536 then
    [224 + n / 4096, 128 + (n / 64) % 64, 128 + n % 64]
  else
    [240 + n / 262144, 128 + (n / 4096) % 64, 128 + (n / 64) % 64,
     128 + n % 64]

def strUtf8 (s : String) : List Nat := (s.data.map utf8Char).flatten

/-- `sha256(s.encode("utf-8")).hexdigest()`. -/
def sha256Hex (s : String) : String := sha256HexOfBytes (strUtf8 s)

set_option maxRecDepth 10000 in
/-- FIPS 180-4 test vector: the implementation above hashes `"abc"` to
the published digest. -/
theorem sha256_fips_vector_abc :
    sha256Hex "abc" =
      "ba7816bf8f01cfea414140de5dae2223b00361a396177a9cb410ff61f20015ad" := by
  rfl

/-! ## Bookmark identity (`src/wmt/bookmarks.py`) -/

/-- `BookmarkItem` (the dataclass fields; `date_added` is the parsed
Chromium timestamp, modelled as an opaque optional value — it does not
participate in the identity). -/
structure BookmarkItem where
  url : String
  title : Option String
  guid : Option String
  id : Option String
  dateAddedRaw : Option String
  dateAdded : Option Int
  deriving DecidableEq

/-- `x or ''` for an optional string (`None` and `""` both yield `""`). -/
def orEmpty (o : Option String) : String :=
  match o with
  | some s => s
  | none => ""

def nlStr : String := "\n"

def kUrl : String := "url="

def kDate : String := "date_added="

def kGuid : String := "guid="

def kId : String := "id="

/-- `BookmarkItem.identity_string`: the `"\n".join` of the four
`key=value` lines (written here as the equivalent explicit
concatenation). -/
def BookmarkItem.identityString (item : BookmarkItem)
    (normalizedUrl : String) : String :=
  kUrl ++ normalizedUrl ++ nlStr ++
    kDate ++ orEmpty item.dateAddedRaw ++ nlStr ++
    kGuid ++ orEmpty item.guid ++ nlStr ++
    kId ++ orEmpty item.id

/-- `BookmarkItem.identity_sha256`. -/
def BookmarkItem.identitySha256 (item : BookmarkItem)
    (normalizedUrl : String) : String :=
  sha256Hex (item.identityString normalizedUrl)

/-! ### Digest bounds (for the collision-existence argument) -/

theorem roundFn_length (st : List Nat) (ki wi : Nat) :
    (roundFn st ki wi).length = st.length := by
  unfold roundFn
  split
  · rfl
  · rfl

theorem foldl_roundFn_length (l : List (Nat × Nat)) (st : List Nat) :
    (l.foldl (fun s p => roundFn s p.1 p.2) st).length = st.length := by
  induction l generalizing st with
  | nil => rfl
  | cons p t ih =>
    simp only [List.foldl_cons]
    rw [ih, roundFn_length]

theorem sha256Compress_length (hs chunk : List Nat) :
    (sha256Compress hs chunk).length = hs.length := by
  simp [sha256Compress, foldl_roundFn_length]

theorem sha256Words_length (msg : List Nat) :
    (sha256Words msg).length = 8 := by
  have hgen : ∀ (cs : List (List Nat)) (hs : List Nat),
      (cs.foldl sha256Compress hs).length = hs.length := by
    intro cs
    induction cs with
    | nil => intro hs; rfl
    | cons c t ih =>
      intro hs
      simp only [List.foldl_cons]
      rw [ih, sha256Compress_length]
  exact hgen _ sha256H0

theorem zipWith_mod_lt (a b : List Nat) :
    ∀ x ∈ List.zipWith (fun x y => (x + y) % 4294967296) a b,
      x < 4294967296 := by
  induction a generalizing b with
  | nil => intro x hx; simp at hx
  | cons u t ih =>
    intro x hx
    cases b with
    | nil => simp at hx
    | cons v s =>
      simp only [List.zipWith_cons_cons, List.mem_cons] at hx
      rcases hx with hx | hx
      · subst hx
        exact Nat.mod_lt _ (by norm_num)
      · exact ih s x hx

theorem sha256Words_lt (msg : List Nat) :
    ∀ x ∈ sha256Words msg, x < 4294967296 := by
  have hgen : ∀ (cs : List (List Nat)) (hs : List Nat),
      (∀ x ∈ hs, x < 4294967296) →
      ∀ x ∈ cs.foldl sha256Compress hs, x < 4294967296 := by
    intro cs
    induction cs with
    | nil => intro hs h; exact h
    | cons c t ih =>
      intro hs h
      apply ih
      intro x hx
      exact zipWith_mod_lt _ _ x hx
  apply hgen
  intro x hx
  fin_cases hx <;> norm_num

theorem assemble_lt (ws : List Nat) :
    ∀ (k : Nat) (acc : Nat), (∀ w ∈ ws, w < 4294967296) →
      acc < 2 ^ (32 * k) →
      ws.foldl (fun a w => a * 4294967296 + w) acc <
        2 ^ (32 * (k + ws.length)) := by
  induction ws with
  | nil =>
    intro k acc _ ha
    simpa using ha
  | cons w t ih =>
    intro k acc hws ha
    simp only [List.foldl_cons, List.length_cons]
    have hw : w < 4294967296 := hws w (by simp)
    have hstep : acc * 4294967296 + w < 2 ^ (32 * (k + 1)) := by
      have h1 : acc + 1 ≤ 2 ^ (32 * k) := ha
      have h2 : (acc + 1) * 4294967296 ≤ 2 ^ (32 * k) * 4294967296 :=
        Nat.mul_le_mul_right _ h1
      have h3 : 2 ^ (32 * k) * 4294967296 = 2 ^ (32 * (k + 1)) := by
        rw [show (4294967296 : Nat) = 2 ^ 32 by norm_num, ← pow_add]
        ring_nf
      calc acc * 4294967296 + w < acc * 4294967296 + 4294967296 := by omega
        _ = (acc + 1) * 4294967296 := by ring
        _ ≤ 2 ^ (32 * (k + 1)) := h3 ▸ h2
    have := ih (k + 1) (acc * 4294967296 + w)
      (fun x hx => hws x (by simp [hx])) hstep
    have harith : 32 * (k + 1 + t.length) = 32 * (k + (t.length + 1)) := by
      ring
    rw [harith] at this
    exact this

theorem sha256Nat_lt (msg : List Nat) : sha256Nat msg < 2 ^ 256 := by
  have h := assemble_lt (sha256Words msg) 0 0 (sha256Words_lt msg)
    (by norm_num)
  rw [sha256Words_length msg] at h
  simpa [sha256Nat] using h

/-! ### Claim C3 -/

def guidUrl : String := "https://example.com/x"

/-- Items that differ only in their guid (a string of `n` letters). -/
def guidItem (n : Nat) : BookmarkItem :=
  { url := guidUrl
    title := none
    guid := some (String.mk (List.replicate n 'a'))
    id := none
    dateAddedRaw := none
    dateAdded := none }

def itemGa : BookmarkItem := guidItem 1

def itemGb : BookmarkItem :=
  { guidItem 1 with guid := some (String.mk ['b']) }

/-- The digest of the identity of `guidItem n`, as a bounded number. -/
def guidDigest (n : Nat) : Fin (2 ^ 256) :=
  ⟨sha256Nat (strUtf8 ((guidItem n).identityString guidUrl)),
    sha256Nat_lt _⟩

set_option maxHeartbeats 1000000 in
set_option maxRecDepth 10000 in
/-- C3, counterexample: it is not true that any two items differing only
in their guid have different SHA-256 identities.  The identity string
determines the guid, but there are infinitely many guids and only
`2 ^ 256` digests, so two distinct guids must collide. -/
theorem wmt_c3_counterexample :
    ¬ (∀ (i1 i2 : BookmarkItem) (nurl : String),
        i1.url = i2.url → i1.title = i2.title → i1.id = i2.id →
        i1.dateAddedRaw = i2.dateAddedRaw → i1.dateAdded = i2.dateAdded →
        i1.guid ≠ i2.guid →
        i1.identitySha256 nurl ≠ i2.identitySha256 nurl) := by
  intro hclaim
  obtain ⟨n1, n2, hne, heq⟩ := Finite.exists_ne_map_eq_of_infinite guidDigest
  have hguid : (guidItem n1).guid ≠ (guidItem n2).guid := by
    intro hg
    apply hne
    simp only [guidItem, Option.some_inj] at hg
    have hlen := congrArg (fun s => s.data.length) hg
    simpa using hlen
  have hnat := congrArg Fin.val heq
  simp only [guidDigest] at hnat
  have hdig : (guidItem n1).identitySha256 guidUrl =
      (guidItem n2).identitySha256 guidUrl := by
    simp only [BookmarkItem.identitySha256, sha256Hex, sha256HexOfBytes]
    rw [hnat]
  exact hclaim (guidItem n1) (guidItem n2) guidUrl rfl rfl rfl rfl rfl
    hguid hdig

set_option maxHeartbeats 2000000 in
set_option maxRecDepth 10000 in
/-- C3, amended.  The identity of an item is the hex SHA-256 digest of
the composite string
`"url=<nurl>\ndate_added=<raw|''>\nguid=<guid|''>\nid=<id|''>"`;
items that differ only in their title have equal identities; items that
differ only in their guid (as the string `guid or ''`) have different
identity *strings* — their 256-bit digests therefore differ unless
SHA-256 itself collides on the two strings (which cannot hold for all of
the infinitely many guids), and they do differ on the concrete pair of
items below. -/
theorem wmt_c3_identity_amended :
    (∀ (item : BookmarkItem) (nurl : String),
      item.identitySha256 nurl = sha256Hex (item.identityString nurl) ∧
      item.identityString nurl =
        kUrl ++ nurl ++ nlStr ++ kDate ++ orEmpty item.dateAddedRaw ++
          nlStr ++ kGuid ++ orEmpty item.guid ++ nlStr ++ kId ++
          orEmpty item.id) ∧
    (∀ (i1 i2 : BookmarkItem) (nurl : String),
      i1.guid = i2.guid → i1.id = i2.id → i1.dateAddedRaw = i2.dateAddedRaw →
      i1.identitySha256 nurl = i2.identitySha256 nurl) ∧
    (∀ (i1 i2 : BookmarkItem) (nurl : String),
      i1.id = i2.id → i1.dateAddedRaw = i2.dateAddedRaw →
      orEmpty i1.guid ≠ orEmpty i2.guid →
      i1.identityString nurl ≠ i2.identityString nurl) ∧
    itemGa.identitySha256 guidUrl ≠ itemGb.identitySha256 guidUrl := by
  refine ⟨fun item nurl => ⟨rfl, rfl⟩, ?_, ?_, ?_⟩
  · intro i1 i2 nurl hg hid hdate
    simp only [BookmarkItem.identitySha256, BookmarkItem.identityString,
      hg, hid, hdate]
  · intro i1 i2 nurl hid hdate hg heq
    apply hg
    simp only [BookmarkItem.identityString, hid, hdate] at heq
    have hdata := congrArg String.data heq
    simp only [String.data_append, List.append_assoc] at hdata
    have h1 := List.append_cancel_left hdata
    have h2 := List.append_cancel_left h1
    have h3 := List.append_cancel_left h2
    have h4 := List.append_cancel_left h3
    have h5 := List.append_cancel_left h4
    have h6 := List.append_cancel_left h5
    have h7 := List.append_cancel_left h6
    have h8 : (orEmpty i1.guid).data = (orEmpty i2.guid).data :=
      List.append_cancel_right h7
    exact String.ext h8
  · decide

set_option maxHeartbeats 1000000 in
set_option maxRecDepth 10000 in
/-- Witness for the amended C3: the concrete items `itemGa`/`itemGb`
differ only in guid; their identity strings differ, and a title-only
change leaves the digest unchanged. -/
theorem wmt_c3_witness :
    itemGa.identityString guidUrl ≠ itemGb.identityString guidUrl ∧
    ({ itemGa with title := some guidUrl } : BookmarkItem).identitySha256
        guidUrl = itemGa.identitySha256 guidUrl := by
  constructor
  · exact (wmt_c3_identity_amended.2.2.1 itemGa itemGb guidUrl rfl rfl
      (by decide))
  · exact wmt_c3_identity_amended.2.1 _ itemGa guidUrl rfl rfl rfl

/-! ## Python's `json.loads` grammar and `JsonStateStore._load_or_init`

The parser below models which documents `json.loads` accepts (the C
scanner used by default): RFC 8259 plus the Python extensions
`NaN` / `Infinity` / `-Infinity`.  Parsed values are represented by
`PyJson`; parse errors (`json.JSONDecodeError`) are `none`.  Lean's
`Char` cannot hold lone UTF-16 surrogates, so a lone `\uXXXX` surrogate
escape decodes to U+FFFD here; this affects only the decoded value,
never whether a document parses. -/

inductive PyJson where
  | null
  | boolean (b : Bool)
  | str (s : String)
  | num (text : String)
  | arr (elems : List PyJson)
  | obj (fields : List (String × PyJson))

/-- JSON inter-token whitespace (`[ \t\n\r]*`). -/
def jsonWs (l : List Char) : List Char :=
  l.dropWhile (fun c => c = ' ' ∨ c = '\t' ∨ c = '\n' ∨ c = '\r')

def isAsciiDigit (c : Char) : Bool := '0' ≤ c ∧ c ≤ '9'

def isHexDigit (c : Char) : Bool :=
  ('0' ≤ c ∧ c ≤ '9') ∨ ('a' ≤ c ∧ c ≤ 'f') ∨ ('A' ≤ c ∧ c ≤ 'F')

def hexVal (c : Char) : Nat :=
  if '0' ≤ c ∧ c ≤ '9' then c.toNat - 48
  else if 'a' ≤ c ∧ c ≤ 'f' then c.toNat - 87
  else c.toNat - 55

/-- Four hex digits (`\uXXXX`). -/
def parseHex4 (l : List Char) : Option (Nat × List Char) :=
  match l with
  | a :: b :: c :: d :: rest =>
    if isHexDigit a ∧ isHexDigit b ∧ isHexDigit c ∧ isHexDigit d then
      some (((hexVal a * 16 + hexVal b) * 16 + hexVal c) * 16 + hexVal d,
        rest)
    else none
  | _ => none

def fffd : Char := Char.ofNat 65533

/-- Decoded character for a `\uXXXX` code unit that is not part of a
surrogate pair (lone surrogates become U+FFFD, see module comment). -/
def charOfUnit (n : Nat) : Char :=
  if 55296 ≤ n ∧ n ≤ 57343 then fffd else Char.ofNat n

/-- `json.decoder.py_scanstring` (strict mode): the body of a string
after the opening quote. -/
def jsonStringGo : Nat → List Char → List Char → Option (String × List Char)
  | 0, _, _ => none
  | _ + 1, [], _ => none
  | fuel + 1, c :: rest, acc =>
    if c = '"' then some (String.mk acc.reverse, rest)
    else if c = '\\' then
      match rest with
      | [] => none
      | e :: rest2 =>
        if e = '"' then jsonStringGo fuel rest2 ('"' :: acc)
        else if e = '\\' then jsonStringGo fuel rest2 ('\\' :: acc)
        else if e = '/' then jsonStringGo fuel rest2 ('/' :: acc)
        else if e = 'b' then jsonStringGo fuel rest2 (Char.ofNat 8 :: acc)
        else if e = 'f' then jsonStringGo fuel rest2 (Char.ofNat 12 :: acc)
        else if e = 'n' then jsonStringGo fuel rest2 ('\n' :: acc)
        else if e = 'r' then jsonStringGo fuel rest2 ('\r' :: acc)
        else if e = 't' then jsonStringGo fuel rest2 ('\t' :: acc)
        else if e = 'u' then
          match parseHex4 rest2 with
          | none => none
          | some (n, rest3) =>
            -- a high surrogate followed by an escaped low surrogate
            -- combines into one astral code point
            if 55296 ≤ n ∧ n ≤ 56319 then
              match rest3 with
              | '\\' :: 'u' :: rest4 =>
                match parseHex4 rest4 with
                | some (m, rest5) =>
                  if 56320 ≤ m ∧ m ≤ 57343 then
                    jsonStringGo fuel rest5
                      (Char.ofNat (65536 + (n - 55296) * 1024 + (m - 56320))
                        :: acc)
                  else jsonStringGo fuel rest3 (charOfUnit n :: acc)
                | none => jsonStringGo fuel rest3 (charOfUnit n :: acc)
              | _ => jsonStringGo fuel rest3 (charOfUnit n :: acc)
            else jsonStringGo fuel rest3 (charOfUnit n :: acc)
        else none
    else if c.toNat < 32 then none
    else jsonStringGo fuel rest (c :: acc)

/-- The JSON number token
`(-?(0|[1-9][0-9]*))(\.[0-9]+)?([eE][+-]?[0-9]+)?`, returned as its
source text. -/
def parseJsonNumber (l : List Char) : Option (List Char × List Char) :=
  let (sign, l1) : List Char × List Char :=
    match l with
    | '-' :: t => (['-'], t)
    | _ => ([], l)
  match l1 with
  | [] => none
  | c :: t =>
    if ¬isAsciiDigit c then none
    else
      let (ipart, l2) : List Char × List Char :=
        if c = '0' then (['0'], t)
        else (c :: t.takeWhile isAsciiDigit, t.dropWhile isAsciiDigit)
      let (fpart, l3) : List Char × List Char :=
        match l2 with
        | '.' :: u =>
          let ds := u.takeWhile isAsciiDigit
          if ds.isEmpty then ([], l2)
          else ('.' :: ds, u.dropWhile isAsciiDigit)
        | _ => ([], l2)
      let (epart, l4) : List Char × List Char :=
        match l3 with
        | e :: u =>
          if e = 'e' ∨ e = 'E' then
            let (es, u2) : List Char × List Char :=
              match u with
              | '+' :: v => (['+'], v)
              | '-' :: v => (['-'], v)
              | _ => ([], u)
            let ds := u2.takeWhile isAsciiDigit
            if ds.isEmpty then ([], l3)
            else (e :: es ++ ds, u2.dropWhile isAsciiDigit)
          else ([], l3)
        | _ => ([], l3)
      some (sign ++ ipart ++ fpart ++ epart, l4)

mutual

/-- `scan_once`: one JSON value starting at the given position. -/
def parseValue : Nat → List Char → Option (PyJson × List Char)
  | 0, _ => none
  | fuel + 1, l =>
    match l with
    | [] => none
    | c :: rest =>
      if c = '"' then
        match jsonStringGo fuel rest [] with
        | some (s, r) => some (.str s, r)
        | none => none
      else if c = '{' then parseObjFirst fuel (jsonWs rest)
      else if c = '[' then parseArrFirst fuel (jsonWs rest)
      else if ['n', 'u', 'l', 'l'].isPrefixOf l then
        some (.null, l.drop 4)
      else if ['t', 'r', 'u', 'e'].isPrefixOf l then
        some (.boolean true, l.drop 4)
      else if ['f', 'a', 'l', 's', 'e'].isPrefixOf l then
        some (.boolean false, l.drop 5)
      else
        match parseJsonNumber l with
        | some (text, r) => some (.num (String.mk text), r)
        | none =>
          if ['N', 'a', 'N'].isPrefixOf l then
            some (.num (String.mk ['N', 'a', 'N']), l.drop 3)
          else if ['I', 'n', 'f', 'i', 'n', 'i', 't', 'y'].isPrefixOf l then
            some (.num (String.mk ['I', 'n', 'f']), l.drop 8)
          else if ['-', 'I', 'n', 'f', 'i', 'n', 'i', 't', 'y'].isPrefixOf l
          then
            some (.num (String.mk ['-', 'I', 'n', 'f']), l.drop 9)
          else none

/-- `JSONObject` right after `{` and whitespace: either `}` or the first
member. -/
def parseObjFirst (fuel : Nat) (l : List Char) : Option (PyJson × List Char) :=
  match fuel with
  | 0 => none
  | fuel + 1 =>
    match l with
    | '}' :: rest => some (.obj [], rest)
    | _ => parseObjMember fuel l []

/-- One `"key": value` member and the following `,`/`}`; duplicate keys
overwrite (later wins), like feeding pairs into a `dict`. -/
def parseObjMember (fuel : Nat) (l : List Char)
    (acc : List (String × PyJson)) : Option (PyJson × List Char) :=
  match fuel with
  | 0 => none
  | fuel + 1 =>
    match l with
    | '"' :: rest =>
      match jsonStringGo fuel rest [] with
      | none => none
      | some (key, r1) =>
        match jsonWs r1 with
        | ':' :: r2 =>
          match parseValue fuel (jsonWs r2) with
          | none => none
          | some (v, r3) =>
            let acc2 := alSet acc key v
            match jsonWs r3 with
            | '}' :: r4 => some (.obj acc2, r4)
            | ',' :: r4 => parseObjMember fuel (jsonWs r4) acc2
            | _ => none
        | _ => none
    | _ => none

/-- `JSONArray` right after `[` and whitespace. -/
def parseArrFirst (fuel : Nat) (l : List Char) : Option (PyJson × List Char) :=
  match fuel with
  | 0 => none
  | fuel + 1 =>
    match l with
    | ']' :: rest => some (.arr [], rest)
    | _ => parseArrElem fuel l []

def parseArrElem (fuel : Nat) (l : List Char) (acc : List PyJson) :
    Option (PyJson × List Char) :=
  match fuel with
  | 0 => none
  | fuel + 1 =>
    match parseValue fuel l with
    | none => none
    | some (v, r1) =>
      match jsonWs r1 with
      | ']' :: r2 => some (.arr (acc ++ [v]).reverse.reverse, r2)
      | ',' :: r2 => parseArrElem fuel (jsonWs r2) (acc ++ [v])
      | _ => none

end

/-- `json.loads`: skip leading whitespace, parse one value, and require
only whitespace to remain (`Extra data` otherwise). -/
def parseJsonText (s : String) : Option PyJson :=
  let l := jsonWs s.data
  match parseValue (2 * l.length + 2) l with
  | none => none
  | some (v, rest) => if (jsonWs rest).isEmpty then some v else none

/-! ### `JsonStateStore._load_or_init` -/

/-- Unicode whitespace stripped by Python's `str.strip()`
(`str.isspace` characters). -/
def pyIsSpace (c : Char) : Bool :=
  c.toNat ∈ [9, 10, 11, 12, 13, 28, 29, 30, 31, 32, 133, 160, 5760,
    8192, 8193, 8194, 8195, 8196, 8197, 8198, 8199, 8200, 8201, 8202,
    8232, 8233, 8239, 8287, 12288]

def pyStripList (l : List Char) : List Char :=
  ((l.dropWhile pyIsSpace).reverse.dropWhile pyIsSpace).reverse

def pyStrip (s : String) : String := String.mk (pyStripList s.data)

/-- What `_load_or_init` does with the ledger file: `none` = the file
does not exist.  The result carries the `records` / `source_snapshots`
members (after the `setdefault` / `isinstance` coercions) and the name
of the quarantine backup file, when one is created. -/
structure LoadResult where
  records : List (String × PyJson)
  snapshots : List (String × PyJson)
  backup : Option String

/-- `path.with_suffix(path.suffix + ".corrupt.<now>")`: removing the
suffix and appending `suffix + ".corrupt.<now>"` appends
`".corrupt.<now>"` to the original path. -/
def backupName (path : String) (now : Int) : String :=
  path ++ ".corrupt." ++ toString now

def corruptLoad (path : String) (now : Int) : LoadResult :=
  { records := [], snapshots := [], backup := some (backupName path now) }

def emptyLoad : LoadResult := { records := [], snapshots := [], backup := none }

/-- Member coercion: `data.setdefault(k, {})` followed by
`if not isinstance(data[k], dict): data[k] = {}`. -/
def objMember (fields : List (String × PyJson)) (k : String) :
    List (String × PyJson) :=
  match alGet fields k with
  | some (.obj fs) => fs
  | _ => []

def recordsKey : String := "records"

def snapshotsKey : String := "source_snapshots"

/-- `JsonStateStore._load_or_init`, with the file content and the clock
passed explicitly. -/
def loadOrInit (content : Option String) (path : String) (now : Int) :
    LoadResult :=
  match content with
  | none => emptyLoad
  | some raw =>
    if (pyStrip raw).data.isEmpty then
      -- `json.loads(raw) if raw.strip() else {}`: blank content skips
      -- parsing entirely and behaves like the empty document
      emptyLoad
    else
      match parseJsonText raw with
      | none => corruptLoad path now
      | some (.obj fields) =>
        { records := objMember fields recordsKey
          snapshots := objMember fields snapshotsKey
          backup := none }
      | some _ => emptyLoad

/-! ### Claim C6 -/

def blankContent : String := " "

def badContent : String := "\x7boops"

def statePath : String := "state.json"

/-- C6, counterexample: whitespace-only file content is not valid JSON
(`json.loads` raises on it), yet the store opens as an empty ledger
WITHOUT renaming the file to a backup — `raw.strip()` short-circuits
before `json.loads` runs, so no quarantine happens.  This contradicts
the claim that every invalid-JSON content is preserved in a renamed
backup file. -/
theorem wmt_c6_counterexample :
    (parseJsonText blankContent).isNone = true ∧
    (loadOrInit (some blankContent) statePath 12345).records.isEmpty = true ∧
    (loadOrInit (some blankContent) statePath 12345).snapshots.isEmpty
      = true ∧
    (loadOrInit (some blankContent) statePath 12345).backup = none := by
  refine ⟨by decide, by decide, by decide, by decide⟩

/-- C6, amended.  Opening the JSON store never raises on unparsable
content (`loadOrInit` is total): content that is invalid JSON *and not
blank* yields an empty ledger with the corrupt file renamed to
`<path>.corrupt.<unix time>`; blank (empty or whitespace-only) content —
also invalid JSON — yields an empty ledger with no backup, because the
code short-circuits on `raw.strip()` before parsing. -/
theorem wmt_c6_corrupt_load_amended (raw path : String) (now : Int) :
    ((pyStrip raw).data ≠ [] → (parseJsonText raw).isNone = true →
      loadOrInit (some raw) path now =
        { records := []
          snapshots := []
          backup := some (path ++ ".corrupt." ++ toString now) }) ∧
    ((pyStrip raw).data = [] →
      loadOrInit (some raw) path now =
        { records := [], snapshots := [], backup := none }) := by
  constructor
  · intro hblank hparse
    have hParseNone : parseJsonText raw = none :=
      Option.isNone_iff_eq_none.mp hparse
    have hnotEmpty : (pyStrip raw).data.isEmpty = false := by
      cases h : (pyStrip raw).data with
      | nil => exact absurd h hblank
      | cons c t => rfl
    simp [loadOrInit, hnotEmpty, hParseNone, corruptLoad, backupName]
  · intro hblank
    have hEmpty : (pyStrip raw).data.isEmpty = true := by
      rw [hblank]
      rfl
    simp [loadOrInit, hEmpty, emptyLoad]

/-- Witness for the amended C6: concrete corrupt content `"{oops"` is
quarantined into `state.json.corrupt.1700000000` and yields an empty
ledger. -/
theorem wmt_c6_witness :
    loadOrInit (some badContent) statePath 1700000000 =
      { records := []
        snapshots := []
        backup := some (statePath ++ ".corrupt." ++ toString
          (1700000000 : Int)) } :=
  (wmt_c6_corrupt_load_amended badContent statePath 1700000000).1
    (by decide) (by decide)

/-! ## URL normalization (`src/wmt/urls.py` and the parts of
`urllib.parse` it uses)

Strings are processed as `List Char`.  Python's `.lower()` is modelled
ASCII-only and `_checknetloc` (which can only raise for certain
non-ASCII netlocs) is not modelled; every theorem below therefore
restricts itself to ASCII inputs.  A bracketed (`[...]`) netloc is
modelled as a parse error: Python validates the bracketed host and
accepts well-formed IPv6 literals, but no theorem below touches inputs
containing `[`. -/

def isAsciiAlpha (c : Char) : Bool :=
  ('a' ≤ c ∧ c ≤ 'z') ∨ ('A' ≤ c ∧ c ≤ 'Z')

/-- `scheme_chars`. -/
def isSchemeChar (c : Char) : Bool :=
  isAsciiAlpha c ∨ isAsciiDigit c ∨ c = '+' ∨ c = '-' ∨ c = '.'

def toLowerAscii (c : Char) : Char :=
  if 'A' ≤ c ∧ c ≤ 'Z' then Char.ofNat (c.toNat + 32) else c

def lowerList (l : List Char) : List Char := l.map toLowerAscii

/-- `s.split(c, 1)`: `none` when `c` does not occur. -/
def splitFirst (c : Char) : List Char → Option (List Char × List Char)
  | [] => none
  | x :: t =>
    if x = c then some ([], t)
    else
      match splitFirst c t with
      | some (a, b) => some (x :: a, b)
      | none => none

/-- `s.split(sep)` (all occurrences). -/
def splitAll (sep : Char) : List Char → List (List Char)
  | [] => [[]]
  | c :: t =>
    match splitAll sep t with
    | [] => [[]]
    | h :: r => if c = sep then [] :: h :: r else (c :: h) :: r

/-- The part after the last occurrence of `c` (`s.rpartition(c)[2]`;
the whole string if `c` does not occur). -/
def afterLast (c : Char) (l : List Char) : List Char :=
  ((l.reverse.takeWhile (fun x => x ≠ c))).reverse

/-- `_WHATWG_C0_CONTROL_OR_SPACE` characters (`\x00`-`\x20`). -/
def isC0OrSpace (c : Char) : Bool := c.toNat ≤ 32

/-- `_UNSAFE_URL_BYTES_TO_REMOVE` removal. -/
def removeUnsafe (l : List Char) : List Char :=
  l.filter (fun c => ¬(c = '\t' ∨ c = '\r' ∨ c = '\n'))

/-- `_splitnetloc`: the netloc runs until the first of `/`, `?`, `#`. -/
def isNetlocEnd (c : Char) : Bool := c = '/' ∨ c = '?' ∨ c = '#'

/-- `url[0].isascii() and url[0].isalpha()`. -/
def headIsAlpha : List Char → Bool
  | c :: _ => isAsciiAlpha c
  | [] => false

structure UrlSplitResult where
  scheme : List Char
  netloc : List Char
  path : List Char
  query : List Char
  fragment : List Char
  deriving DecidableEq

/-- `urllib.parse.urlsplit` (with `allow_fragments=True`, the only form
used by `urls.py`). -/
def urlsplitE (url0 : List Char) : Except String UrlSplitResult :=
  let url1 := url0.dropWhile isC0OrSpace
  let url2 := removeUnsafe url1
  let (scheme, url3) : List Char × List Char :=
    match splitFirst ':' url2 with
    | some (before, after) =>
      if before ≠ [] ∧ headIsAlpha url2 ∧ before.all isSchemeChar
      then (lowerList before, after)
      else ([], url2)
    | none => ([], url2)
  match url3 with
  | '/' :: '/' :: rest =>
    let netloc := rest.takeWhile (fun c => ¬isNetlocEnd c)
    let url4 := rest.dropWhile (fun c => ¬isNetlocEnd c)
    if ('[' ∈ netloc ∧ ']' ∉ netloc) ∨ (']' ∈ netloc ∧ '[' ∉ netloc) then
      Except.error "Invalid IPv6 URL"
    else if '[' ∈ netloc then
      -- bracketed hosts are not modelled (see module comment)
      Except.error "bracketed host"
    else
      let (rest5, fragment) : List Char × List Char :=
        match splitFirst '#' url4 with
        | some (a, b) => (a, b)
        | none => (url4, [])
      let (path, query) : List Char × List Char :=
        match splitFirst '?' rest5 with
        | some (a, b) => (a, b)
        | none => (rest5, [])
      Except.ok ⟨scheme, netloc, path, query, fragment⟩
  | _ =>
    let (rest5, fragment) : List Char × List Char :=
      match splitFirst '#' url3 with
      | some (a, b) => (a, b)
      | none => (url3, [])
    let (path, query) : List Char × List Char :=
      match splitFirst '?' rest5 with
      | some (a, b) => (a, b)
      | none => (rest5, [])
    Except.ok ⟨scheme, [], path, query, fragment⟩

/-- `SplitResult._hostinfo` for a bracket-free netloc: the part after
the last `@`, partitioned at the first `:` into host and port (empty
port ⇒ `None`). -/
def hostinfoOf (netloc : List Char) : List Char × Option (List Char) :=
  let hi := afterLast '@' netloc
  match splitFirst ':' hi with
  | some (h, p) => (h, if p = [] then none else some p)
  | none => (hi, none)

/-- `SplitResult.hostname`, coerced through `(parts.hostname or "")`:
lowercases up to a `%` (IPv6 zone separator), empty for a missing
host. -/
def hostnameOf (netloc : List Char) : List Char :=
  let h := (hostinfoOf netloc).1
  match splitFirst '%' h with
  | some (a, b) => lowerList a ++ '%' :: b
  | none => lowerList h

def digitsToNat (l : List Char) : Nat :=
  l.foldl (fun acc c => acc * 10 + (c.toNat - 48)) 0

/-- `SplitResult.port`: ASCII digits only, range-checked; anything else
raises `ValueError`. -/
def portOf (netloc : List Char) : Except String (Option Nat) :=
  match (hostinfoOf netloc).2 with
  | none => Except.ok none
  | some p =>
    if p.all isAsciiDigit then
      let n := digitsToNat p
      if n ≤ 65535 then Except.ok (some n)
      else Except.error "Port out of range 0-65535"
    else Except.error "Port could not be cast to integer value"

/-- One byte of percent-decoding plus UTF-8 `errors='replace'`
decoding: continuation-byte test. -/
def isCont (b : Nat) : Bool := 128 ≤ b ∧ b ≤ 191

/-- UTF-8 decoding with `errors='replace'` (one U+FFFD per maximal
invalid subpart); the fuel is any bound on the byte count. -/
def utf8DecodeGo : Nat → List Nat → List Char
  | 0, _ => []
  | _ + 1, [] => []
  | fuel + 1, b :: rest =>
    if b < 128 then Char.ofNat b :: utf8DecodeGo fuel rest
    else if 194 ≤ b ∧ b ≤ 223 then
      match rest with
      | c :: rest2 =>
        if isCont c then
          Char.ofNat ((b - 192) * 64 + (c - 128)) :: utf8DecodeGo fuel rest2
        else fffd :: utf8DecodeGo fuel rest
      | [] => [fffd]
    else if 224 ≤ b ∧ b ≤ 239 then
      match rest with
      | c :: d :: rest2 =>
        if (if b = 224 then 160 ≤ c ∧ c ≤ 191
            else if b = 237 then 128 ≤ c ∧ c ≤ 159
            else isCont c) ∧ isCont d then
          Char.ofNat ((b - 224) * 4096 + (c - 128) * 64 + (d - 128)) ::
            utf8DecodeGo fuel rest2
        else fffd :: utf8DecodeGo fuel rest
      | _ => [fffd]
    else if 240 ≤ b ∧ b ≤ 244 then
      match rest with
      | c :: d :: e :: rest2 =>
        if (if b = 240 then 144 ≤ c ∧ c ≤ 191
            else if b = 244 then 128 ≤ c ∧ c ≤ 143
            else isCont c) ∧ isCont d ∧ isCont e then
          Char.ofNat ((b - 240) * 262144 + (c - 128) * 4096 +
            (d - 128) * 64 + (e - 128)) :: utf8DecodeGo fuel rest2
        else fffd :: utf8DecodeGo fuel rest
      | _ => [fffd]
    else fffd :: utf8DecodeGo fuel rest

def utf8DecodeReplace (l : List Nat) : List Char := utf8DecodeGo l.length l

/-- Character-wise scan equivalent to `urllib.parse.unquote`: `%XX`
groups and literal ASCII characters accumulate bytes that are UTF-8
decoded together; non-ASCII characters pass through directly. -/
def unquoteGo : Nat → List Char → List Nat → List Char
  | 0, _, buf => utf8DecodeReplace buf
  | _ + 1, [], buf => utf8DecodeReplace buf
  | fuel + 1, c :: rest, buf =>
    if c = '%' then
      match rest with
      | a :: b :: rest2 =>
        if isHexDigit a ∧ isHexDigit b then
          unquoteGo fuel rest2 (buf ++ [hexVal a * 16 + hexVal b])
        else unquoteGo fuel rest (buf ++ [37])
      | _ => unquoteGo fuel rest (buf ++ [37])
    else if c.toNat < 128 then unquoteGo fuel rest (buf ++ [c.toNat])
    else utf8DecodeReplace buf ++ c :: unquoteGo fuel rest []

/-- `urllib.parse.unquote` (UTF-8, `errors='replace'`); the identity on
strings without `%`. -/
def unquoteList (l : List Char) : List Char :=
  if '%' ∈ l then unquoteGo l.length l [] else l

def replacePlus (l : List Char) : List Char :=
  l.map (fun c => if c = '+' then ' ' else c)

/-- `urllib.parse.parse_qsl(qs, keep_blank_values=True)`. -/
def parseQsl (qs : List Char) : List (List Char × List Char) :=
  if qs = [] then []
  else
    (splitAll '&' qs).filterMap (fun nv =>
      if nv = [] then none
      else
        match splitFirst '=' nv with
        | some (n, v) =>
          some (unquoteList (replacePlus n), unquoteList (replacePlus v))
        | none => some (unquoteList (replacePlus nv), []))

/-- `_DROP_QUERY_KEYS`. -/
def dropKeys : List String :=
  [r"gclid", r"fbclid", r"igshid", r"mc_cid", r"mc_eid", r"_hsenc",
   r"_hsmi", r"ref", r"ref_src", r"spm"]

/-- The per-pair decision of `_drop_tracking_params`. -/
def dropTrackingF (p : List Char × List Char) :
    Option (List Char × List Char) :=
  let key := pyStripList p.1
  let lowered := lowerList key
  if lowered = [] then none
  else if ['u', 't', 'm', '_'].isPrefixOf lowered then none
  else if dropKeys.contains (String.mk lowered) then none
  else some (key, p.2)

/-- `_drop_tracking_params`. -/
def dropTrackingParams (pairs : List (List Char × List Char)) :
    List (List Char × List Char) :=
  pairs.filterMap dropTrackingF

/-- Python string comparison (code-point lexicographic `<`). -/
def lexLt : List Char → List Char → Bool
  | [], [] => false
  | [], _ :: _ => true
  | _ :: _, [] => false
  | a :: as, b :: bs =>
    if a.toNat < b.toNat then true
    else if b.toNat < a.toNat then false
    else lexLt as bs

/-- `≤` on pairs under the sort key `(k.lower(), v)`. -/
def pairLe (p q : List Char × List Char) : Bool :=
  let kp := lowerList p.1
  let kq := lowerList q.1
  if lexLt kp kq then true
  else if lexLt kq kp then false
  else ¬lexLt q.2 p.2

def insertPair (p : List Char × List Char) :
    List (List Char × List Char) → List (List Char × List Char)
  | [] => [p]
  | q :: t => if pairLe p q then p :: q :: t else q :: insertPair p t

/-- `list.sort(key=lambda kv: (kv[0].lower(), kv[1]))`: stable insertion
sort (equal keys keep their input order, as Python's stable sort). -/
def sortPairs (l : List (List Char × List Char)) :
    List (List Char × List Char) :=
  l.foldr insertPair []

/-- `"&".join(f"{k}={v}" for k, v in pairs)`. -/
def joinPairs : List (List Char × List Char) → List Char
  | [] => []
  | [p] => p.1 ++ '=' :: p.2
  | p :: rest => p.1 ++ '=' :: p.2 ++ '&' :: joinPairs rest

/-- `urllib.parse.uses_netloc`. -/
def usesNetloc : List String :=
  [r"", r"ftp", r"http", r"gopher", r"nntp", r"telnet", r"imap",
   r"wais", r"file", r"mms", r"https", r"shttp", r"snews", r"prospero",
   r"rtsp", r"rtsps", r"rtspu", r"rsync", r"svn", r"svn+ssh", r"sftp",
   r"nfs", r"git", r"git+ssh", r"ws", r"wss"]

/-- `urllib.parse.urlunsplit`. -/
def urlunsplit (scheme netloc path query fragment : List Char) :
    List Char :=
  let url := path
  let url :=
    if netloc ≠ [] ∨ (scheme ≠ [] ∧ usesNetloc.contains (String.mk scheme) ∧
        url.take 2 ≠ ['/', '/']) then
      let url2 := if url ≠ [] ∧ url.take 1 ≠ ['/'] then '/' :: url else url
      '/' :: '/' :: (netloc ++ url2)
    else url
  let url := if scheme ≠ [] then scheme ++ ':' :: url else url
  let url := if query ≠ [] then url ++ '?' :: query else url
  let url := if fragment ≠ [] then url ++ '#' :: fragment else url
  url

/-! ### `src/wmt/urls.py` -/

/-- `_is_youtube_host`: the regex `(^|\.)youtube\.com$` (IGNORECASE,
`search`) matches exactly the host `youtube.com` or any host ending in
`.youtube.com`; plus the literal `youtu.be`. -/
def isYtHost (host : List Char) : Bool :=
  let h := lowerList (pyStripList host)
  h = ('y' :: 'o' :: 'u' :: 't' :: 'u' :: '.' :: 'b' :: 'e' :: []) ∨
    h = ('y' :: 'o' :: 'u' :: 't' :: 'u' :: 'b' :: 'e' :: '.' :: 'c' ::
      'o' :: 'm' :: []) ∨
    ('.' :: 'y' :: 'o' :: 'u' :: 't' :: 'u' :: 'b' :: 'e' :: '.' :: 'c' ::
      'o' :: 'm' :: []).isSuffixOf h

def stripSlashes (l : List Char) : List Char :=
  ((l.dropWhile (fun c => c = '/')).reverse.dropWhile
    (fun c => c = '/')).reverse

def rstripSlashes (l : List Char) : List Char :=
  (l.reverse.dropWhile (fun c => c = '/')).reverse

/-- `dict(parse_qsl(...)).get(k)`: the last pair with the given name. -/
def qslDictGet (pairs : List (List Char × List Char)) (k : List Char) :
    Option (List Char) :=
  pairs.foldl (fun acc p => if p.1 = k then some p.2 else acc) none

def watchPath : List Char := ['/', 'w', 'a', 't', 'c', 'h']

def shortsSlash : List Char :=
  ['/', 's', 'h', 'o', 'r', 't', 's', '/']

def watchBase : String := "https://www.youtube.com/watch?v="

/-- The `video_id` selection of `_canonicalize_youtube` (host already
lowercased). -/
def ytVideoId (host path query : List Char) : Option (List Char) :=
  if host = ('y' :: 'o' :: 'u' :: 't' :: 'u' :: '.' :: 'b' :: 'e' :: [])
  then
    let p := stripSlashes path
    if p ≠ [] then some ((splitAll '/' p).headD []) else none
  else if rstripSlashes path = watchPath then
    match qslDictGet (parseQsl query) ['v'] with
    | some v => if v ≠ [] then some v else none
    | none => none
  else if shortsSlash.isPrefixOf path then
    let segs := splitAll '/' path
    if h : 2 < segs.length then some (segs.get ⟨2, h⟩) else none
  else none

/-- `_canonicalize_youtube`. -/
def canonicalizeYoutube (url : List Char) : Except String (Option (List Char)) := do
  let parts ← urlsplitE (pyStripList url)
  let host := lowerList (hostnameOf parts.netloc)
  if ¬isYtHost host then return none
  match ytVideoId host parts.path parts.query with
  | none => return none
  | some vid =>
    if vid = [] then return none
    else return some (watchBase.data ++ vid)

def digitChar (n : Nat) : Char := Char.ofNat (48 + n)

def natDigitsGo : Nat → Nat → List Char
  | 0, _ => []
  | fuel + 1, n =>
    if n < 10 then [digitChar n]
    else natDigitsGo fuel (n / 10) ++ [digitChar (n % 10)]

/-- Decimal rendering of a port number (`f"{port}"`). -/
def natToDigits (n : Nat) : List Char := natDigitsGo 20 n

def httpsScheme : List Char := ['h', 't', 't', 'p', 's']

def httpScheme : List Char := ['h', 't', 't', 'p']

/-- The `userinfo` computation of `normalize_url`
(`netloc.split("@", 1)[0] + "@"` when an `@` is present). -/
def userinfoOf (netloc : List Char) : List Char :=
  if '@' ∈ netloc then
    (match splitFirst '@' netloc with
     | some (a, _) => a ++ ['@']
     | none => [])
  else []

/-- The netloc rebuilt by `normalize_url`: userinfo, lowercased host,
and the port unless it is the scheme's default. -/
def normNetloc (scheme netloc : List Char) (port : Option Nat) :
    List Char :=
  let host := lowerList (hostnameOf netloc)
  let userinfo := userinfoOf netloc
  match port with
  | none => userinfo ++ host
  | some p =>
    if (scheme = httpsScheme ∧ p = 443) ∨ (scheme = httpScheme ∧ p = 80)
    then userinfo ++ host
    else userinfo ++ host ++ ':' :: natToDigits p

/-- The path rebuilt by `normalize_url`: `parts.path or "/"`, then
`rstrip("/")` except for the root path. -/
def normPath (p : List Char) : List Char :=
  let path := if p = [] then ['/'] else p
  if path ≠ ['/'] then rstripSlashes path else path

/-- The query rebuilt by `normalize_url`: parse, drop tracking keys,
sort, re-join. -/
def normQuery (q : List Char) : List Char :=
  joinPairs (sortPairs (dropTrackingParams (parseQsl q)))

/-- `normalize_url`. -/
def normalizeUrlL (url0 : List Char) : Except String (List Char) := do
  let url := pyStripList url0
  if url = [] then return []
  match ← canonicalizeYoutube url with
  | some yt => return yt
  | none =>
    let parts ← urlsplitE url
    let scheme := lowerList parts.scheme
    let port ← portOf parts.netloc
    return urlunsplit scheme (normNetloc scheme parts.netloc port)
      (normPath parts.path) (normQuery parts.query) []

/-- `normalize_url` on `String`s. -/
def normalizeUrl (url : String) : Except String String :=
  (normalizeUrlL url.data).map String.mk

/-! ### Character-level facts -/

/-- Printable non-space ASCII. -/
def okChar (c : Char) : Bool := 32 < c.toNat ∧ c.toNat < 127

theorem char_eq_iff {a b : Char} : a = b ↔ a.toNat = b.toNat := by
  constructor
  · intro h; rw [h]
  · intro h; exact Char.ext (UInt32.toNat.inj h)

theorem char_le_iff {a b : Char} : a ≤ b ↔ a.toNat ≤ b.toNat := Iff.rfl

theorem toNat_ofNat_valid {n : Nat} (h : n.isValidChar) :
    (Char.ofNat n).toNat = n := by
  rw [Char.ofNat, dif_pos h]
  rfl

theorem okChar_no_pyspace {c : Char} (h : okChar c = true) :
    pyIsSpace c = false := by
  rw [okChar] at h
  simp only [Bool.and_eq_true, decide_eq_true_eq] at h
  rw [pyIsSpace]
  simp only [decide_eq_false_iff_not, List.mem_cons, List.not_mem_nil,
    or_false]
  push_neg
  omega

theorem toLowerAscii_of_not_upper {c : Char}
    (h : ¬(65 ≤ c.toNat ∧ c.toNat ≤ 90)) : toLowerAscii c = c := by
  rw [toLowerAscii, if_neg]
  intro hc
  exact h ⟨char_le_iff.mp hc.1, char_le_iff.mp hc.2⟩

theorem toLowerAscii_of_upper {c : Char}
    (h : 65 ≤ c.toNat ∧ c.toNat ≤ 90) :
    (toLowerAscii c).toNat = c.toNat + 32 := by
  rw [toLowerAscii, if_pos ⟨char_le_iff.mpr h.1, char_le_iff.mpr h.2⟩]
  exact toNat_ofNat_valid (Or.inl (by omega))

/-- `toLowerAscii` only moves within `97..122`; any character outside
that band is a fixed point, and only maps to itself. -/
theorem toLowerAscii_cases (c : Char) :
    toLowerAscii c = c ∨
      (65 ≤ c.toNat ∧ c.toNat ≤ 90 ∧
        (toLowerAscii c).toNat = c.toNat + 32) := by
  by_cases h : 65 ≤ c.toNat ∧ c.toNat ≤ 90
  · exact Or.inr ⟨h.1, h.2, toLowerAscii_of_upper h⟩
  · exact Or.inl (toLowerAscii_of_not_upper h)

theorem toLowerAscii_eq_nonletter {c d : Char}
    (hd : ¬(97 ≤ d.toNat ∧ d.toNat ≤ 122))
    (h : toLowerAscii c = d) : c = d := by
  rcases toLowerAscii_cases c with hc | ⟨h1, h2, h3⟩
  · rw [← hc, h]
  · exfalso
    rw [h] at h3
    exact hd (by omega)

theorem toLowerAscii_fix_nonupper {c : Char}
    (h : ¬(65 ≤ c.toNat ∧ c.toNat ≤ 90)) : toLowerAscii c = c :=
  toLowerAscii_of_not_upper h

theorem toLowerAscii_okChar {c : Char} (h : okChar c = true) :
    okChar (toLowerAscii c) = true := by
  rw [okChar] at h ⊢
  simp only [Bool.and_eq_true, decide_eq_true_eq] at h ⊢
  rcases toLowerAscii_cases c with hc | ⟨h1, h2, h3⟩
  · rw [hc]; exact h
  · omega

theorem notMem_lowerList {d : Char} {l : List Char}
    (hd : ¬(97 ≤ d.toNat ∧ d.toNat ≤ 122))
    (h : d ∉ l) : d ∉ lowerList l := by
  intro hm
  rcases List.mem_map.mp hm with ⟨c, hc, he⟩
  rw [toLowerAscii_eq_nonletter hd he] at hc
  exact h hc

/-! ### Generic list facts -/

theorem dropWhile_eq_self_of_all {p : Char → Bool} {l : List Char}
    (h : ∀ c ∈ l, p c = false) : l.dropWhile p = l := by
  cases l with
  | nil => rfl
  | cons a t => simp [List.dropWhile_cons, h a (by simp)]

theorem dropWhile_idem {α : Type} (p : α → Bool) (l : List α) :
    (l.dropWhile p).dropWhile p = l.dropWhile p := by
  induction l with
  | nil => rfl
  | cons a t ih =>
    by_cases h : p a
    · simp [List.dropWhile_cons, h, ih]
    · simp [List.dropWhile_cons, h]

theorem dropWhile_ne_nil_of_exists {p : Char → Bool} {l : List Char}
    (h : ∃ c ∈ l, p c = false) : l.dropWhile p ≠ [] := by
  induction l with
  | nil => simp at h
  | cons c t ih =>
    by_cases hc : p c
    · rw [List.dropWhile_cons, if_pos hc]
      apply ih
      rcases h with ⟨d, hd, hpd⟩
      rcases List.mem_cons.mp hd with rfl | hd
      · rw [hc] at hpd; cases hpd
      · exact ⟨d, hd, hpd⟩
    · simp [List.dropWhile_cons, hc]

theorem dropWhile_append_left {p : Char → Bool} {a : List Char}
    (b : List Char) (h : a.dropWhile p ≠ []) :
    (a ++ b).dropWhile p = a.dropWhile p ++ b := by
  induction a with
  | nil => simp at h
  | cons c t ih =>
    by_cases hc : p c
    · rw [List.cons_append, List.dropWhile_cons, if_pos hc,
        List.dropWhile_cons, if_pos hc] at *
      exact ih h
    · rw [List.cons_append, List.dropWhile_cons, if_neg hc,
        List.dropWhile_cons, if_neg hc, List.cons_append]

theorem takeWhile_append_all {p : Char → Bool} {a : List Char}
    (b : List Char) (h : ∀ c ∈ a, p c = true) :
    (a ++ b).takeWhile p = a ++ b.takeWhile p := by
  induction a with
  | nil => rfl
  | cons c t ih =>
    rw [List.cons_append, List.takeWhile_cons, if_pos (h c (by simp)),
      ih (fun d hd => h d (by simp [hd])), List.cons_append]

theorem dropWhile_append_all {p : Char → Bool} {a : List Char}
    (b : List Char) (h : ∀ c ∈ a, p c = true) :
    (a ++ b).dropWhile p = b.dropWhile p := by
  induction a with
  | nil => rfl
  | cons c t ih =>
    rw [List.cons_append, List.dropWhile_cons, if_pos (h c (by simp))]
    exact ih (fun d hd => h d (by simp [hd]))

theorem mem_of_mem_dropWhile {p : Char → Bool} {c : Char} {l : List Char}
    (h : c ∈ l.dropWhile p) : c ∈ l :=
  (List.dropWhile_sublist (l := l) (p := p)).mem h

theorem mem_of_mem_takeWhile {p : Char → Bool} {c : Char} {l : List Char}
    (h : c ∈ l.takeWhile p) : c ∈ l :=
  (List.takeWhile_sublist (l := l) (p := p)).mem h

/-! ### `pyStripList` facts -/

theorem pyStripList_eq_self {l : List Char}
    (h : ∀ c ∈ l, pyIsSpace c = false) : pyStripList l = l := by
  unfold pyStripList
  rw [dropWhile_eq_self_of_all h,
    dropWhile_eq_self_of_all (fun c hc => h c (List.mem_reverse.mp hc)),
    List.reverse_reverse]

theorem mem_pyStripList {c : Char} {l : List Char}
    (h : c ∈ pyStripList l) : c ∈ l := by
  unfold pyStripList at h
  rw [List.mem_reverse] at h
  have h2 := mem_of_mem_dropWhile h
  rw [List.mem_reverse] at h2
  exact mem_of_mem_dropWhile h2

theorem dropWhile_eq_self_of_prefix {p : Char → Bool} {u r : List Char}
    (hu : u.dropWhile p = u) (hpre : ∃ s, u = r ++ s) :
    r.dropWhile p = r := by
  rcases hpre with ⟨s, rfl⟩
  cases r with
  | nil => rfl
  | cons c t =>
    rw [List.cons_append, List.dropWhile_cons] at hu
    by_cases hpc : p c
    · exfalso
      rw [if_pos hpc] at hu
      have hlen := congrArg List.length hu
      have hle := (List.dropWhile_sublist (l := t ++ s) (p := p)).length_le
      simp only [List.length_cons, List.length_append] at hlen hle
      omega
    · rw [List.dropWhile_cons, if_neg hpc]

theorem pyStripList_idem (l : List Char) :
    pyStripList (pyStripList l) = pyStripList l := by
  have hA : (pyStripList l).reverse =
      (l.dropWhile pyIsSpace).reverse.dropWhile pyIsSpace := by
    unfold pyStripList
    rw [List.reverse_reverse]
  have h1 : (pyStripList l).dropWhile pyIsSpace = pyStripList l := by
    apply dropWhile_eq_self_of_prefix (u := l.dropWhile pyIsSpace)
    · exact dropWhile_idem _ _
    · refine ⟨((l.dropWhile pyIsSpace).reverse.takeWhile pyIsSpace).reverse,
        ?_⟩
      have hd := List.takeWhile_append_dropWhile (p := pyIsSpace)
        (l := (l.dropWhile pyIsSpace).reverse)
      have hrev := congrArg List.reverse hd
      rw [List.reverse_append, List.reverse_reverse] at hrev
      exact hrev.symm
  show ((((pyStripList l).dropWhile pyIsSpace).reverse).dropWhile
    pyIsSpace).reverse = pyStripList l
  rw [h1, hA, dropWhile_idem, ← hA, List.reverse_reverse]

/-! ### `splitFirst` / `splitAll` facts -/

theorem splitFirst_eq_some {c : Char} {l a b : List Char}
    (h : splitFirst c l = some (a, b)) : l = a ++ c :: b ∧ c ∉ a := by
  induction l generalizing a b with
  | nil => simp [splitFirst] at h
  | cons x t ih =>
    rw [splitFirst] at h
    by_cases hx : x = c
    · rw [if_pos hx] at h
      simp only [Option.some.injEq, Prod.mk.injEq] at h
      obtain ⟨h1, h2⟩ := h
      subst h1
      subst h2
      simp [hx]
    · rw [if_neg hx] at h
      cases hsp : splitFirst c t with
      | none => rw [hsp] at h; cases h
      | some ab =>
        obtain ⟨a', b'⟩ := ab
        rw [hsp] at h
        simp only [Option.some.injEq, Prod.mk.injEq] at h
        obtain ⟨h1, h2⟩ := h
        subst h1
        subst h2
        obtain ⟨ht, hna⟩ := ih hsp
        refine ⟨by simp [ht], ?_⟩
        intro hm
        rcases List.mem_cons.mp hm with rfl | hm
        · exact hx rfl
        · exact hna hm

theorem splitFirst_append {c : Char} {a : List Char} (b : List Char)
    (h : c ∉ a) : splitFirst c (a ++ c :: b) = some (a, b) := by
  induction a with
  | nil => simp [splitFirst]
  | cons x t ih =>
    have hx : ¬x = c := fun e => h (by simp [e])
    have ht : c ∉ t := fun m => h (by simp [m])
    rw [List.cons_append, splitFirst, if_neg hx, ih ht]

theorem splitFirst_eq_none_iff {c : Char} {l : List Char} :
    splitFirst c l = none ↔ c ∉ l := by
  induction l with
  | nil => simp [splitFirst]
  | cons x t ih =>
    by_cases hx : x = c
    · subst hx; simp [splitFirst]
    · rw [splitFirst, if_neg hx]
      cases hsp : splitFirst c t with
      | none =>
        constructor
        · intro _ hm
          rcases List.mem_cons.mp hm with rfl | hm
          · exact hx rfl
          · exact (ih.mp hsp) hm
        · intro _
          rfl
      | some ab =>
        obtain ⟨a1, b1⟩ := ab
        have hmem : c ∈ t := by
          rcases splitFirst_eq_some hsp with ⟨he, -⟩
          rw [he]; simp
        simp [hsp, hmem]

theorem splitAll_ne_nil (sep : Char) (l : List Char) :
    splitAll sep l ≠ [] := by
  cases l with
  | nil => simp [splitAll]
  | cons c t =>
    rw [splitAll]
    cases h : splitAll sep t with
    | nil => simp
    | cons hh r => by_cases hc : c = sep <;> simp [hc]

theorem splitAll_of_notMem {sep : Char} {l : List Char} (h : sep ∉ l) :
    splitAll sep l = [l] := by
  induction l with
  | nil => rfl
  | cons c t ih =>
    have hc : ¬c = sep := fun e => h (by simp [e])
    have ht : sep ∉ t := fun m => h (by simp [m])
    rw [splitAll, ih ht]
    simp [hc]

theorem splitAll_append {sep : Char} {a : List Char} (b : List Char)
    (h : sep ∉ a) :
    splitAll sep (a ++ sep :: b) = a :: splitAll sep b := by
  induction a with
  | nil =>
    rw [List.nil_append, splitAll]
    cases hb : splitAll sep b with
    | nil => exact absurd hb (splitAll_ne_nil sep b)
    | cons hh r => simp
  | cons c t ih =>
    have hc : ¬c = sep := fun e => h (by simp [e])
    have ht : sep ∉ t := fun m => h (by simp [m])
    rw [List.cons_append, splitAll, ih ht]
    simp [hc]

theorem mem_of_mem_splitAll {sep : Char} {l s : List Char}
    (hs : s ∈ splitAll sep l) : (∀ c ∈ s, c ∈ l) ∧ sep ∉ s := by
  induction l generalizing s with
  | nil =>
    simp only [splitAll, List.mem_singleton] at hs
    subst hs; simp
  | cons c t ih =>
    rw [splitAll] at hs
    cases hsp : splitAll sep t with
    | nil => exact absurd hsp (splitAll_ne_nil sep t)
    | cons hh r =>
      rw [hsp] at hs
      have hs2 : s ∈ (if c = sep then [] :: hh :: r else (c :: hh) :: r) :=
        hs
      clear hs
      rename' hs2 => hs
      by_cases hc : c = sep
      · rw [if_pos hc] at hs
        rcases List.mem_cons.mp hs with rfl | hs
        · simp
        · have h2 := ih (s := s) (by rw [hsp]; exact hs)
          exact ⟨fun d hd => by simp [h2.1 d hd], h2.2⟩
      · rw [if_neg hc] at hs
        rcases List.mem_cons.mp hs with rfl | hs
        · have h2 := ih (s := hh) (by rw [hsp]; exact List.mem_cons_self _ _)
          constructor
          · intro d hd
            rcases List.mem_cons.mp hd with rfl | hd
            · simp
            · simp [h2.1 d hd]
          · intro hm
            rcases List.mem_cons.mp hm with he | hm
            · exact hc he.symm
            · exact h2.2 hm
        · have h2 := ih (s := s) (by rw [hsp]; exact List.mem_cons_of_mem _ hs)
          exact ⟨fun d hd => by simp [h2.1 d hd], h2.2⟩

/-! ### `rstripSlashes` facts -/

theorem rstripSlashes_idem (l : List Char) :
    rstripSlashes (rstripSlashes l) = rstripSlashes l := by
  unfold rstripSlashes
  rw [List.reverse_reverse, dropWhile_idem]

theorem rstripSlashes_spec (l : List Char) :
    ∃ k, l = rstripSlashes l ++ List.replicate k '/' := by
  refine ⟨(l.reverse.takeWhile (fun c => decide (c = '/'))).length, ?_⟩
  have hdecomp := List.takeWhile_append_dropWhile
    (p := fun c => decide (c = '/')) (l := l.reverse)
  have htake : ∀ b ∈ l.reverse.takeWhile (fun c => decide (c = '/')),
      b = '/' := by
    intro b hb
    simpa using List.mem_takeWhile_imp hb
  have hrev : (l.reverse.takeWhile (fun c => decide (c = '/'))).reverse =
      List.replicate
        (l.reverse.takeWhile (fun c => decide (c = '/'))).reverse.length
        '/' :=
    List.eq_replicate_length.mpr
      (fun b hb => htake b (List.mem_reverse.mp hb))
  unfold rstripSlashes
  conv_lhs => rw [← l.reverse_reverse, ← hdecomp]
  rw [List.reverse_append, hrev, List.length_reverse]

theorem mem_rstripSlashes {c : Char} {l : List Char}
    (h : c ∈ rstripSlashes l) : c ∈ l := by
  rcases rstripSlashes_spec l with ⟨k, hk⟩
  rw [hk]
  exact List.mem_append_left _ h

theorem rstripSlashes_append (a : List Char) {t : List Char}
    (h : ∃ c ∈ t, ¬c = '/') :
    rstripSlashes (a ++ t) = a ++ rstripSlashes t := by
  unfold rstripSlashes
  rw [List.reverse_append, dropWhile_append_left _ ?hne]
  · rw [List.reverse_append, List.reverse_reverse]
  · apply dropWhile_ne_nil_of_exists
    rcases h with ⟨c, hc, hne⟩
    exact ⟨c, List.mem_reverse.mpr hc, by simpa using hne⟩

theorem rstripSlashes_eq_self_of_ne_slash (l : List Char)
    (c : Char) (hc : ¬c = '/') :
    rstripSlashes (l ++ [c]) = l ++ [c] := by
  rw [rstripSlashes_append l ⟨c, by simp, hc⟩]
  congr 1
  unfold rstripSlashes
  simp [List.dropWhile_cons, hc]

/-! ### `lowerList` facts -/

theorem toLowerAscii_idem (c : Char) :
    toLowerAscii (toLowerAscii c) = toLowerAscii c := by
  rcases toLowerAscii_cases c with h | ⟨h1, h2, h3⟩
  · rw [h]
    exact h
  · exact toLowerAscii_of_not_upper (by omega)

theorem lowerList_idem (l : List Char) :
    lowerList (lowerList l) = lowerList l := by
  unfold lowerList
  rw [List.map_map]
  exact List.map_congr_left (fun c _ => toLowerAscii_idem c)

theorem isAsciiAlpha_iff {c : Char} :
    isAsciiAlpha c = true ↔
      (97 ≤ c.toNat ∧ c.toNat ≤ 122) ∨ (65 ≤ c.toNat ∧ c.toNat ≤ 90) := by
  rw [isAsciiAlpha]
  simp only [decide_eq_true_eq]
  exact Iff.rfl

theorem isAsciiDigit_iff {c : Char} :
    isAsciiDigit c = true ↔ 48 ≤ c.toNat ∧ c.toNat ≤ 57 := by
  rw [isAsciiDigit]
  simp only [decide_eq_true_eq]
  exact Iff.rfl

theorem isSchemeChar_iff {c : Char} :
    isSchemeChar c = true ↔
      isAsciiAlpha c = true ∨ isAsciiDigit c = true ∨
        c = '+' ∨ c = '-' ∨ c = '.' := by
  rw [isSchemeChar]
  simp only [decide_eq_true_eq]

theorem isAsciiAlpha_toLower {c : Char} (h : isAsciiAlpha c = true) :
    isAsciiAlpha (toLowerAscii c) = true := by
  rcases toLowerAscii_cases c with he | ⟨h1, h2, h3⟩
  · rw [he]; exact h
  · rw [isAsciiAlpha_iff]
    left
    omega

theorem isSchemeChar_toLower {c : Char} (h : isSchemeChar c = true) :
    isSchemeChar (toLowerAscii c) = true := by
  rcases isSchemeChar_iff.mp h with ha | hd | he | he | he
  · exact isSchemeChar_iff.mpr (Or.inl (isAsciiAlpha_toLower ha))
  · have hd2 := isAsciiDigit_iff.mp hd
    rw [toLowerAscii_of_not_upper (by omega)]
    exact h
  · subst he; decide
  · subst he; decide
  · subst he; decide

/-! ### Decimal digits -/

theorem digitsToNat_append (l : List Char) (c : Char) :
    digitsToNat (l ++ [c]) = digitsToNat l * 10 + (c.toNat - 48) := by
  unfold digitsToNat
  rw [List.foldl_append]
  rfl

theorem digitChar_toNat {n : Nat} (h : n < 10) :
    (digitChar n).toNat = 48 + n := by
  unfold digitChar
  exact toNat_ofNat_valid (Or.inl (by omega))

theorem isAsciiDigit_digitChar {n : Nat} (h : n < 10) :
    isAsciiDigit (digitChar n) = true := by
  rw [isAsciiDigit_iff, digitChar_toNat h]
  omega

theorem natDigitsGo_spec : ∀ (fuel n : Nat), n < 10 ^ fuel →
    digitsToNat (natDigitsGo fuel n) = n ∧
    (∀ c ∈ natDigitsGo fuel n, isAsciiDigit c = true) := by
  intro fuel
  induction fuel with
  | zero =>
    intro n h
    have hn : n = 0 := by omega
    subst hn
    exact ⟨rfl, by simp [natDigitsGo]⟩
  | succ fuel ih =>
    intro n h
    rw [natDigitsGo]
    by_cases hn : n < 10
    · rw [if_pos hn]
      refine ⟨?_, ?_⟩
      · have h0 : digitsToNat [digitChar n] =
            0 * 10 + ((digitChar n).toNat - 48) := rfl
        rw [h0, digitChar_toNat hn]
        omega
      · intro c hc
        rw [List.mem_singleton] at hc
        subst hc
        exact isAsciiDigit_digitChar hn
    · rw [if_neg hn]
      have hdiv : n / 10 < 10 ^ fuel := by
        rw [Nat.div_lt_iff_lt_mul (by norm_num)]
        calc n < 10 ^ (fuel + 1) := h
          _ = 10 ^ fuel * 10 := by ring
      obtain ⟨ih1, ih2⟩ := ih (n / 10) hdiv
      refine ⟨?_, ?_⟩
      · rw [digitsToNat_append, ih1,
          digitChar_toNat (Nat.mod_lt _ (by norm_num))]
        omega
      · intro c hc
        rcases List.mem_append.mp hc with hc | hc
        · exact ih2 c hc
        · rw [List.mem_singleton] at hc
          subst hc
          exact isAsciiDigit_digitChar (Nat.mod_lt _ (by norm_num))

theorem natToDigits_spec {n : Nat} (h : n ≤ 65535) :
    digitsToNat (natToDigits n) = n ∧
    natToDigits n ≠ [] ∧
    (∀ c ∈ natToDigits n, isAsciiDigit c = true) := by
  have h20 : n < 10 ^ 20 := by
    calc n ≤ 65535 := h
      _ < 10 ^ 20 := by norm_num
  obtain ⟨h1, h2⟩ := natDigitsGo_spec 20 n h20
  refine ⟨h1, ?_, h2⟩
  rw [natToDigits, natDigitsGo]
  by_cases hn : n < 10
  · simp [hn]
  · rw [if_neg hn]
    simp

/-! ### Sorting -/

theorem lexLt_asymm {a : List Char} :
    ∀ {b}, lexLt a b = true → lexLt b a = false := by
  induction a with
  | nil =>
    intro b h
    cases b with
    | nil => simp [lexLt] at h
    | cons x xs => simp [lexLt]
  | cons x xs ih =>
    intro b h
    cases b with
    | nil => simp [lexLt] at h
    | cons y ys =>
      rw [lexLt] at h ⊢
      by_cases h1 : x.toNat < y.toNat
      · rw [if_neg (by omega), if_pos h1]
      · by_cases h2 : y.toNat < x.toNat
        · rw [if_neg h1, if_pos h2] at h
          cases h
        · rw [if_neg h1, if_neg h2] at h
          rw [if_neg h2, if_neg h1]
          exact ih h

theorem pairLe_total (p q : List Char × List Char) :
    pairLe p q = true ∨ pairLe q p = true := by
  simp only [pairLe]
  by_cases h1 : lexLt (lowerList p.1) (lowerList q.1)
  · left; rw [if_pos h1]
  · by_cases h2 : lexLt (lowerList q.1) (lowerList p.1)
    · right; rw [if_pos h2]
    · rw [if_neg h1, if_neg h2, if_neg h2, if_neg h1]
      by_cases h3 : lexLt q.2 p.2
      · right
        simp [lexLt_asymm h3]
      · left
        simp [h3]

theorem head?_insertPair (p : List Char × List Char)
    (l : List (List Char × List Char)) :
    (insertPair p l).head? = some p ∨ (insertPair p l).head? = l.head? := by
  cases l with
  | nil => left; rfl
  | cons q t =>
    rw [insertPair]
    by_cases hpq : pairLe p q
    · left; rw [if_pos hpq]; rfl
    · right; rw [if_neg hpq]; rfl

theorem chain_insertPair {p : List Char × List Char}
    {l : List (List Char × List Char)}
    (h : List.Chain' (fun a b => pairLe a b = true) l) :
    List.Chain' (fun a b => pairLe a b = true) (insertPair p l) := by
  induction l with
  | nil => simp [insertPair]
  | cons q t ih =>
    rw [insertPair]
    by_cases hpq : pairLe p q
    · rw [if_pos hpq]
      exact List.chain'_cons.mpr ⟨hpq, h⟩
    · rw [if_neg hpq]
      have hparts := List.chain'_cons'.mp h
      apply List.chain'_cons'.mpr
      refine ⟨?_, ih hparts.2⟩
      intro x hx
      rcases head?_insertPair p t with hh | hh
      · rw [hh] at hx
        simp only [Option.mem_def, Option.some.injEq] at hx
        subst hx
        rcases pairLe_total p q with hc | hc
        · exact absurd hc hpq
        · exact hc
      · rw [hh] at hx
        exact hparts.1 x hx

theorem sortPairs_chain (l : List (List Char × List Char)) :
    List.Chain' (fun a b => pairLe a b = true) (sortPairs l) := by
  induction l with
  | nil => simp [sortPairs]
  | cons a t ih => exact chain_insertPair ih

theorem sortPairs_of_chain {l : List (List Char × List Char)}
    (h : List.Chain' (fun a b => pairLe a b = true) l) :
    sortPairs l = l := by
  induction l with
  | nil => rfl
  | cons a t ih =>
    have he : sortPairs (a :: t) = insertPair a (sortPairs t) := rfl
    rw [he, ih (List.chain'_cons'.mp h).2]
    cases t with
    | nil => rfl
    | cons b t2 =>
      rw [insertPair, if_pos (List.chain'_cons.mp h).1]

theorem sortPairs_idem (l : List (List Char × List Char)) :
    sortPairs (sortPairs l) = sortPairs l :=
  sortPairs_of_chain (sortPairs_chain l)

theorem mem_insertPair {q p : List Char × List Char}
    {l : List (List Char × List Char)} (h : q ∈ insertPair p l) :
    q = p ∨ q ∈ l := by
  induction l with
  | nil =>
    rw [insertPair] at h
    rw [List.mem_singleton] at h
    exact Or.inl h
  | cons r t ih =>
    rw [insertPair] at h
    by_cases hpr : pairLe p r
    · rw [if_pos hpr] at h
      rcases List.mem_cons.mp h with rfl | h
      · exact Or.inl rfl
      · exact Or.inr h
    · rw [if_neg hpr] at h
      rcases List.mem_cons.mp h with rfl | h
      · exact Or.inr (List.mem_cons_self _ _)
      · rcases ih h with h | h
        · exact Or.inl h
        · exact Or.inr (List.mem_cons_of_mem _ h)

theorem mem_sortPairs {q : List Char × List Char}
    {l : List (List Char × List Char)} (h : q ∈ sortPairs l) : q ∈ l := by
  induction l with
  | nil =>
    simp only [sortPairs, List.foldr_nil] at h
    exact absurd h (List.not_mem_nil q)
  | cons a t ih =>
    have he : sortPairs (a :: t) = insertPair a (sortPairs t) := rfl
    rw [he] at h
    rcases mem_insertPair h with rfl | h
    · exact List.mem_cons_self _ _
    · exact List.mem_cons_of_mem _ (ih h)

/-! ### `unquote` / `replacePlus` identities -/

theorem replacePlus_of_notMem {l : List Char} (h : '+' ∉ l) :
    replacePlus l = l := by
  induction l with
  | nil => rfl
  | cons c t ih =>
    have hc : ¬c = '+' := fun e => h (by simp [e])
    have h2 := ih (fun m => h (List.mem_cons_of_mem _ m))
    rw [replacePlus] at h2 ⊢
    rw [List.map_cons, if_neg hc, h2]

theorem unquoteList_of_notMem {l : List Char} (h : '%' ∉ l) :
    unquoteList l = l := by
  rw [unquoteList, if_neg h]

/-! ### `dropTrackingParams` facts -/

theorem filterMap_eq_self_of_some {α : Type} {f : α → Option α}
    {l : List α} (h : ∀ a ∈ l, f a = some a) : l.filterMap f = l := by
  induction l with
  | nil => rfl
  | cons a t ih =>
    rw [List.filterMap_cons, h a (List.mem_cons_self _ _),
      ih (fun b hb => h b (List.mem_cons_of_mem _ hb))]

theorem dropTracking_eq_self {l : List (List Char × List Char)}
    (h : ∀ p ∈ l, dropTrackingF p = some p) : dropTrackingParams l = l := by
  rw [dropTrackingParams]
  exact filterMap_eq_self_of_some h

theorem mem_dropTracking {p : List Char × List Char}
    {l : List (List Char × List Char)} (h : p ∈ dropTrackingParams l) :
    ∃ q ∈ l, p = (pyStripList q.1, q.2) ∧ dropTrackingF p = some p := by
  rw [dropTrackingParams] at h
  rcases List.mem_filterMap.mp h with ⟨q, hq, hfq⟩
  simp only [dropTrackingF] at hfq
  by_cases h1 : lowerList (pyStripList q.1) = []
  · rw [if_pos h1] at hfq
    cases hfq
  · rw [if_neg h1] at hfq
    by_cases h2 : (['u', 't', 'm', '_'].isPrefixOf
        (lowerList (pyStripList q.1)) : Bool)
    · rw [if_pos (by simpa using h2)] at hfq
      cases hfq
    · rw [if_neg (by simpa using h2)] at hfq
      by_cases h3 : (dropKeys.contains
          (String.mk (lowerList (pyStripList q.1))) : Bool)
      · rw [if_pos (by simpa using h3)] at hfq
        cases hfq
      · rw [if_neg (by simpa using h3)] at hfq
        have hp : p = (pyStripList q.1, q.2) := by
          cases hfq
          rfl
        refine ⟨q, hq, hp, ?_⟩
        subst hp
        simp only [dropTrackingF, pyStripList_idem]
        rw [if_neg h1, if_neg (by simpa using h2),
          if_neg (by simpa using h3)]

/-! ### `joinPairs` / `parseQsl` round trip -/

/-- A query pair that `join` and `parse_qsl` carry faithfully. -/
def cleanPair (p : List Char × List Char) : Prop :=
  p.1 ≠ [] ∧ '&' ∉ p.1 ∧ '=' ∉ p.1 ∧ '%' ∉ p.1 ∧ '+' ∉ p.1 ∧
    '&' ∉ p.2 ∧ '%' ∉ p.2 ∧ '+' ∉ p.2

theorem joinPairs_cons_cons (p q : List Char × List Char)
    (rest : List (List Char × List Char)) :
    joinPairs (p :: q :: rest) =
      (p.1 ++ '=' :: p.2) ++ '&' :: joinPairs (q :: rest) := by
  rw [joinPairs]
  simp [List.append_assoc]

theorem notMem_pair_join {c : Char} {p : List Char × List Char}
    (h1 : c ∉ p.1) (h2 : c ∉ p.2) (hne : ¬c = '=') :
    c ∉ p.1 ++ '=' :: p.2 := by
  intro hm
  rcases List.mem_append.mp hm with hm | hm
  · exact h1 hm
  · rcases List.mem_cons.mp hm with he | hm
    · exact hne he
    · exact h2 hm

theorem splitAll_joinPairs : ∀ {pairs : List (List Char × List Char)},
    (∀ p ∈ pairs, cleanPair p) → pairs ≠ [] →
    splitAll '&' (joinPairs pairs) =
      pairs.map (fun p => p.1 ++ '=' :: p.2) := by
  intro pairs
  induction pairs with
  | nil => intro _ hne; exact absurd rfl hne
  | cons p rest ih =>
    intro h _
    obtain ⟨-, hamp1, -, -, -, hamp2, -, -⟩ := h p (List.mem_cons_self _ _)
    cases rest with
    | nil =>
      rw [joinPairs,
        splitAll_of_notMem (notMem_pair_join hamp1 hamp2 (by decide))]
      simp
    | cons q rest2 =>
      rw [joinPairs_cons_cons,
        splitAll_append _ (notMem_pair_join hamp1 hamp2 (by decide)),
        ih (fun r hr => h r (List.mem_cons_of_mem _ hr)) (by simp)]
      simp

theorem parseQsl_joinPairs {pairs : List (List Char × List Char)}
    (h : ∀ p ∈ pairs, cleanPair p) :
    parseQsl (joinPairs pairs) = pairs := by
  cases pairs with
  | nil => rfl
  | cons p rest =>
    obtain ⟨hp1, hamp1, -, -, -, hamp2, -, -⟩ := h p (List.mem_cons_self _ _)
    have hne : joinPairs (p :: rest) ≠ [] := by
      cases rest with
      | nil =>
        rw [joinPairs]
        simp [hp1]
      | cons q rest2 =>
        rw [joinPairs_cons_cons]
        simp
    rw [parseQsl, if_neg hne, splitAll_joinPairs h (by simp),
      List.filterMap_map]
    apply filterMap_eq_self_of_some
    intro q hq
    obtain ⟨hq1, -, hqeq, hqpct1, hqplus1, -, hqpct2, hqplus2⟩ := h q hq
    have hqne : ¬q.1 ++ '=' :: q.2 = [] := by simp
    show (if q.1 ++ '=' :: q.2 = [] then none
      else match splitFirst '=' (q.1 ++ '=' :: q.2) with
        | some (n, v) =>
          some (unquoteList (replacePlus n), unquoteList (replacePlus v))
        | none => some (unquoteList (replacePlus (q.1 ++ '=' :: q.2)), [])) =
      some q
    rw [if_neg hqne, splitFirst_append q.2 hqeq]
    show some (unquoteList (replacePlus q.1),
      unquoteList (replacePlus q.2)) = some q
    rw [replacePlus_of_notMem hqplus1, unquoteList_of_notMem hqpct1,
      replacePlus_of_notMem hqplus2, unquoteList_of_notMem hqpct2]

theorem parseQsl_mem_spec {qs : List Char} (hp : '%' ∉ qs)
    (hpl : '+' ∉ qs) :
    ∀ p ∈ parseQsl qs,
      (∀ c ∈ p.1, c ∈ qs) ∧ (∀ c ∈ p.2, c ∈ qs) ∧
        '&' ∉ p.1 ∧ '&' ∉ p.2 ∧ '=' ∉ p.1 := by
  intro p hmem
  rw [parseQsl] at hmem
  by_cases hqs : qs = []
  · rw [if_pos hqs] at hmem
    cases hmem
  · rw [if_neg hqs] at hmem
    rcases List.mem_filterMap.mp hmem with ⟨nv, hnv, hf⟩
    obtain ⟨hsub, hsep⟩ := mem_of_mem_splitAll hnv
    by_cases hnvnil : nv = []
    · rw [if_pos hnvnil] at hf
      cases hf
    · rw [if_neg hnvnil] at hf
      cases hsp : splitFirst '=' nv with
      | some ab =>
        obtain ⟨n, v⟩ := ab
        rw [hsp] at hf
        have hf2 : some (unquoteList (replacePlus n),
            unquoteList (replacePlus v)) = some p := hf
        obtain ⟨hnv_eq, hne⟩ := splitFirst_eq_some hsp
        have hn_sub : ∀ c ∈ n, c ∈ nv := by
          intro c hc
          rw [hnv_eq]
          exact List.mem_append_left _ hc
        have hv_sub : ∀ c ∈ v, c ∈ nv := by
          intro c hc
          rw [hnv_eq]
          exact List.mem_append_right _ (List.mem_cons_of_mem _ hc)
        have hpn : '%' ∉ n := fun m => hp (hsub _ (hn_sub _ m))
        have hpv : '%' ∉ v := fun m => hp (hsub _ (hv_sub _ m))
        have hln : '+' ∉ n := fun m => hpl (hsub _ (hn_sub _ m))
        have hlv : '+' ∉ v := fun m => hpl (hsub _ (hv_sub _ m))
        rw [replacePlus_of_notMem hln, unquoteList_of_notMem hpn,
          replacePlus_of_notMem hlv, unquoteList_of_notMem hpv] at hf2
        have hpnv : p = (n, v) := by
          injection hf2 with h
          exact h.symm
        subst hpnv
        refine ⟨fun c hc => hsub _ (hn_sub _ hc),
          fun c hc => hsub _ (hv_sub _ hc),
          fun m => hsep (hn_sub _ m), fun m => hsep (hv_sub _ m), hne⟩
      | none =>
        rw [hsp] at hf
        have hf2 : some (unquoteList (replacePlus nv), ([] : List Char)) =
            some p := hf
        have hpn : '%' ∉ nv := fun m => hp (hsub _ m)
        have hln : '+' ∉ nv := fun m => hpl (hsub _ m)
        rw [replacePlus_of_notMem hln, unquoteList_of_notMem hpn] at hf2
        have hpnv : p = (nv, []) := by
          injection hf2 with h
          exact h.symm
        subst hpnv
        refine ⟨fun c hc => hsub _ hc, by simp, fun m => hsep m, by simp,
          splitFirst_eq_none_iff.mp hsp⟩

/-! ### `urlsplitE` on explicit shapes -/

/-- The fragment/query split that ends `urlsplit`. -/
def splitFrag (scheme netloc : List Char) (url4 : List Char) :
    UrlSplitResult :=
  let (rest5, fragment) : List Char × List Char :=
    match splitFirst '#' url4 with
    | some (a, b) => (a, b)
    | none => (url4, [])
  let (path, query) : List Char × List Char :=
    match splitFirst '?' rest5 with
    | some (a, b) => (a, b)
    | none => (rest5, [])
  ⟨scheme, netloc, path, query, fragment⟩

theorem urlsplitE_scheme_netloc {sch rest : List Char}
    (hc0 : (sch ++ ':' :: '/' :: '/' :: rest).dropWhile isC0OrSpace =
      sch ++ ':' :: '/' :: '/' :: rest)
    (hsafe : removeUnsafe (sch ++ ':' :: '/' :: '/' :: rest) =
      sch ++ ':' :: '/' :: '/' :: rest)
    (hcol : ':' ∉ sch) (hne : sch ≠ [])
    (halpha : headIsAlpha (sch ++ ':' :: '/' :: '/' :: rest) = true)
    (hall : sch.all isSchemeChar = true)
    (hbr1 : '[' ∉ rest.takeWhile (fun c => ¬isNetlocEnd c))
    (hbr2 : ']' ∉ rest.takeWhile (fun c => ¬isNetlocEnd c)) :
    urlsplitE (sch ++ ':' :: '/' :: '/' :: rest) =
      Except.ok (splitFrag (lowerList sch)
        (rest.takeWhile (fun c => ¬isNetlocEnd c))
        (rest.dropWhile (fun c => ¬isNetlocEnd c))) := by
  have hsp : splitFirst ':' (sch ++ ':' :: '/' :: '/' :: rest) =
      some (sch, '/' :: '/' :: rest) := splitFirst_append _ hcol
  simp only [urlsplitE, hc0, hsafe, hsp, hne, halpha, hall, hbr1, hbr2,
    ne_eq, not_false_iff, not_false_eq_true, eq_self_iff_true, and_true,
    true_and, and_self, if_true, ite_true, false_and, and_false, or_false,
    false_or, or_self, if_false, ite_false]
  rfl

theorem urlsplitE_scheme_rel {sch url3 : List Char}
    (hc0 : (sch ++ ':' :: url3).dropWhile isC0OrSpace = sch ++ ':' :: url3)
    (hsafe : removeUnsafe (sch ++ ':' :: url3) = sch ++ ':' :: url3)
    (hcol : ':' ∉ sch) (hne : sch ≠ [])
    (halpha : headIsAlpha (sch ++ ':' :: url3) = true)
    (hall : sch.all isSchemeChar = true)
    (hnn : url3.take 2 ≠ ['/', '/']) :
    urlsplitE (sch ++ ':' :: url3) =
      Except.ok (splitFrag (lowerList sch) [] url3) := by
  have hsp : splitFirst ':' (sch ++ ':' :: url3) = some (sch, url3) :=
    splitFirst_append _ hcol
  simp only [urlsplitE, hc0, hsafe, hsp, hne, halpha, hall, ne_eq,
    not_false_eq_true, eq_self_iff_true, and_true, true_and, and_self,
    if_true, ite_true]
  split
  · exfalso
    apply hnn
    rfl
  · rfl

theorem urlsplitE_noscheme {url : List Char}
    (hc0 : url.dropWhile isC0OrSpace = url)
    (hsafe : removeUnsafe url = url)
    (hfail : ∀ bef aft, splitFirst ':' url = some (bef, aft) →
      ¬(bef ≠ [] ∧ headIsAlpha url = true ∧ bef.all isSchemeChar = true))
    (hnn : url.take 2 ≠ ['/', '/']) :
    urlsplitE url = Except.ok (splitFrag [] [] url) := by
  cases hsp : splitFirst ':' url with
  | none =>
    simp only [urlsplitE, hc0, hsafe, hsp]
    split
    · exfalso
      apply hnn
      rfl
    · rfl
  | some ab =>
    obtain ⟨bef, aft⟩ := ab
    have hcondfail := hfail bef aft hsp
    simp only [urlsplitE, hc0, hsafe, hsp, if_neg hcondfail]
    split
    · exfalso
      apply hnn
      rfl
    · rfl

theorem urlsplitE_noscheme_netloc {rest : List Char}
    (hc0 : ('/' :: '/' :: rest).dropWhile isC0OrSpace =
      '/' :: '/' :: rest)
    (hsafe : removeUnsafe ('/' :: '/' :: rest) = '/' :: '/' :: rest)
    (hbr1 : '[' ∉ rest.takeWhile (fun c => ¬isNetlocEnd c))
    (hbr2 : ']' ∉ rest.takeWhile (fun c => ¬isNetlocEnd c)) :
    urlsplitE ('/' :: '/' :: rest) =
      Except.ok (splitFrag []
        (rest.takeWhile (fun c => ¬isNetlocEnd c))
        (rest.dropWhile (fun c => ¬isNetlocEnd c))) := by
  have hfail : ∀ bef aft,
      splitFirst ':' ('/' :: '/' :: rest) = some (bef, aft) →
      ¬(bef ≠ [] ∧ headIsAlpha ('/' :: '/' :: rest) = true ∧
        bef.all isSchemeChar = true) := by
    intro bef aft _ hcond
    have : headIsAlpha ('/' :: '/' :: rest) = isAsciiAlpha '/' := rfl
    rw [this] at hcond
    have h2 := hcond.2.1
    simp [isAsciiAlpha] at h2
  cases hsp : splitFirst ':' ('/' :: '/' :: rest) with
  | none =>
    simp only [urlsplitE, hc0, hsafe, hsp, hbr1, hbr2, not_false_eq_true,
      false_and, and_false, or_self, if_false, ite_false]
    rfl
  | some ab =>
    obtain ⟨bef, aft⟩ := ab
    simp only [urlsplitE, hc0, hsafe, hsp, if_neg (hfail bef aft hsp),
      hbr1, hbr2, not_false_eq_true, false_and, and_false, or_self,
      if_false, ite_false]
    rfl

theorem splitFrag_no_query {scheme netloc url4 : List Char}
    (hfr : '#' ∉ url4) (hq : '?' ∉ url4) :
    splitFrag scheme netloc url4 = ⟨scheme, netloc, url4, [], []⟩ := by
  simp only [splitFrag, splitFirst_eq_none_iff.mpr hfr,
    splitFirst_eq_none_iff.mpr hq]

theorem splitFrag_query {scheme netloc pa q : List Char}
    (hfr : '#' ∉ pa ++ '?' :: q) (hq : '?' ∉ pa) :
    splitFrag scheme netloc (pa ++ '?' :: q) = ⟨scheme, netloc, pa, q, []⟩ := by
  simp only [splitFrag, splitFirst_eq_none_iff.mpr hfr,
    splitFirst_append q hq]

theorem except_ok_bind {α β : Type} (a : α) (f : α → Except String β) :
    (Except.ok a >>= f) = f a := rfl

/-! ### Stability of the canonical YouTube watch URL -/

theorem canonicalizeYoutube_watch (vid : List Char)
    (hne : vid ≠ [])
    (hamp : '&' ∉ vid)
    (hpct : '%' ∉ vid)
    (hplus : '+' ∉ vid)
    (hhash : '#' ∉ vid)
    (hok : ∀ c ∈ vid, okChar c = true) :
    canonicalizeYoutube (watchBase.data ++ vid) =
      Except.ok (some (watchBase.data ++ vid)) := by
  have hokall : ∀ c ∈ watchBase.data ++ vid, okChar c = true := by
    intro c hc
    rcases List.mem_append.mp hc with hc | hc
    · have hall2 : watchBase.data.all okChar = true := by decide
      exact List.all_eq_true.mp hall2 c hc
    · exact hok c hc
  have hstrip : pyStripList (watchBase.data ++ vid) =
      watchBase.data ++ vid :=
    pyStripList_eq_self (fun c hc => okChar_no_pyspace (hokall c hc))
  have hc0 : (watchBase.data ++ vid).dropWhile isC0OrSpace =
      watchBase.data ++ vid := by
    apply dropWhile_eq_self_of_all
    intro c hc
    have := hokall c hc
    rw [okChar] at this
    simp only [Bool.and_eq_true, decide_eq_true_eq] at this
    rw [isC0OrSpace]
    simp only [decide_eq_false_iff_not]
    omega
  have hsafe : removeUnsafe (watchBase.data ++ vid) =
      watchBase.data ++ vid := by
    rw [removeUnsafe, List.filter_eq_self]
    intro c hc
    have := hokall c hc
    rw [okChar] at this
    simp only [Bool.and_eq_true, decide_eq_true_eq] at this
    simp only [decide_eq_true_eq]
    push_neg
    have h9 : ('\t' : Char).toNat = 9 := rfl
    have h13 : ('\r' : Char).toNat = 13 := rfl
    have h10 : ('\n' : Char).toNat = 10 := rfl
    refine ⟨?_, ?_, ?_⟩ <;>
      (intro e; rw [char_eq_iff] at e; omega)
  have hshape : watchBase.data ++ vid =
      httpsScheme ++ ':' :: '/' :: '/' ::
        (("www.youtube.com/watch?v=".data) ++ vid) := rfl
  have htake : ("www.youtube.com/watch?v=".data ++ vid).takeWhile
      (fun c => ¬isNetlocEnd c) = "www.youtube.com".data := by
    have hsh : "www.youtube.com/watch?v=".data ++ vid =
        "www.youtube.com".data ++ ("/watch?v=".data ++ vid) := rfl
    rw [hsh, takeWhile_append_all _ (by decide)]
    rfl
  have hdrop : ("www.youtube.com/watch?v=".data ++ vid).dropWhile
      (fun c => ¬isNetlocEnd c) = "/watch?v=".data ++ vid := by
    have hsh : "www.youtube.com/watch?v=".data ++ vid =
        "www.youtube.com".data ++ ("/watch?v=".data ++ vid) := rfl
    rw [hsh, dropWhile_append_all _ (by decide)]
    rfl
  have hsplit : urlsplitE (watchBase.data ++ vid) =
      Except.ok (splitFrag httpsScheme ("www.youtube.com".data)
        ("/watch?v=".data ++ vid)) := by
    rw [hshape]
    rw [urlsplitE_scheme_netloc (by rw [← hshape]; exact hc0)
      (by rw [← hshape]; exact hsafe) (by decide) (by decide)
      (by rw [← hshape]; rfl) (by decide)
      (by rw [htake]; decide) (by rw [htake]; decide)]
    rw [htake, hdrop]
    have hlower : lowerList httpsScheme = httpsScheme := by decide
    rw [hlower]
  have hfrag : splitFrag httpsScheme ("www.youtube.com".data)
      ("/watch?v=".data ++ vid) =
      ⟨httpsScheme, "www.youtube.com".data, "/watch".data,
        'v' :: '=' :: vid, []⟩ := by
    have hsh : "/watch?v=".data ++ vid =
        "/watch".data ++ '?' :: ('v' :: '=' :: vid) := rfl
    rw [hsh, splitFrag_query ?hfr (by decide)]
    case hfr =>
      intro hm
      rcases List.mem_append.mp hm with hm | hm
      · revert hm; decide
      · rcases List.mem_cons.mp hm with he | hm
        · revert he; decide
        · rcases List.mem_cons.mp hm with he | hm
          · revert he; decide
          · rcases List.mem_cons.mp hm with he | hm
            · revert he; decide
            · exact hhash hm
  have hqsl : parseQsl ('v' :: '=' :: vid) = [(['v'], vid)] := by
    rw [parseQsl, if_neg (by simp)]
    have hnm : '&' ∉ 'v' :: '=' :: vid := by
      intro hm
      rcases List.mem_cons.mp hm with he | hm
      · revert he; decide
      · rcases List.mem_cons.mp hm with he | hm
        · revert he; decide
        · exact hamp hm
    rw [splitAll_of_notMem hnm]
    have hsh : 'v' :: '=' :: vid = ['v'] ++ '=' :: vid := rfl
    rw [List.filterMap_cons, List.filterMap_nil, if_neg (by simp)]
    rw [hsh, splitFirst_append vid (by decide)]
    show [(unquoteList (replacePlus ['v']), unquoteList (replacePlus vid))] =
      [(['v'], vid)]
    rw [replacePlus_of_notMem hplus, unquoteList_of_notMem hpct]
    rfl
  have hvid : ytVideoId (lowerList (hostnameOf ("www.youtube.com".data)))
      ("/watch".data) ('v' :: '=' :: vid) = some vid := by
    rw [ytVideoId, if_neg (by decide), if_pos (by decide)]
    have hdict : qslDictGet [(['v'], vid)] ['v'] = some vid := rfl
    simp only [hqsl, hdict, ne_eq, hne, not_false_eq_true, ite_true]
  rw [canonicalizeYoutube, hstrip, hsplit, except_ok_bind, hfrag]
  show (if ¬isYtHost (lowerList (hostnameOf ("www.youtube.com".data))) =
      true then _ else _) = _
  rw [if_neg (by decide)]
  simp only [hvid, ne_eq, hne, not_false_eq_true, ite_true, if_false,
    ite_false]
  rfl

/-! ### Forward specification of `urlsplitE` -/

/-- The scheme detection of `urlsplit` failed on this (cleaned) URL. -/
def schemeFail (u2 : List Char) : Prop :=
  ∀ bef aft, splitFirst ':' u2 = some (bef, aft) →
    ¬(bef ≠ [] ∧ headIsAlpha u2 = true ∧ bef.all isSchemeChar = true)

theorem splitFrag_spec (scheme netloc url4 : List Char) :
    ∃ rest5 : List Char,
      ((∃ frag, url4 = rest5 ++ '#' :: frag ∧
          (splitFrag scheme netloc url4).fragment = frag ∧ '#' ∉ rest5) ∨
        ((splitFrag scheme netloc url4).fragment = [] ∧ rest5 = url4 ∧
          '#' ∉ url4)) ∧
      ((∃ q, rest5 = (splitFrag scheme netloc url4).path ++ '?' :: q ∧
          (splitFrag scheme netloc url4).query = q ∧
          '?' ∉ (splitFrag scheme netloc url4).path) ∨
        ((splitFrag scheme netloc url4).query = [] ∧
          (splitFrag scheme netloc url4).path = rest5 ∧ '?' ∉ rest5)) ∧
      (splitFrag scheme netloc url4).scheme = scheme ∧
      (splitFrag scheme netloc url4).netloc = netloc := by
  cases hf : splitFirst '#' url4 with
  | none =>
    have hfn : '#' ∉ url4 := splitFirst_eq_none_iff.mp hf
    cases hq : splitFirst '?' url4 with
    | none =>
      have hqn : '?' ∉ url4 := splitFirst_eq_none_iff.mp hq
      have he : splitFrag scheme netloc url4 =
          ⟨scheme, netloc, url4, [], []⟩ := by
        simp only [splitFrag, hf, hq]
      refine ⟨url4, ?_, ?_, ?_, ?_⟩ <;> rw [he]
      · exact Or.inr ⟨rfl, rfl, hfn⟩
      · exact Or.inr ⟨rfl, rfl, hqn⟩
    | some ab =>
      obtain ⟨pa, q⟩ := ab
      obtain ⟨hurl, hqn⟩ := splitFirst_eq_some hq
      have he : splitFrag scheme netloc url4 =
          ⟨scheme, netloc, pa, q, []⟩ := by
        simp only [splitFrag, hf, hq]
      refine ⟨url4, ?_, ?_, ?_, ?_⟩ <;> rw [he]
      · exact Or.inr ⟨rfl, rfl, hfn⟩
      · exact Or.inl ⟨q, hurl, rfl, hqn⟩
  | some ab =>
    obtain ⟨rest5, frag⟩ := ab
    obtain ⟨hurl, hfn⟩ := splitFirst_eq_some hf
    cases hq : splitFirst '?' rest5 with
    | none =>
      have hqn : '?' ∉ rest5 := splitFirst_eq_none_iff.mp hq
      have he : splitFrag scheme netloc url4 =
          ⟨scheme, netloc, rest5, [], frag⟩ := by
        simp only [splitFrag, hf, hq]
      refine ⟨rest5, ?_, ?_, ?_, ?_⟩ <;> rw [he]
      · exact Or.inl ⟨frag, hurl, rfl, hfn⟩
      · exact Or.inr ⟨rfl, rfl, hqn⟩
    | some ab2 =>
      obtain ⟨pa, q⟩ := ab2
      obtain ⟨hrest, hqn⟩ := splitFirst_eq_some hq
      have he : splitFrag scheme netloc url4 =
          ⟨scheme, netloc, pa, q, frag⟩ := by
        simp only [splitFrag, hf, hq]
      refine ⟨rest5, ?_, ?_, ?_, ?_⟩ <;> rw [he]
      · exact Or.inl ⟨frag, hurl, rfl, hfn⟩
      · exact Or.inl ⟨q, hrest, rfl, hqn⟩

/-- The scheme-detection stage of `urlsplit`. -/
def schemeSplit (u2 : List Char) : List Char × List Char :=
  match splitFirst ':' u2 with
  | some (before, after) =>
    if before ≠ [] ∧ headIsAlpha u2 ∧ before.all isSchemeChar
    then (lowerList before, after)
    else ([], u2)
  | none => ([], u2)

theorem urlsplitE_eq_body (url : List Char) :
    urlsplitE url =
      (match (schemeSplit (removeUnsafe (url.dropWhile isC0OrSpace))).2 with
       | '/' :: '/' :: rest =>
         let netloc := rest.takeWhile (fun c => ¬isNetlocEnd c)
         let url4 := rest.dropWhile (fun c => ¬isNetlocEnd c)
         if ('[' ∈ netloc ∧ ']' ∉ netloc) ∨ (']' ∈ netloc ∧ '[' ∉ netloc)
         then Except.error "Invalid IPv6 URL"
         else if '[' ∈ netloc then Except.error "bracketed host"
         else Except.ok (splitFrag
           (schemeSplit (removeUnsafe (url.dropWhile isC0OrSpace))).1
           netloc url4)
       | _ => Except.ok (splitFrag
           (schemeSplit (removeUnsafe (url.dropWhile isC0OrSpace))).1 []
           (schemeSplit (removeUnsafe (url.dropWhile isC0OrSpace))).2)) :=
  rfl

theorem schemeSplit_spec (u2 : List Char) :
    ((schemeSplit u2).1 = [] ∧ (schemeSplit u2).2 = u2 ∧ schemeFail u2) ∨
    (∃ bef, (schemeSplit u2).1 = lowerList bef ∧
      u2 = bef ++ ':' :: (schemeSplit u2).2 ∧ bef ≠ [] ∧ ':' ∉ bef ∧
      headIsAlpha u2 = true ∧ bef.all isSchemeChar = true) := by
  cases hsp : splitFirst ':' u2 with
  | none =>
    left
    have he : schemeSplit u2 = ([], u2) := by simp only [schemeSplit, hsp]
    rw [he]
    refine ⟨rfl, rfl, ?_⟩
    intro bef aft he2
    rw [hsp] at he2
    cases he2
  | some ab =>
    obtain ⟨bef, aft⟩ := ab
    by_cases hcond : bef ≠ [] ∧ headIsAlpha u2 = true ∧
        bef.all isSchemeChar = true
    · right
      have he : schemeSplit u2 = (lowerList bef, aft) := by
        simp only [schemeSplit, hsp, if_pos hcond]
      obtain ⟨hb, hnc⟩ := splitFirst_eq_some hsp
      rw [he]
      exact ⟨bef, rfl, hb, hcond.1, hnc, hcond.2.1, hcond.2.2⟩
    · left
      have he : schemeSplit u2 = ([], u2) := by
        simp only [schemeSplit, hsp, if_neg hcond]
      rw [he]
      refine ⟨rfl, rfl, ?_⟩
      intro bef2 aft2 he2
      rw [hsp] at he2
      injection he2 with he3
      cases he3
      exact hcond

theorem urlsplitE_tail_spec {sch url3 : List Char} {parts : UrlSplitResult}
    (h : (match url3 with
       | '/' :: '/' :: rest =>
         let netloc := rest.takeWhile (fun c => ¬isNetlocEnd c)
         let url4 := rest.dropWhile (fun c => ¬isNetlocEnd c)
         if ('[' ∈ netloc ∧ ']' ∉ netloc) ∨ (']' ∈ netloc ∧ '[' ∉ netloc)
         then Except.error "Invalid IPv6 URL"
         else if '[' ∈ netloc then Except.error "bracketed host"
         else Except.ok (splitFrag sch netloc url4)
       | _ => Except.ok (splitFrag sch [] url3)) = Except.ok parts) :
    parts.scheme = sch ∧
    ∃ url4 : List Char,
      ((∃ rest, url3 = '/' :: '/' :: rest ∧
          parts.netloc = rest.takeWhile (fun c => ¬isNetlocEnd c) ∧
          url4 = rest.dropWhile (fun c => ¬isNetlocEnd c) ∧
          '[' ∉ parts.netloc ∧ ']' ∉ parts.netloc) ∨
        (url3.take 2 ≠ ['/', '/'] ∧ parts.netloc = [] ∧ url4 = url3)) ∧
      (∃ rest5 : List Char,
        ((∃ frag, url4 = rest5 ++ '#' :: frag ∧ parts.fragment = frag ∧
            '#' ∉ rest5) ∨
          (parts.fragment = [] ∧ rest5 = url4 ∧ '#' ∉ url4)) ∧
        ((∃ q, rest5 = parts.path ++ '?' :: q ∧ parts.query = q ∧
            '?' ∉ parts.path) ∨
          (parts.query = [] ∧ parts.path = rest5 ∧ '?' ∉ rest5))) := by
  split at h
  · next rest =>
    have h2 : (if ('[' ∈ rest.takeWhile (fun c => ¬isNetlocEnd c) ∧
          ']' ∉ rest.takeWhile (fun c => ¬isNetlocEnd c)) ∨
          (']' ∈ rest.takeWhile (fun c => ¬isNetlocEnd c) ∧
          '[' ∉ rest.takeWhile (fun c => ¬isNetlocEnd c))
        then Except.error "Invalid IPv6 URL"
        else if '[' ∈ rest.takeWhile (fun c => ¬isNetlocEnd c)
          then Except.error "bracketed host"
          else Except.ok (splitFrag sch
            (rest.takeWhile (fun c => ¬isNetlocEnd c))
            (rest.dropWhile (fun c => ¬isNetlocEnd c)))) =
        Except.ok parts := h
    by_cases hbr : ('[' ∈ rest.takeWhile (fun c => ¬isNetlocEnd c) ∧
        ']' ∉ rest.takeWhile (fun c => ¬isNetlocEnd c)) ∨
        (']' ∈ rest.takeWhile (fun c => ¬isNetlocEnd c) ∧
        '[' ∉ rest.takeWhile (fun c => ¬isNetlocEnd c))
    · rw [if_pos hbr] at h2
      cases h2
    · rw [if_neg hbr] at h2
      by_cases hbr2 : '[' ∈ rest.takeWhile (fun c => ¬isNetlocEnd c)
      · rw [if_pos hbr2] at h2
        cases h2
      · rw [if_neg hbr2] at h2
        injection h2 with hp
        obtain ⟨rest5, hfrag, hquery, hscheme, hnetloc⟩ :=
          splitFrag_spec sch (rest.takeWhile (fun c => ¬isNetlocEnd c))
            (rest.dropWhile (fun c => ¬isNetlocEnd c))
        rw [hp] at hscheme hnetloc hfrag hquery
        have hbr3 : ']' ∉ rest.takeWhile (fun c => ¬isNetlocEnd c) := by
          intro hm
          exact hbr (Or.inr ⟨hm, hbr2⟩)
        refine ⟨hscheme, rest.dropWhile (fun c => ¬isNetlocEnd c),
          Or.inl ⟨rest, rfl, hnetloc, rfl, ?_, ?_⟩, rest5, hfrag, hquery⟩
        · rw [hnetloc]; exact hbr2
        · rw [hnetloc]; exact hbr3
  · next hne =>
    injection h with hp
    obtain ⟨rest5, hfrag, hquery, hscheme, hnetloc⟩ :=
      splitFrag_spec sch [] url3
    rw [hp] at hscheme hnetloc hfrag hquery
    have htk : url3.take 2 ≠ ['/', '/'] := by
      intro ht
      have hdecomp : url3 = '/' :: '/' :: url3.drop 2 := by
        conv_lhs => rw [← List.take_append_drop 2 url3]
        rw [ht]
        rfl
      exact hne (url3.drop 2) hdecomp
    exact ⟨hscheme, url3, Or.inr ⟨htk, hnetloc, rfl⟩, rest5, hfrag, hquery⟩

theorem urlsplitE_ok_spec {url : List Char} {parts : UrlSplitResult}
    (h : urlsplitE url = Except.ok parts) :
    ∃ url3 url4 : List Char,
      ((parts.scheme = [] ∧
          url3 = removeUnsafe (url.dropWhile isC0OrSpace) ∧
          schemeFail (removeUnsafe (url.dropWhile isC0OrSpace))) ∨
        (∃ bef, parts.scheme = lowerList bef ∧
          removeUnsafe (url.dropWhile isC0OrSpace) = bef ++ ':' :: url3 ∧
          bef ≠ [] ∧ ':' ∉ bef ∧
          headIsAlpha (removeUnsafe (url.dropWhile isC0OrSpace)) = true ∧
          bef.all isSchemeChar = true)) ∧
      ((∃ rest, url3 = '/' :: '/' :: rest ∧
          parts.netloc = rest.takeWhile (fun c => ¬isNetlocEnd c) ∧
          url4 = rest.dropWhile (fun c => ¬isNetlocEnd c) ∧
          '[' ∉ parts.netloc ∧ ']' ∉ parts.netloc) ∨
        (url3.take 2 ≠ ['/', '/'] ∧ parts.netloc = [] ∧ url4 = url3)) ∧
      (∃ rest5 : List Char,
        ((∃ frag, url4 = rest5 ++ '#' :: frag ∧ parts.fragment = frag ∧
            '#' ∉ rest5) ∨
          (parts.fragment = [] ∧ rest5 = url4 ∧ '#' ∉ url4)) ∧
        ((∃ q, rest5 = parts.path ++ '?' :: q ∧ parts.query = q ∧
            '?' ∉ parts.path) ∨
          (parts.query = [] ∧ parts.path = rest5 ∧ '?' ∉ rest5))) := by
  rw [urlsplitE_eq_body] at h
  obtain ⟨hsch, url4, hnet, hfq⟩ := urlsplitE_tail_spec h
  rcases schemeSplit_spec (removeUnsafe (url.dropWhile isC0OrSpace)) with
    ⟨hs1, hs2, hs3⟩ | ⟨bef, hs1, hs2, hs3, hs4, hs5, hs6⟩
  · refine ⟨(schemeSplit (removeUnsafe (url.dropWhile isC0OrSpace))).2,
      url4, Or.inl ⟨by rw [hsch, hs1], hs2, hs3⟩, hnet, hfq⟩
  · refine ⟨(schemeSplit (removeUnsafe (url.dropWhile isC0OrSpace))).2,
      url4, Or.inr ⟨bef, by rw [hsch, hs1], hs2, hs3, hs4, hs5, hs6⟩,
      hnet, hfq⟩


/-! ### `canonicalizeYoutube` specification -/

theorem mem_stripSlashes {c : Char} {l : List Char}
    (h : c ∈ stripSlashes l) : c ∈ l := by
  unfold stripSlashes at h
  rw [List.mem_reverse] at h
  have h2 := mem_of_mem_dropWhile h
  rw [List.mem_reverse] at h2
  exact mem_of_mem_dropWhile h2

theorem qslDictGet_go_mem {k v : List Char}
    {pairs : List (List Char × List Char)} :
    ∀ {acc : Option (List Char)},
    pairs.foldl (fun acc p => if p.1 = k then some p.2 else acc) acc =
      some v →
    (k, v) ∈ pairs ∨ acc = some v := by
  induction pairs with
  | nil =>
    intro acc h
    exact Or.inr h
  | cons p t ih =>
    intro acc h
    rw [List.foldl_cons] at h
    rcases ih h with hm | hacc
    · exact Or.inl (List.mem_cons_of_mem _ hm)
    · obtain ⟨p1, p2⟩ := p
      by_cases hp : p1 = k
      · rw [if_pos hp] at hacc
        injection hacc with he
        subst hp
        subst he
        exact Or.inl (List.mem_cons_self _ _)
      · rw [if_neg hp] at hacc
        exact Or.inr hacc

theorem qslDictGet_mem {pairs : List (List Char × List Char)}
    {k v : List Char} (h : qslDictGet pairs k = some v) :
    (k, v) ∈ pairs := by
  rcases qslDictGet_go_mem h with hm | hacc
  · exact hm
  · cases hacc

theorem qslDictGet_go_none {k : List Char}
    {pairs : List (List Char × List Char)}
    (h : ∀ p ∈ pairs, p.1 ≠ k) (acc : Option (List Char)) :
    pairs.foldl (fun acc p => if p.1 = k then some p.2 else acc) acc =
      acc := by
  induction pairs generalizing acc with
  | nil => rfl
  | cons p t ih =>
    rw [List.foldl_cons, if_neg (h p (List.mem_cons_self _ _))]
    exact ih (fun q hq => h q (List.mem_cons_of_mem _ hq)) acc

theorem qslDictGet_none {pairs : List (List Char × List Char)}
    {k : List Char} (h : ∀ p ∈ pairs, p.1 ≠ k) :
    qslDictGet pairs k = none :=
  qslDictGet_go_none h none

theorem qslDictGet_go_all_eq {k v : List Char}
    {pairs : List (List Char × List Char)} (hex : (k, v) ∈ pairs)
    (hall : ∀ p ∈ pairs, p.1 = k → p.2 = v) (acc : Option (List Char)) :
    pairs.foldl (fun acc p => if p.1 = k then some p.2 else acc) acc =
      some v := by
  induction pairs generalizing acc with
  | nil => cases hex
  | cons p t ih =>
    rw [List.foldl_cons]
    by_cases htk : ∃ q ∈ t, q.1 = k
    · obtain ⟨q, hq, hqk⟩ := htk
      have hq2 : q.2 = v := hall q (List.mem_cons_of_mem _ hq) hqk
      have hkm : (k, v) ∈ t := by
        obtain ⟨q1, q2⟩ := q
        simp only at hqk hq2
        subst hqk
        subst hq2
        exact hq
      exact ih hkm (fun r hr => hall r (List.mem_cons_of_mem _ hr)) _
    · push_neg at htk
      have hpkv : p = (k, v) := by
        rcases List.mem_cons.mp hex with he | hm
        · exact he.symm
        · exact absurd rfl (htk _ hm)
      subst hpkv
      rw [if_pos rfl]
      exact qslDictGet_go_none htk (some v)

theorem qslDictGet_all_eq {pairs : List (List Char × List Char)}
    {k v : List Char} (hex : (k, v) ∈ pairs)
    (hall : ∀ p ∈ pairs, p.1 = k → p.2 = v) :
    qslDictGet pairs k = some v :=
  qslDictGet_go_all_eq hex hall none

theorem ytVideoId_subset {host path query vid : List Char}
    (hpq : '%' ∉ query) (hpl : '+' ∉ query)
    (h : ytVideoId host path query = some vid) :
    ∀ c ∈ vid, c ∈ path ∨ c ∈ query := by
  rw [ytVideoId] at h
  by_cases h1 : host = ('y' :: 'o' :: 'u' :: 't' :: 'u' :: '.' :: 'b' ::
      'e' :: [])
  · rw [if_pos h1] at h
    by_cases h2 : stripSlashes path ≠ []
    · rw [if_pos h2] at h
      injection h with he
      intro c hc
      left
      cases hsp : splitAll '/' (stripSlashes path) with
      | nil => exact absurd hsp (splitAll_ne_nil _ _)
      | cons hh r =>
        rw [hsp] at he
        have hmem : hh ∈ splitAll '/' (stripSlashes path) := by
          rw [hsp]
          exact List.mem_cons_self _ _
        have hsub := (mem_of_mem_splitAll hmem).1
        rw [← he] at hc
        exact mem_stripSlashes (hsub c hc)
    · rw [if_neg h2] at h
      cases h
  · rw [if_neg h1] at h
    by_cases h2 : rstripSlashes path = watchPath
    · rw [if_pos h2] at h
      cases hd : qslDictGet (parseQsl query) ['v'] with
      | none =>
        rw [hd] at h
        cases h
      | some v =>
        rw [hd] at h
        have h3 : (if v ≠ [] then some v else none) = some vid := h
        by_cases hv : v ≠ []
        · rw [if_pos hv] at h3
          injection h3 with he
          subst he
          intro c hc
          right
          have hmem := qslDictGet_mem hd
          exact (parseQsl_mem_spec hpq hpl _ hmem).2.1 c hc
        · rw [if_neg hv] at h3
          cases h3
    · rw [if_neg h2] at h
      by_cases h3 : (shortsSlash.isPrefixOf path : Bool)
      · rw [if_pos (by simpa using h3)] at h
        by_cases h4 : 2 < (splitAll '/' path).length
        · rw [dif_pos h4] at h
          injection h with he
          intro c hc
          left
          rw [← he] at hc
          have hmem : (splitAll '/' path).get ⟨2, h4⟩ ∈ splitAll '/' path :=
            List.get_mem _ _ _
          exact (mem_of_mem_splitAll hmem).1 c hc
        · rw [dif_neg h4] at h
          cases h
      · rw [if_neg (by simpa using h3)] at h
        cases h

theorem canonicalizeYoutube_eq {url : List Char} {parts : UrlSplitResult}
    (hsplit : urlsplitE (pyStripList url) = Except.ok parts) :
    canonicalizeYoutube url = Except.ok (
      if ¬isYtHost (lowerList (hostnameOf parts.netloc)) then none
      else match ytVideoId (lowerList (hostnameOf parts.netloc)) parts.path
          parts.query with
        | none => none
        | some vid => if vid = [] then none
          else some (watchBase.data ++ vid)) := by
  simp only [canonicalizeYoutube, hsplit, except_ok_bind]
  by_cases hyt : isYtHost (lowerList (hostnameOf parts.netloc)) = true
  · rw [if_neg (by simpa using hyt), if_neg (by simpa using hyt)]
    cases hyid : ytVideoId (lowerList (hostnameOf parts.netloc)) parts.path
        parts.query with
    | none => rfl
    | some vid =>
      show (if vid = [] then (Except.ok none :
            Except String (Option (List Char)))
          else Except.ok (some (watchBase.data ++ vid))) =
        Except.ok (if vid = [] then none else some (watchBase.data ++ vid))
      by_cases hv : vid = []
      · rw [if_pos hv, if_pos hv]
      · rw [if_neg hv, if_neg hv]
  · rw [if_pos (by simpa using hyt), if_pos (by simpa using hyt)]
    rfl

theorem canonicalizeYoutube_cases {url : List Char} {parts : UrlSplitResult}
    {v : Option (List Char)}
    (hsplit : urlsplitE (pyStripList url) = Except.ok parts)
    (h : canonicalizeYoutube url = Except.ok v) :
    (v = none ∧
      (¬isYtHost (lowerList (hostnameOf parts.netloc)) = true ∨
        ytVideoId (lowerList (hostnameOf parts.netloc)) parts.path
          parts.query = none ∨
        ytVideoId (lowerList (hostnameOf parts.netloc)) parts.path
          parts.query = some [])) ∨
    (∃ vid, vid ≠ [] ∧
      isYtHost (lowerList (hostnameOf parts.netloc)) = true ∧
      ytVideoId (lowerList (hostnameOf parts.netloc)) parts.path
        parts.query = some vid ∧
      v = some (watchBase.data ++ vid)) := by
  rw [canonicalizeYoutube_eq hsplit] at h
  injection h with he
  by_cases hyt : isYtHost (lowerList (hostnameOf parts.netloc)) = true
  · rw [if_neg (by simpa using hyt)] at he
    cases hyid : ytVideoId (lowerList (hostnameOf parts.netloc)) parts.path
        parts.query with
    | none =>
      rw [hyid] at he
      have he2 : (none : Option (List Char)) = v := he
      exact Or.inl ⟨he2.symm, Or.inr (Or.inl rfl)⟩
    | some vid =>
      rw [hyid] at he
      have he2 : (if vid = [] then none
          else some (watchBase.data ++ vid)) = v := he
      by_cases hv : vid = []
      · rw [if_pos hv] at he2
        subst hv
        exact Or.inl ⟨he2.symm, Or.inr (Or.inr rfl)⟩
      · rw [if_neg hv] at he2
        exact Or.inr ⟨vid, hv, hyt, rfl, he2.symm⟩
  · rw [if_pos (by simpa using hyt)] at he
    exact Or.inl ⟨he.symm, Or.inl hyt⟩

/-! ### netloc component structure -/

theorem takeWhile_eq_self_of_all {p : Char → Bool} {l : List Char}
    (h : ∀ c ∈ l, p c = true) : l.takeWhile p = l := by
  induction l with
  | nil => rfl
  | cons a t ih =>
    rw [List.takeWhile_cons, if_pos (h a (List.mem_cons_self _ _)),
      ih (fun c hc => h c (List.mem_cons_of_mem _ hc))]

theorem afterLast_of_notMem {c : Char} {l : List Char} (h : c ∉ l) :
    afterLast c l = l := by
  unfold afterLast
  rw [takeWhile_eq_self_of_all, List.reverse_reverse]
  intro d hd
  have : d ∈ l := List.mem_reverse.mp hd
  simp only [decide_eq_true_eq]
  intro he
  subst he
  exact h this

theorem afterLast_append {c : Char} (w : List Char) {rest : List Char}
    (h : c ∉ rest) : afterLast c (w ++ c :: rest) = rest := by
  unfold afterLast
  have hsh : (w ++ c :: rest).reverse = rest.reverse ++ c :: w.reverse := by
    rw [List.reverse_append, List.reverse_cons, List.append_assoc]
    rfl
  rw [hsh, takeWhile_append_all _ ?hall]
  · rw [List.takeWhile_cons, if_neg (by simp), List.append_nil,
      List.reverse_reverse]
  case hall =>
    intro d hd
    have : d ∈ rest := List.mem_reverse.mp hd
    simp only [decide_eq_true_eq]
    intro he
    subst he
    exact h this

theorem mem_afterLast {c d : Char} {l : List Char}
    (h : d ∈ afterLast c l) : d ∈ l ∧ ¬d = c := by
  unfold afterLast at h
  rw [List.mem_reverse] at h
  have h1 := List.mem_takeWhile_imp h
  have h2 := mem_of_mem_takeWhile h
  rw [List.mem_reverse] at h2
  simp only [decide_eq_true_eq] at h1
  exact ⟨h2, h1⟩

theorem hostinfo_fst_no_colon (netloc : List Char) :
    ':' ∉ (hostinfoOf netloc).1 := by
  cases hsp : splitFirst ':' (afterLast '@' netloc) with
  | none =>
    simp only [hostinfoOf, hsp]
    exact splitFirst_eq_none_iff.mp hsp
  | some hp =>
    obtain ⟨h, p⟩ := hp
    simp only [hostinfoOf, hsp]
    exact (splitFirst_eq_some hsp).2

theorem mem_hostinfo_fst {c : Char} {netloc : List Char}
    (h : c ∈ (hostinfoOf netloc).1) : c ∈ netloc ∧ ¬c = '@' := by
  cases hsp : splitFirst ':' (afterLast '@' netloc) with
  | none =>
    simp only [hostinfoOf, hsp] at h
    exact mem_afterLast h
  | some hp =>
    obtain ⟨hh, p⟩ := hp
    simp only [hostinfoOf, hsp] at h
    obtain ⟨hd, -⟩ := splitFirst_eq_some hsp
    have : c ∈ afterLast '@' netloc := by
      rw [hd]
      exact List.mem_append_left _ h
    exact mem_afterLast this

theorem mem_hostinfo_snd {c : Char} {netloc p : List Char}
    (hsnd : (hostinfoOf netloc).2 = some p) (h : c ∈ p) :
    c ∈ netloc ∧ ¬c = '@' := by
  cases hsp : splitFirst ':' (afterLast '@' netloc) with
  | none =>
    simp only [hostinfoOf, hsp] at hsnd
    cases hsnd
  | some hp =>
    obtain ⟨hh, pp⟩ := hp
    simp only [hostinfoOf, hsp] at hsnd
    by_cases hppe : pp = []
    · rw [if_pos hppe] at hsnd
      cases hsnd
    · rw [if_neg hppe] at hsnd
      injection hsnd with he
      subst he
      obtain ⟨hd, -⟩ := splitFirst_eq_some hsp
      have : c ∈ afterLast '@' netloc := by
        rw [hd]
        exact List.mem_append_right _ (List.mem_cons_of_mem _ h)
      exact mem_afterLast this

theorem hostnameOf_eq_of_no_pct {netloc : List Char}
    (hpct : '%' ∉ netloc) :
    hostnameOf netloc = lowerList (hostinfoOf netloc).1 := by
  have hp2 : '%' ∉ (hostinfoOf netloc).1 :=
    fun m => hpct (mem_hostinfo_fst m).1
  simp only [hostnameOf, splitFirst_eq_none_iff.mpr hp2]

theorem mem_userinfoOf {c : Char} {netloc : List Char}
    (h : c ∈ userinfoOf netloc) : c ∈ netloc ∨ c = '@' := by
  unfold userinfoOf at h
  by_cases hat : '@' ∈ netloc
  · rw [if_pos hat] at h
    cases hsp : splitFirst '@' netloc with
    | none =>
      rw [hsp] at h
      simp only [] at h
      cases h
    | some ab =>
      obtain ⟨a, b⟩ := ab
      rw [hsp] at h
      simp only [] at h
      rcases List.mem_append.mp h with hm | hm
      · obtain ⟨hd, -⟩ := splitFirst_eq_some hsp
        left
        rw [hd]
        exact List.mem_append_left _ hm
      · right
        exact List.mem_singleton.mp hm
  · rw [if_neg hat] at h
    cases h

theorem userinfoOf_shape (netloc : List Char) :
    userinfoOf netloc = [] ∨
    (∃ w, userinfoOf netloc = w ++ ['@'] ∧ '@' ∉ w ∧
      (∀ c ∈ w, c ∈ netloc) ∧
      ∃ rest, netloc = w ++ '@' :: rest) := by
  unfold userinfoOf
  by_cases hat : '@' ∈ netloc
  · rw [if_pos hat]
    cases hsp : splitFirst '@' netloc with
    | none =>
      exact absurd (splitFirst_eq_none_iff.mp hsp) (by simpa using hat)
    | some ab =>
      obtain ⟨a, b⟩ := ab
      obtain ⟨hd, hna⟩ := splitFirst_eq_some hsp
      right
      refine ⟨a, rfl, hna, ?_, b, hd⟩
      intro c hc
      rw [hd]
      exact List.mem_append_left _ hc
  · rw [if_neg hat]
    exact Or.inl rfl

/-! ### `normNetloc` reparse stability -/

theorem normNetloc_none (scheme netloc : List Char) :
    normNetloc scheme netloc none =
      userinfoOf netloc ++ lowerList (hostnameOf netloc) := by
  simp [normNetloc]

theorem normNetloc_some_default (scheme netloc : List Char) (p : Nat)
    (hdef : (scheme = httpsScheme ∧ p = 443) ∨
      (scheme = httpScheme ∧ p = 80)) :
    normNetloc scheme netloc (some p) =
      userinfoOf netloc ++ lowerList (hostnameOf netloc) := by
  simp only [normNetloc]
  rw [if_pos hdef]

theorem normNetloc_some_port (scheme netloc : List Char) (p : Nat)
    (hdef : ¬((scheme = httpsScheme ∧ p = 443) ∨
      (scheme = httpScheme ∧ p = 80))) :
    normNetloc scheme netloc (some p) =
      userinfoOf netloc ++ lowerList (hostnameOf netloc) ++
        ':' :: natToDigits p := by
  simp only [normNetloc]
  rw [if_neg hdef]

theorem portOf_ok_le {netloc : List Char} {p : Nat}
    (h : portOf netloc = Except.ok (some p)) : p ≤ 65535 := by
  unfold portOf at h
  cases hsnd : (hostinfoOf netloc).2 with
  | none =>
    rw [hsnd] at h
    injection h with he
    cases he
  | some pp =>
    rw [hsnd] at h
    have h2 : (if pp.all isAsciiDigit = true then
        (if digitsToNat pp ≤ 65535 then Except.ok (some (digitsToNat pp))
         else Except.error "Port out of range 0-65535")
      else (Except.error "Port could not be cast to integer value" :
        Except String (Option Nat))) = Except.ok (some p) := h
    by_cases hdig : pp.all isAsciiDigit = true
    · rw [if_pos hdig] at h2
      by_cases hle : digitsToNat pp ≤ 65535
      · rw [if_pos hle] at h2
        injection h2 with he
        injection he with he2
        rw [← he2]
        exact hle
      · rw [if_neg hle] at h2
        cases h2
    · rw [if_neg hdig] at h2
      cases h2

theorem portOf_of_hostinfo_none {netloc : List Char}
    (h : (hostinfoOf netloc).2 = none) : portOf netloc = Except.ok none := by
  unfold portOf
  rw [h]

theorem natToDigits_no_special {p : Nat} (h65 : p ≤ 65535) {d : Char}
    (hd : ¬(48 ≤ d.toNat ∧ d.toNat ≤ 57)) : d ∉ natToDigits p := by
  intro hm
  obtain ⟨-, -, hdig⟩ := natToDigits_spec h65
  exact hd (isAsciiDigit_iff.mp (hdig d hm))

theorem netloc_reassemble (hp pt netloc : List Char)
    (hhp_at : '@' ∉ hp) (hpt_at : '@' ∉ pt) :
    afterLast '@' (userinfoOf netloc ++ hp ++ pt) = hp ++ pt ∧
    userinfoOf (userinfoOf netloc ++ hp ++ pt) = userinfoOf netloc := by
  have hno : '@' ∉ hp ++ pt := by
    intro hm
    rcases List.mem_append.mp hm with hm | hm
    exacts [hhp_at hm, hpt_at hm]
  rcases userinfoOf_shape netloc with hu | ⟨w, hu, hw_at, hw_sub, rest, hnet⟩
  · rw [hu, List.nil_append]
    refine ⟨afterLast_of_notMem hno, ?_⟩
    unfold userinfoOf
    rw [if_neg hno]
  · rw [hu]
    have hsh : (w ++ ['@']) ++ hp ++ pt = w ++ '@' :: (hp ++ pt) := by
      simp [List.append_assoc]
    rw [hsh]
    refine ⟨afterLast_append w hno, ?_⟩
    have hmem : '@' ∈ w ++ '@' :: (hp ++ pt) :=
      List.mem_append_right _ (List.mem_cons_self _ _)
    have hsf : splitFirst '@' (w ++ '@' :: (hp ++ pt)) =
        some (w, hp ++ pt) := splitFirst_append _ hw_at
    simp only [userinfoOf, if_pos hmem, hsf]

theorem normNetloc_stable (scheme : List Char) {netloc : List Char} {port : Option Nat}
    (hpct : '%' ∉ netloc)
    (hport : portOf netloc = Except.ok port) :
    lowerList (hostnameOf (normNetloc scheme netloc port)) =
      lowerList (hostnameOf netloc) ∧
    ∃ port2 : Option Nat,
      portOf (normNetloc scheme netloc port) = Except.ok port2 ∧
      normNetloc scheme (normNetloc scheme netloc port) port2 =
        normNetloc scheme netloc port := by
  have hhost : hostnameOf netloc = lowerList (hostinfoOf netloc).1 :=
    hostnameOf_eq_of_no_pct hpct
  set hp := lowerList (hostinfoOf netloc).1 with hhp
  have hhp_at : '@' ∉ hp := by
    intro hm
    rcases List.mem_map.mp hm with ⟨d, hd, he⟩
    rw [toLowerAscii_eq_nonletter (by decide) he] at hd
    exact (mem_hostinfo_fst hd).2 rfl
  have hhp_col : ':' ∉ hp := by
    intro hm
    rcases List.mem_map.mp hm with ⟨d, hd, he⟩
    rw [toLowerAscii_eq_nonletter (by decide) he] at hd
    exact hostinfo_fst_no_colon netloc hd
  have hhp_pct : '%' ∉ hp := by
    intro hm
    rcases List.mem_map.mp hm with ⟨d, hd, he⟩
    rw [toLowerAscii_eq_nonletter (by decide) he] at hd
    exact hpct (mem_hostinfo_fst hd).1
  have hu_pct : '%' ∉ userinfoOf netloc := by
    intro hm
    rcases mem_userinfoOf hm with hm | hm
    · exact hpct hm
    · cases hm
  have hlower_hp : lowerList hp = hp := by
    rw [hhp, lowerList_idem]
  have hhostlower : lowerList (hostnameOf netloc) = hp := by
    rw [hhost]
    exact hlower_hp
  cases port with
  | none =>
    have hne : normNetloc scheme netloc none = userinfoOf netloc ++ hp := by
      rw [normNetloc_none, hhostlower]
    obtain ⟨hafter, huser⟩ :=
      netloc_reassemble hp [] netloc hhp_at (by simp)
    rw [List.append_nil] at hafter huser
    rw [List.append_nil] at hafter
    have hhi : hostinfoOf (normNetloc scheme netloc none) = (hp, none) := by
      rw [hne]
      simp only [hostinfoOf, hafter, splitFirst_eq_none_iff.mpr hhp_col]
    have hpct2 : '%' ∉ normNetloc scheme netloc none := by
      rw [hne]
      intro hm
      rcases List.mem_append.mp hm with hm | hm
      exacts [hu_pct hm, hhp_pct hm]
    have hhn2 : hostnameOf (normNetloc scheme netloc none) = hp := by
      rw [hostnameOf_eq_of_no_pct hpct2, hhi]
      exact hlower_hp
    refine ⟨?_, none, ?_, ?_⟩
    · rw [hhn2, hhostlower, hlower_hp]
    · apply portOf_of_hostinfo_none
      rw [hhi]
    · rw [normNetloc_none, hhn2, hne, huser, hlower_hp]
  | some p =>
    have h65 : p ≤ 65535 := portOf_ok_le hport
    obtain ⟨hdval, hdne, hdall⟩ := natToDigits_spec h65
    by_cases hdef : (scheme = httpsScheme ∧ p = 443) ∨
        (scheme = httpScheme ∧ p = 80)
    · have hne : normNetloc scheme netloc (some p) =
          userinfoOf netloc ++ hp := by
        rw [normNetloc_some_default _ _ _ hdef, hhostlower]
      obtain ⟨hafter, huser⟩ :=
        netloc_reassemble hp [] netloc hhp_at (by simp)
      rw [List.append_nil] at hafter huser
      rw [List.append_nil] at hafter
      have hhi : hostinfoOf (normNetloc scheme netloc (some p)) =
          (hp, none) := by
        rw [hne]
        simp only [hostinfoOf, hafter, splitFirst_eq_none_iff.mpr hhp_col]
      have hpct2 : '%' ∉ normNetloc scheme netloc (some p) := by
        rw [hne]
        intro hm
        rcases List.mem_append.mp hm with hm | hm
        exacts [hu_pct hm, hhp_pct hm]
      have hhn2 : hostnameOf (normNetloc scheme netloc (some p)) = hp := by
        rw [hostnameOf_eq_of_no_pct hpct2, hhi]
        exact hlower_hp
      refine ⟨?_, none, ?_, ?_⟩
      · rw [hhn2, hhostlower, hlower_hp]
      · apply portOf_of_hostinfo_none
        rw [hhi]
      · rw [normNetloc_none, hhn2, hne, huser, hlower_hp]
    · have hpt_at : '@' ∉ ':' :: natToDigits p := by
        intro hm
        rcases List.mem_cons.mp hm with he | hm
        · cases he
        · exact natToDigits_no_special h65 (by decide) hm
      have hne : normNetloc scheme netloc (some p) =
          userinfoOf netloc ++ hp ++ ':' :: natToDigits p := by
        rw [normNetloc_some_port _ _ _ hdef, hhostlower]
      obtain ⟨hafter, huser⟩ :=
        netloc_reassemble hp (':' :: natToDigits p) netloc
          hhp_at hpt_at
      have hsf : splitFirst ':' (hp ++ ':' :: natToDigits p) =
          some (hp, natToDigits p) := splitFirst_append _ hhp_col
      have hhi : hostinfoOf (normNetloc scheme netloc (some p)) =
          (hp, some (natToDigits p)) := by
        rw [hne]
        simp only [hostinfoOf, hafter, hsf]
        rw [if_neg hdne]
      have hpct2 : '%' ∉ normNetloc scheme netloc (some p) := by
        rw [hne]
        intro hm
        rcases List.mem_append.mp hm with hm | hm
        · rcases List.mem_append.mp hm with hm | hm
          exacts [hu_pct hm, hhp_pct hm]
        · rcases List.mem_cons.mp hm with he | hm
          · cases he
          · exact natToDigits_no_special h65 (by decide) hm
      have hhn2 : hostnameOf (normNetloc scheme netloc (some p)) = hp := by
        rw [hostnameOf_eq_of_no_pct hpct2, hhi]
        exact hlower_hp
      refine ⟨?_, some p, ?_, ?_⟩
      · rw [hhn2, hhostlower, hlower_hp]
      · unfold portOf
        rw [hhi]
        have hall : (natToDigits p).all isAsciiDigit = true :=
          List.all_eq_true.mpr hdall
        have h2 : (if (natToDigits p).all isAsciiDigit = true then
            (if digitsToNat (natToDigits p) ≤ 65535 then
              Except.ok (some (digitsToNat (natToDigits p)))
             else Except.error "Port out of range 0-65535")
          else (Except.error "Port could not be cast to integer value" :
            Except String (Option Nat))) = Except.ok (some p) := by
          rw [if_pos hall, hdval, if_pos h65]
        exact h2
      · rw [normNetloc_some_port _ _ _ hdef, hhn2, hne, huser, hlower_hp]

/-! ### `normPath` facts -/

theorem normPath_nil : normPath [] = ['/'] := by decide

theorem normPath_of_ne {p : List Char} (h1 : p ≠ []) (h2 : p ≠ ['/']) :
    normPath p = rstripSlashes p := by
  unfold normPath
  rw [if_neg h1, if_pos h2]

theorem normPath_cases (p : List Char) :
    normPath p = ['/'] ∨ normPath p = rstripSlashes p := by
  by_cases h1 : p = []
  · subst h1
    exact Or.inl normPath_nil
  · by_cases h2 : p = ['/']
    · subst h2
      exact Or.inl (by decide)
    · exact Or.inr (normPath_of_ne h1 h2)

theorem rstripSlashes_ne_slash (p : List Char) :
    rstripSlashes p ≠ ['/'] := by
  intro h
  have h1 := rstripSlashes_idem p
  rw [h] at h1
  have h2 : rstripSlashes ['/'] = [] := by decide
  rw [h2] at h1
  cases h1

theorem normPath_stable {p : List Char} (h : normPath p ≠ []) :
    normPath (normPath p) = normPath p := by
  rcases normPath_cases p with hc | hc
  · rw [hc]
    decide
  · rw [hc] at h ⊢
    rw [normPath_of_ne h (rstripSlashes_ne_slash p), rstripSlashes_idem]

theorem mem_normPath {c : Char} {p : List Char} (h : c ∈ normPath p) :
    c ∈ p ∨ c = '/' := by
  rcases normPath_cases p with hc | hc
  · rw [hc] at h
    exact Or.inr (List.mem_singleton.mp h)
  · rw [hc] at h
    exact Or.inl (mem_rstripSlashes h)

/-! ### `normQuery` facts -/

theorem dropTrackingF_eq_some {p q : List Char × List Char}
    (h : dropTrackingF p = some q) :
    q = (pyStripList p.1, p.2) ∧ lowerList (pyStripList p.1) ≠ [] := by
  simp only [dropTrackingF] at h
  by_cases h1 : lowerList (pyStripList p.1) = []
  · rw [if_pos h1] at h
    cases h
  · rw [if_neg h1] at h
    by_cases h2 : (['u', 't', 'm', '_'].isPrefixOf
        (lowerList (pyStripList p.1)) : Bool)
    · rw [if_pos (by simpa using h2)] at h
      cases h
    · rw [if_neg (by simpa using h2)] at h
      by_cases h3 : (dropKeys.contains
          (String.mk (lowerList (pyStripList p.1))) : Bool)
      · rw [if_pos (by simpa using h3)] at h
        cases h
      · rw [if_neg (by simpa using h3)] at h
        injection h with he
        exact ⟨he.symm, h1⟩

theorem lowerList_ne_nil {l : List Char} (h : lowerList l ≠ []) : l ≠ [] := by
  intro he
  subst he
  exact h rfl

/-- Every pair surviving the full query pipeline is clean. -/
theorem normQuery_pairs_clean {q : List Char}
    (hpct : '%' ∉ q) (hplus : '+' ∉ q) :
    ∀ p ∈ sortPairs (dropTrackingParams (parseQsl q)),
      cleanPair p ∧ dropTrackingF p = some p ∧
      (∀ c ∈ p.1, c ∈ q) ∧ (∀ c ∈ p.2, c ∈ q) := by
  intro p hp
  have hdt := mem_sortPairs hp
  obtain ⟨q0, hq0, hpe, hfix⟩ := mem_dropTracking hdt
  obtain ⟨hq0sub1, hq0sub2, hamp1, hamp2, heq1⟩ :=
    parseQsl_mem_spec hpct hplus q0 hq0
  obtain ⟨-, hlow⟩ := dropTrackingF_eq_some hfix
  have hp1 : ∀ c ∈ p.1, c ∈ q := by
    intro c hc
    rw [hpe] at hc
    exact hq0sub1 c (mem_pyStripList hc)
  have hp2 : ∀ c ∈ p.2, c ∈ q := by
    intro c hc
    rw [hpe] at hc
    exact hq0sub2 c hc
  refine ⟨⟨?_, ?_, ?_, ?_, ?_, ?_, ?_, ?_⟩, hfix, hp1, hp2⟩
  · intro he
    exact hlow (by rw [he]; rfl)
  · intro hm
    rw [hpe] at hm
    exact hamp1 (mem_pyStripList hm)
  · intro hm
    rw [hpe] at hm
    exact heq1 (mem_pyStripList hm)
  · exact fun hm => hpct (hp1 _ hm)
  · exact fun hm => hplus (hp1 _ hm)
  · intro hm
    rw [hpe] at hm
    exact hamp2 hm
  · exact fun hm => hpct (hp2 _ hm)
  · exact fun hm => hplus (hp2 _ hm)

theorem normQuery_stable {q : List Char}
    (hpct : '%' ∉ q) (hplus : '+' ∉ q) :
    normQuery (normQuery q) = normQuery q := by
  have hclean := normQuery_pairs_clean hpct hplus
  unfold normQuery
  rw [parseQsl_joinPairs (fun p hp => (hclean p hp).1),
    dropTracking_eq_self (fun p hp => (hclean p hp).2.1),
    sortPairs_of_chain (sortPairs_chain _)]

theorem mem_joinPairs {c : Char} {pairs : List (List Char × List Char)}
    (h : c ∈ joinPairs pairs) :
    (∃ p ∈ pairs, c ∈ p.1 ∨ c ∈ p.2) ∨ c = '=' ∨ c = '&' := by
  induction pairs with
  | nil => cases h
  | cons p rest ih =>
    cases rest with
    | nil =>
      rw [joinPairs] at h
      rcases List.mem_append.mp h with hm | hm
      · exact Or.inl ⟨p, List.mem_cons_self _ _, Or.inl hm⟩
      · rcases List.mem_cons.mp hm with he | hm
        · exact Or.inr (Or.inl he)
        · exact Or.inl ⟨p, List.mem_cons_self _ _, Or.inr hm⟩
    | cons r rest2 =>
      rw [joinPairs_cons_cons] at h
      rcases List.mem_append.mp h with hm | hm
      · rcases List.mem_append.mp hm with hm2 | hm2
        · exact Or.inl ⟨p, List.mem_cons_self _ _, Or.inl hm2⟩
        · rcases List.mem_cons.mp hm2 with he | hm3
          · exact Or.inr (Or.inl he)
          · exact Or.inl ⟨p, List.mem_cons_self _ _, Or.inr hm3⟩
      · rcases List.mem_cons.mp hm with he | hm2
        · exact Or.inr (Or.inr he)
        · rcases ih hm2 with ⟨p2, hp2, hc2⟩ | hc2
          · exact Or.inl ⟨p2, List.mem_cons_of_mem _ hp2, hc2⟩
          · exact Or.inr hc2

theorem mem_normQuery {c : Char} {q : List Char}
    (hpct : '%' ∉ q) (hplus : '+' ∉ q)
    (h : c ∈ normQuery q) : c ∈ q ∨ c = '=' ∨ c = '&' := by
  unfold normQuery at h
  rcases mem_joinPairs h with ⟨p, hp, hc⟩ | hc
  · obtain ⟨-, -, hp1, hp2⟩ := normQuery_pairs_clean hpct hplus p hp
    rcases hc with hc | hc
    exacts [Or.inl (hp1 c hc), Or.inl (hp2 c hc)]
  · exact Or.inr hc

/-! ### Small facts for the reparse argument -/

def urlOkChar (c : Char) : Bool :=
  okChar c ∧ ¬c = '%' ∧ ¬c = '+' ∧ ¬c = '['

theorem urlOkChar_spec {c : Char} (h : urlOkChar c = true) :
    okChar c = true ∧ ¬c = '%' ∧ ¬c = '+' ∧ ¬c = '[' := by
  rw [urlOkChar] at h
  simp only [Bool.and_eq_true, decide_eq_true_eq] at h
  exact h

theorem urlOkChar_toLower {c : Char} (h : urlOkChar c = true) :
    urlOkChar (toLowerAscii c) = true := by
  obtain ⟨hok, h1, h2, h3⟩ := urlOkChar_spec h
  rw [urlOkChar]
  simp only [Bool.and_eq_true, decide_eq_true_eq]
  refine ⟨toLowerAscii_okChar hok, ?_, ?_, ?_⟩
  · intro he
    exact h1 (toLowerAscii_eq_nonletter (by decide) he)
  · intro he
    exact h2 (toLowerAscii_eq_nonletter (by decide) he)
  · intro he
    exact h3 (toLowerAscii_eq_nonletter (by decide) he)

theorem okChar_c0_false {c : Char} (h : okChar c = true) :
    isC0OrSpace c = false := by
  rw [okChar] at h
  simp only [Bool.and_eq_true, decide_eq_true_eq] at h
  rw [isC0OrSpace]
  simp only [decide_eq_false_iff_not]
  omega

theorem dropWhile_c0_eq_self {x : List Char}
    (hok : ∀ c ∈ x, okChar c = true) :
    x.dropWhile isC0OrSpace = x :=
  dropWhile_eq_self_of_all (fun c hc => okChar_c0_false (hok c hc))

theorem removeUnsafe_eq_self {x : List Char}
    (hok : ∀ c ∈ x, okChar c = true) : removeUnsafe x = x := by
  rw [removeUnsafe, List.filter_eq_self]
  intro c hc
  have h := hok c hc
  rw [okChar] at h
  simp only [Bool.and_eq_true, decide_eq_true_eq] at h
  simp only [decide_eq_true_eq]
  push_neg
  have h9 : ('\t' : Char).toNat = 9 := rfl
  have h13 : ('\r' : Char).toNat = 13 := rfl
  have h10 : ('\n' : Char).toNat = 10 := rfl
  refine ⟨?_, ?_, ?_⟩ <;> (intro e; rw [char_eq_iff] at e; omega)

theorem pyStripList_eq_self_ok {x : List Char}
    (hok : ∀ c ∈ x, okChar c = true) : pyStripList x = x :=
  pyStripList_eq_self (fun c hc => okChar_no_pyspace (hok c hc))

theorem headIsAlpha_append {l : List Char} (t : List Char) (h : l ≠ []) :
    headIsAlpha (l ++ t) = headIsAlpha l := by
  cases l with
  | nil => exact absurd rfl h
  | cons c r => rfl

theorem schemeFail_of_not_alpha {y : List Char}
    (h : headIsAlpha y = false) : schemeFail y := by
  intro bef aft _ hcond
  rw [h] at hcond
  cases hcond.2.1

theorem schemeFail_of_no_colon {y : List Char} (h : ':' ∉ y) :
    schemeFail y := by
  intro bef aft hsp
  rw [splitFirst_eq_none_iff.mpr h] at hsp
  cases hsp

theorem splitFirst_prefix_ext {c : Char} {a bef r : List Char}
    (t : List Char) (h : splitFirst c a = some (bef, r)) :
    splitFirst c (a ++ t) = some (bef, r ++ t) := by
  obtain ⟨hd, hn⟩ := splitFirst_eq_some h
  rw [hd, List.append_assoc, List.cons_append]
  exact splitFirst_append _ hn

theorem mem_splitFirst_exists {c : Char} {l : List Char} (h : c ∈ l) :
    ∃ a b, splitFirst c l = some (a, b) := by
  cases hsp : splitFirst c l with
  | none => exact absurd (splitFirst_eq_none_iff.mp hsp) (by simpa using h)
  | some ab =>
    obtain ⟨a, b⟩ := ab
    exact ⟨a, b, rfl⟩

theorem two_mem_le_length {α : Type} {a b : α} {l : List α}
    (ha : a ∈ l) (hb : b ∈ l) (hne : a ≠ b) : 2 ≤ l.length := by
  induction l with
  | nil => cases ha
  | cons c t ih =>
    rcases List.mem_cons.mp ha with rfl | ha2
    · have hbt : b ∈ t := by
        rcases List.mem_cons.mp hb with rfl | hb2
        · exact absurd rfl hne
        · exact hb2
      have : t ≠ [] := fun he => by rw [he] at hbt; cases hbt
      have : 1 ≤ t.length := by
        cases t with
        | nil => exact absurd rfl this
        | cons _ _ => simp
      simp only [List.length_cons]
      omega
    · rcases List.mem_cons.mp hb with rfl | hb2
      · have : 1 ≤ t.length := by
          cases t with
          | nil => cases ha2
          | cons _ _ => simp
        simp only [List.length_cons]
        omega
      · have := ih ha2 hb2
        simp only [List.length_cons]
        omega

theorem two_mem_countP {a b : List Char × List Char}
    {l : List (List Char × List Char)} {P : List Char × List Char → Bool}
    (ha : a ∈ l) (hb : b ∈ l) (hne : a ≠ b)
    (hpa : P a = true) (hpb : P b = true) : 2 ≤ l.countP P := by
  rw [List.countP_eq_length_filter]
  exact two_mem_le_length (List.mem_filter.mpr ⟨ha, hpa⟩)
    (List.mem_filter.mpr ⟨hb, hpb⟩) hne

theorem mem_insertPair_of_mem {q p : List Char × List Char}
    {l : List (List Char × List Char)} (h : q = p ∨ q ∈ l) :
    q ∈ insertPair p l := by
  induction l with
  | nil =>
    rcases h with rfl | h
    · rw [insertPair]; exact List.mem_singleton.mpr rfl
    · cases h
  | cons r t ih =>
    rw [insertPair]
    by_cases hpr : pairLe p r
    · rw [if_pos hpr]
      rcases h with rfl | h
      · exact List.mem_cons_self _ _
      · exact List.mem_cons_of_mem _ h
    · rw [if_neg hpr]
      rcases h with rfl | h
      · exact List.mem_cons_of_mem _ (ih (Or.inl rfl))
      · rcases List.mem_cons.mp h with rfl | h
        · exact List.mem_cons_self _ _
        · exact List.mem_cons_of_mem _ (ih (Or.inr h))

theorem mem_sortPairs_of_mem {q : List Char × List Char}
    {l : List (List Char × List Char)} (h : q ∈ l) : q ∈ sortPairs l := by
  induction l with
  | nil => cases h
  | cons a t ih =>
    have he : sortPairs (a :: t) = insertPair a (sortPairs t) := rfl
    rw [he]
    rcases List.mem_cons.mp h with rfl | h
    · exact mem_insertPair_of_mem (Or.inl rfl)
    · exact mem_insertPair_of_mem (Or.inr (ih h))

theorem qslDictGet_go_isSome {k : List Char} (w : List Char)
    (pairs : List (List Char × List Char)) :
    ∃ v, pairs.foldl (fun acc p => if p.1 = k then some p.2 else acc)
      (some w) = some v := by
  induction pairs generalizing w with
  | nil => exact ⟨w, rfl⟩
  | cons p t ih =>
    rw [List.foldl_cons]
    by_cases hp : p.1 = k
    · rw [if_pos hp]
      exact ih p.2
    · rw [if_neg hp]
      exact ih w

theorem qslDictGet_none_spec {pairs : List (List Char × List Char)}
    {k : List Char} (h : qslDictGet pairs k = none) :
    ∀ p ∈ pairs, p.1 ≠ k := by
  intro p hp hpk
  induction pairs with
  | nil => cases hp
  | cons r t ih =>
    rw [qslDictGet, List.foldl_cons] at h
    rcases List.mem_cons.mp hp with rfl | hp2
    · rw [if_pos hpk] at h
      obtain ⟨v, hv⟩ := qslDictGet_go_isSome p.2 t
      rw [hv] at h
      cases h
    · by_cases hr : r.1 = k
      · rw [if_pos hr] at h
        obtain ⟨v, hv⟩ := qslDictGet_go_isSome r.2 t
        rw [hv] at h
        cases h
      · rw [if_neg hr] at h
        exact ih h hp2

theorem stripSlashes_nil_all {l : List Char} (h : stripSlashes l = []) :
    ∀ c ∈ l, c = '/' := by
  unfold stripSlashes at h
  have h1 : (l.dropWhile (fun c => decide (c = '/'))).reverse.dropWhile
      (fun c => decide (c = '/')) = [] := by
    have h2 := congrArg List.reverse h
    rw [List.reverse_reverse] at h2
    simpa using h2
  intro c hc
  by_contra hne
  have hmem : c ∈ l.dropWhile (fun c => decide (c = '/')) ∨
      c ∈ l.takeWhile (fun c => decide (c = '/')) := by
    rcases List.mem_append.mp (by
      rw [List.takeWhile_append_dropWhile]
      exact hc :
        c ∈ l.takeWhile (fun c => decide (c = '/')) ++
          l.dropWhile (fun c => decide (c = '/'))) with hm | hm
    · exact Or.inr hm
    · exact Or.inl hm
  rcases hmem with hm | hm
  · have : c ∈ (l.dropWhile (fun c => decide (c = '/'))).reverse :=
      List.mem_reverse.mpr hm
    rw [List.dropWhile_eq_nil_iff] at h1
    have := h1 c this
    simp only [decide_eq_true_eq] at this
    exact hne this
  · have := List.mem_takeWhile_imp hm
    simp only [decide_eq_true_eq] at this
    exact hne this

theorem rstrip_nil_of_all {l : List Char} (h : ∀ c ∈ l, c = '/') :
    rstripSlashes l = [] := by
  unfold rstripSlashes
  have : l.reverse.dropWhile (fun c => decide (c = '/')) = [] := by
    rw [List.dropWhile_eq_nil_iff]
    intro c hc
    simp only [decide_eq_true_eq]
    exact h c (List.mem_reverse.mp hc)
  rw [this]
  rfl

theorem rstripSlashes_append_all {t : List Char} (a : List Char)
    (h : ∀ c ∈ t, c = '/') :
    rstripSlashes (a ++ t) = rstripSlashes a := by
  unfold rstripSlashes
  rw [List.reverse_append, dropWhile_append_all]
  intro c hc
  simp only [decide_eq_true_eq]
  exact h c (List.mem_reverse.mp hc)

theorem rstripSlashes_prefix (l : List Char) :
    ∀ c ∈ rstripSlashes l, c ∈ l :=
  fun _ hc => mem_rstripSlashes hc

theorem splitAll_cons_sep (sep : Char) (t : List Char) :
    splitAll sep (sep :: t) = [] :: splitAll sep t := by
  have h2 : splitAll sep (([] : List Char) ++ sep :: t) =
      [] :: splitAll sep t := splitAll_append t (by simp)
  simpa using h2

/-! ### Reparsing the rebuilt URL -/

theorem urlunsplit_of_cond (s n p q : List Char)
    (hA : n ≠ [] ∨ (s ≠ [] ∧
      usesNetloc.contains (String.mk s) = true ∧ p.take 2 ≠ ['/', '/'])) :
    urlunsplit s n p q [] =
      (if s ≠ [] then s ++ [':'] else []) ++ '/' :: '/' ::
        (n ++ (if p ≠ [] ∧ p.take 1 ≠ ['/'] then '/' :: p else p)) ++
        (if q ≠ [] then '?' :: q else []) := by
  simp only [urlunsplit]
  rw [if_pos hA]
  by_cases hs : s ≠ []
  · rw [if_pos hs, if_pos hs]
    by_cases hq : q ≠ []
    · rw [if_pos hq, if_pos hq, if_neg (by simp)]
      simp [List.append_assoc]
    · rw [if_neg hq, if_neg hq, if_neg (by simp)]
      simp [List.append_assoc]
  · rw [if_neg hs, if_neg hs]
    by_cases hq : q ≠ []
    · rw [if_pos hq, if_pos hq, if_neg (by simp)]
      simp [List.append_assoc]
    · rw [if_neg hq, if_neg hq, if_neg (by simp)]
      simp [List.append_assoc]

theorem urlunsplit_no_cond (s n p q : List Char)
    (hnA : ¬(n ≠ [] ∨ (s ≠ [] ∧
      usesNetloc.contains (String.mk s) = true ∧ p.take 2 ≠ ['/', '/']))) :
    urlunsplit s n p q [] =
      (if s ≠ [] then s ++ [':'] else []) ++ p ++
        (if q ≠ [] then '?' :: q else []) := by
  simp only [urlunsplit]
  rw [if_neg hnA]
  by_cases hs : s ≠ []
  · rw [if_pos hs, if_pos hs]
    by_cases hq : q ≠ []
    · rw [if_pos hq, if_pos hq, if_neg (by simp)]
      simp [List.append_assoc]
    · rw [if_neg hq, if_neg hq, if_neg (by simp)]
      simp [List.append_assoc]
  · rw [if_neg hs, if_neg hs]
    by_cases hq : q ≠ []
    · rw [if_pos hq, if_pos hq, if_neg (by simp)]
      simp [List.append_assoc]
    · rw [if_neg hq, if_neg hq, if_neg (by simp)]
      simp [List.append_assoc]

theorem splitFrag_qtail {scheme netloc pa q : List Char}
    (hfr : '#' ∉ pa) (hq : '?' ∉ pa) (hqf : '#' ∉ q) :
    splitFrag scheme netloc (pa ++ (if q ≠ [] then '?' :: q else [])) =
      ⟨scheme, netloc, pa, q, []⟩ := by
  by_cases hqe : q ≠ []
  · rw [if_pos hqe]
    apply splitFrag_query ?_ hq
    intro hm
    rcases List.mem_append.mp hm with hm | hm
    · exact hfr hm
    · rcases List.mem_cons.mp hm with he | hm
      · cases he
      · exact hqf hm
  · rw [if_neg hqe]
    push_neg at hqe
    subst hqe
    rw [List.append_nil]
    exact splitFrag_no_query hfr hq

theorem prepended_head {p : List Char} (hp : p ≠ []) :
    ∃ t, (if p ≠ [] ∧ p.take 1 ≠ ['/'] then '/' :: p else p) = '/' :: t := by
  by_cases hc : p ≠ [] ∧ p.take 1 ≠ ['/']
  · rw [if_pos hc]
    exact ⟨p, rfl⟩
  · rw [if_neg hc]
    push_neg at hc
    have htake := hc hp
    cases p with
    | nil => exact absurd rfl hp
    | cons c t =>
      have : c = '/' := by
        have h1 : List.take 1 (c :: t) = [c] := by simp
        rw [h1] at htake
        injection htake with he
      exact ⟨t, by rw [this]⟩

theorem take2_append_ne {p : List Char} (qtail : List Char)
    (hp_ne : p ≠ []) (h2 : p.take 2 ≠ ['/', '/'])
    (hqt : ∀ c t, qtail = c :: t → c = '?') :
    (p ++ qtail).take 2 ≠ ['/', '/'] := by
  cases p with
  | nil => exact absurd rfl hp_ne
  | cons a p2 =>
    cases p2 with
    | nil =>
      cases hqt2 : qtail with
      | nil =>
        intro he
        simp at he
      | cons c t =>
        have hc := hqt c t hqt2
        subst hc
        intro he
        simp at he
    | cons b p3 =>
      intro he
      apply h2
      have h1 : List.take 2 (a :: b :: p3) = [a, b] := by simp
      have h1b : List.take 2 (a :: b :: (p3 ++ qtail)) = [a, b] := by simp
      rw [List.cons_append, List.cons_append, h1b] at he
      rw [h1]
      exact he

theorem takeWhile_netloc_slash (t : List Char) :
    List.takeWhile (fun c => (¬isNetlocEnd c : Bool)) ('/' :: t) = [] := by
  rw [List.takeWhile_cons, if_neg (by decide)]

theorem dropWhile_netloc_slash (t : List Char) :
    List.dropWhile (fun c => (¬isNetlocEnd c : Bool)) ('/' :: t) =
      '/' :: t := by
  rw [List.dropWhile_cons, if_neg (by decide)]

theorem pass2_split_A {s' n' p' q' : List Char}
    (hA : n' ≠ [] ∨ (s' ≠ [] ∧
      usesNetloc.contains (String.mk s') = true ∧ p'.take 2 ≠ ['/', '/']))
    (hs : s' = [] ∨ (headIsAlpha s' = true ∧ s'.all isSchemeChar = true ∧
      ':' ∉ s'))
    (hlow : lowerList s' = s')
    (hok : ∀ c ∈ urlunsplit s' n' p' q' [], okChar c = true)
    (hn_end : ∀ c ∈ n', (¬isNetlocEnd c : Bool) = true)
    (hn_br1 : '[' ∉ n') (hn_br2 : ']' ∉ n')
    (hp_ne : p' ≠ []) (hp_hash : '#' ∉ p') (hp_qm : '?' ∉ p')
    (hq_hash : '#' ∉ q') :
    urlsplitE (urlunsplit s' n' p' q' []) =
      Except.ok ⟨s', n',
        (if p' ≠ [] ∧ p'.take 1 ≠ ['/'] then '/' :: p' else p'), q', []⟩ := by
  have hyeq := urlunsplit_of_cond s' n' p' q' hA
  set pp := (if p' ≠ [] ∧ p'.take 1 ≠ ['/'] then '/' :: p' else p') with hpp
  obtain ⟨pt, hpt⟩ := prepended_head hp_ne
  rw [← hpp] at hpt
  have hpp_sub : ∀ c ∈ pp, c ∈ p' ∨ c = '/' := by
    intro c hc
    rw [hpp] at hc
    by_cases hcc : p' ≠ [] ∧ p'.take 1 ≠ ['/']
    · rw [if_pos hcc] at hc
      rcases List.mem_cons.mp hc with he | hc
      · exact Or.inr he
      · exact Or.inl hc
    · rw [if_neg hcc] at hc
      exact Or.inl hc
  have hpp_hash : '#' ∉ pp := by
    intro hm
    rcases hpp_sub _ hm with hm | hm
    · exact hp_hash hm
    · cases hm
  have hpp_qm : '?' ∉ pp := by
    intro hm
    rcases hpp_sub _ hm with hm | hm
    · exact hp_qm hm
    · cases hm
  set qtail := (if q' ≠ [] then '?' :: q' else []) with hqtail
  have htw : (n' ++ (pp ++ qtail)).takeWhile
      (fun c => (¬isNetlocEnd c : Bool)) = n' := by
    rw [takeWhile_append_all _ hn_end, hpt, List.cons_append,
      takeWhile_netloc_slash, List.append_nil]
  have hdw : (n' ++ (pp ++ qtail)).dropWhile
      (fun c => (¬isNetlocEnd c : Bool)) = pp ++ qtail := by
    rw [dropWhile_append_all _ hn_end, hpt, List.cons_append,
      dropWhile_netloc_slash, ← List.cons_append, ← hpt]
  have hfragq : splitFrag s' n' (pp ++ qtail) = ⟨s', n', pp, q', []⟩ := by
    rw [hqtail]
    exact splitFrag_qtail hpp_hash hpp_qm hq_hash
  rcases hs with hs0 | ⟨hs1, hs2, hs3⟩
  · subst hs0
    have hyeq2 : urlunsplit [] n' p' q' [] =
        '/' :: '/' :: (n' ++ (pp ++ qtail)) := by
      rw [hyeq]
      simp [List.append_assoc]
    rw [hyeq2]
    rw [urlsplitE_noscheme_netloc ?hc0 ?hsafe ?hb1 ?hb2]
    · rw [htw, hdw, hfragq]
    case hc0 =>
      apply dropWhile_c0_eq_self
      rw [← hyeq2]
      exact hok
    case hsafe =>
      apply removeUnsafe_eq_self
      rw [← hyeq2]
      exact hok
    case hb1 => rw [htw]; exact hn_br1
    case hb2 => rw [htw]; exact hn_br2
  · have hs_ne : s' ≠ [] := by
      intro he
      rw [he] at hs1
      cases hs1
    have hyeq2 : urlunsplit s' n' p' q' [] =
        s' ++ ':' :: ('/' :: '/' :: (n' ++ (pp ++ qtail))) := by
      rw [hyeq, if_pos hs_ne]
      simp [List.append_assoc]
    rw [hyeq2]
    rw [urlsplitE_scheme_netloc ?hc0 ?hsafe hs3 hs_ne ?halpha hs2 ?hb1 ?hb2]
    · rw [htw, hdw, hlow, hfragq]
    case hc0 =>
      apply dropWhile_c0_eq_self
      rw [← hyeq2]
      exact hok
    case hsafe =>
      apply removeUnsafe_eq_self
      rw [← hyeq2]
      exact hok
    case halpha =>
      rw [headIsAlpha_append _ hs_ne]
      exact hs1
    case hb1 => rw [htw]; exact hn_br1
    case hb2 => rw [htw]; exact hn_br2

theorem pass2_split_notA {s' n' p' q' : List Char}
    (hnA : ¬(n' ≠ [] ∨ (s' ≠ [] ∧
      usesNetloc.contains (String.mk s') = true ∧ p'.take 2 ≠ ['/', '/'])))
    (h6b : p'.take 2 ≠ ['/', '/'])
    (hs : s' = [] ∨ (headIsAlpha s' = true ∧ s'.all isSchemeChar = true ∧
      ':' ∉ s'))
    (hlow : lowerList s' = s')
    (hok : ∀ c ∈ urlunsplit s' n' p' q' [], okChar c = true)
    (hp_ne : p' ≠ []) (hp_hash : '#' ∉ p') (hp_qm : '?' ∉ p')
    (hq_hash : '#' ∉ q')
    (hsfail : s' = [] → schemeFail (urlunsplit s' n' p' q' [])) :
    urlsplitE (urlunsplit s' n' p' q' []) =
      Except.ok ⟨s', [], p', q', []⟩ := by
  have hnA2 := hnA
  push_neg at hnA2
  obtain ⟨hn0, hnB⟩ := hnA2
  subst hn0
  have hyeq := urlunsplit_no_cond s' [] p' q' hnA
  set qtail := (if q' ≠ [] then '?' :: q' else []) with hqtail
  have hqt_shape : ∀ c t, qtail = c :: t → c = '?' := by
    intro c t he
    rw [hqtail] at he
    by_cases hq : q' ≠ []
    · rw [if_pos hq] at he
      injection he with h1
      exact h1.symm
    · rw [if_neg hq] at he
      cases he
  have hnn : (p' ++ qtail).take 2 ≠ ['/', '/'] :=
    take2_append_ne qtail hp_ne h6b hqt_shape
  have hfragq : splitFrag s' [] (p' ++ qtail) = ⟨s', [], p', q', []⟩ := by
    rw [hqtail]
    exact splitFrag_qtail hp_hash hp_qm hq_hash
  rcases hs with hs0 | ⟨hs1, hs2, hs3⟩
  · subst hs0
    have hyeq2 : urlunsplit [] [] p' q' [] = p' ++ qtail := by
      rw [hyeq]
      simp
    rw [hyeq2]
    rw [urlsplitE_noscheme ?hc0 ?hsafe ?hfail hnn]
    · rw [hfragq]
    case hc0 =>
      apply dropWhile_c0_eq_self
      rw [← hyeq2]
      exact hok
    case hsafe =>
      apply removeUnsafe_eq_self
      rw [← hyeq2]
      exact hok
    case hfail =>
      have hsf := hsfail rfl
      rw [hyeq2] at hsf
      exact hsf
  · have hs_ne : s' ≠ [] := by
      intro he
      rw [he] at hs1
      cases hs1
    have hyeq2 : urlunsplit s' [] p' q' [] = s' ++ ':' :: (p' ++ qtail) := by
      rw [hyeq, if_pos hs_ne]
      simp [List.append_assoc]
    rw [hyeq2]
    rw [urlsplitE_scheme_rel ?hc0 ?hsafe hs3 hs_ne ?halpha hs2 hnn]
    · rw [hlow, hfragq]
    case hc0 =>
      apply dropWhile_c0_eq_self
      rw [← hyeq2]
      exact hok
    case hsafe =>
      apply removeUnsafe_eq_self
      rw [← hyeq2]
      exact hok
    case halpha =>
      rw [headIsAlpha_append _ hs_ne]
      exact hs1

/-! ### Decidable scheme-failure and membership in `urlunsplit` -/

/-- Decidable form of `schemeFail`. -/
def schemeFailB (u : List Char) : Bool :=
  match splitFirst ':' u with
  | none => true
  | some (bef, _) =>
    ¬(bef ≠ [] ∧ headIsAlpha u = true ∧ bef.all isSchemeChar = true)

theorem schemeFailB_spec {u : List Char} (h : schemeFailB u = true) :
    schemeFail u := by
  intro bef aft hsp hcon
  simp only [schemeFailB, hsp, decide_eq_true_eq] at h
  exact h hcon

theorem dropWhile_head_false {p : Char → Bool} {l t : List Char} {c : Char}
    (h : l.dropWhile p = c :: t) : p c = false := by
  induction l with
  | nil => cases h
  | cons a r ih =>
    rw [List.dropWhile_cons] at h
    by_cases hp : p a = true
    · rw [if_pos hp] at h
      exact ih h
    · rw [if_neg hp] at h
      injection h with h1 _
      subst h1
      cases hpc : p a with
      | false => rfl
      | true => exact absurd hpc hp

theorem mem_tailPart {c d : Char} {u t : List Char}
    (h : c ∈ (if t ≠ [] then u ++ d :: t else u)) :
    c ∈ u ∨ c ∈ t ∨ c = d := by
  split at h
  · rcases List.mem_append.mp h with h | h
    · exact Or.inl h
    · rcases List.mem_cons.mp h with rfl | h
      · exact Or.inr (Or.inr rfl)
      · exact Or.inr (Or.inl h)
  · exact Or.inl h

theorem mem_schemePart {c : Char} {s u : List Char}
    (h : c ∈ (if s ≠ [] then s ++ ':' :: u else u)) :
    c ∈ s ∨ c ∈ u ∨ c = ':' := by
  split at h
  · rcases List.mem_append.mp h with h | h
    · exact Or.inl h
    · rcases List.mem_cons.mp h with rfl | h
      · exact Or.inr (Or.inr rfl)
      · exact Or.inr (Or.inl h)
  · exact Or.inr (Or.inl h)

theorem mem_netlocPart {c : Char} {n p : List Char} {A : Prop}
    [Decidable A]
    (h : c ∈ (if A then
        '/' :: '/' ::
          (n ++ (if p ≠ [] ∧ p.take 1 ≠ ['/'] then '/' :: p else p))
      else p)) :
    c ∈ n ∨ c ∈ p ∨ c = '/' := by
  split at h
  · rcases List.mem_cons.mp h with rfl | h
    · exact Or.inr (Or.inr rfl)
    · rcases List.mem_cons.mp h with rfl | h
      · exact Or.inr (Or.inr rfl)
      · rcases List.mem_append.mp h with h | h
        · exact Or.inl h
        · split at h
          · rcases List.mem_cons.mp h with rfl | h
            · exact Or.inr (Or.inr rfl)
            · exact Or.inr (Or.inl h)
          · exact Or.inr (Or.inl h)
  · exact Or.inr (Or.inl h)

theorem mem_urlunsplit {c : Char} {s n p q : List Char}
    (h : c ∈ urlunsplit s n p q []) :
    c ∈ s ∨ c ∈ n ∨ c ∈ p ∨ c ∈ q ∨ c = ':' ∨ c = '/' ∨ c = '?' := by
  simp only [urlunsplit] at h
  rw [if_neg (show ¬(([] : List Char) ≠ []) by simp)] at h
  rcases mem_tailPart h with h | h | h
  · rcases mem_schemePart h with h | h | h
    · exact Or.inl h
    · rcases mem_netlocPart h with h | h | h
      · exact Or.inr (Or.inl h)
      · exact Or.inr (Or.inr (Or.inl h))
      · exact Or.inr (Or.inr (Or.inr (Or.inr (Or.inr (Or.inl h)))))
    · exact Or.inr (Or.inr (Or.inr (Or.inr (Or.inl h))))
  · exact Or.inr (Or.inr (Or.inr (Or.inl h)))
  · exact Or.inr (Or.inr (Or.inr (Or.inr (Or.inr (Or.inr h)))))

/-! ### Facts about the components of a successful parse -/

theorem urlsplitE_sub {x : List Char} {parts : UrlSplitResult}
    (h : urlsplitE x = Except.ok parts)
    (hid : removeUnsafe (x.dropWhile isC0OrSpace) = x) :
    (∀ c ∈ parts.scheme, ∃ d ∈ x, c = toLowerAscii d) ∧
    (∀ c ∈ parts.netloc, c ∈ x) ∧ (∀ c ∈ parts.path, c ∈ x) ∧
    (∀ c ∈ parts.query, c ∈ x) := by
  obtain ⟨url3, url4, hsch, hnet, rest5, hfrag, hquery⟩ :=
    urlsplitE_ok_spec h
  rw [hid] at hsch
  have hurl3 : ∀ c ∈ url3, c ∈ x := by
    rcases hsch with ⟨-, he, -⟩ | ⟨bef, -, he, -⟩
    · rw [← he]
      exact fun c hc => hc
    · intro c hc
      rw [he]
      exact List.mem_append.mpr (Or.inr (List.mem_cons_of_mem _ hc))
  have hsch2 : ∀ c ∈ parts.scheme, ∃ d ∈ x, c = toLowerAscii d := by
    rcases hsch with ⟨he, -, -⟩ | ⟨bef, he, hx, -⟩
    · rw [he]
      intro c hc
      cases hc
    · rw [he]
      intro c hc
      rcases List.mem_map.mp hc with ⟨d, hd, hde⟩
      exact ⟨d, by rw [hx]; exact List.mem_append.mpr (Or.inl hd), hde.symm⟩
  have hurl4 : (∀ c ∈ parts.netloc, c ∈ x) ∧ ∀ c ∈ url4, c ∈ x := by
    rcases hnet with ⟨rest, he3, hnl, he4, -, -⟩ | ⟨-, hnl, he4⟩
    · constructor
      · intro c hc
        rw [hnl] at hc
        apply hurl3
        rw [he3]
        exact List.mem_cons_of_mem _
          (List.mem_cons_of_mem _ (mem_of_mem_takeWhile hc))
      · intro c hc
        rw [he4] at hc
        apply hurl3
        rw [he3]
        exact List.mem_cons_of_mem _
          (List.mem_cons_of_mem _ (mem_of_mem_dropWhile hc))
    · constructor
      · rw [hnl]
        intro c hc
        cases hc
      · rw [he4]
        exact hurl3
  have hrest5 : ∀ c ∈ rest5, c ∈ x := by
    rcases hfrag with ⟨frag, he, -, -⟩ | ⟨-, he, -⟩
    · intro c hc
      apply hurl4.2
      rw [he]
      exact List.mem_append.mpr (Or.inl hc)
    · rw [he]
      exact hurl4.2
  refine ⟨hsch2, hurl4.1, ?_, ?_⟩
  · rcases hquery with ⟨qq, he, -, -⟩ | ⟨-, he, -⟩
    · intro c hc
      apply hrest5
      rw [he]
      exact List.mem_append.mpr (Or.inl hc)
    · rw [he]
      exact hrest5
  · rcases hquery with ⟨qq, he, hq, -⟩ | ⟨hq, -, -⟩
    · rw [hq]
      intro c hc
      apply hrest5
      rw [he]
      exact List.mem_append.mpr (Or.inr (List.mem_cons_of_mem _ hc))
    · rw [hq]
      intro c hc
      cases hc

theorem parse_facts {x : List Char} {parts : UrlSplitResult}
    (hok : ∀ c ∈ x, okChar c = true)
    (h : urlsplitE x = Except.ok parts) :
    (parts.scheme = [] ∨ (headIsAlpha parts.scheme = true ∧
      parts.scheme.all isSchemeChar = true ∧ ':' ∉ parts.scheme ∧
      lowerList parts.scheme = parts.scheme)) ∧
    (∀ c ∈ parts.netloc, (¬isNetlocEnd c : Bool) = true) ∧
    '[' ∉ parts.netloc ∧ ']' ∉ parts.netloc ∧
    '#' ∉ parts.path ∧ '?' ∉ parts.path ∧ '#' ∉ parts.query ∧
    (parts.netloc ≠ [] → parts.path = [] ∨ parts.path.take 1 = ['/']) := by
  have hid : removeUnsafe (x.dropWhile isC0OrSpace) = x := by
    rw [dropWhile_c0_eq_self hok]
    exact removeUnsafe_eq_self hok
  obtain ⟨url3, url4, hsch, hnet, rest5, hfrag, hquery⟩ :=
    urlsplitE_ok_spec h
  rw [hid] at hsch
  have hscheme : parts.scheme = [] ∨ (headIsAlpha parts.scheme = true ∧
      parts.scheme.all isSchemeChar = true ∧ ':' ∉ parts.scheme ∧
      lowerList parts.scheme = parts.scheme) := by
    rcases hsch with ⟨he, -, -⟩ | ⟨bef, he, hx, hbne, hbcol, halpha, hballs⟩
    · exact Or.inl he
    · right
      refine ⟨?_, ?_, ?_, ?_⟩
      · cases bef with
        | nil => exact absurd rfl hbne
        | cons b bt =>
          rw [hx, List.cons_append] at halpha
          have hb : isAsciiAlpha b = true := halpha
          rw [he]
          show headIsAlpha (toLowerAscii b :: lowerList bt) = true
          show isAsciiAlpha (toLowerAscii b) = true
          exact isAsciiAlpha_toLower hb
      · rw [he]
        rw [List.all_eq_true]
        intro c hc
        rcases List.mem_map.mp hc with ⟨d, hd, hde⟩
        rw [← hde]
        exact isSchemeChar_toLower (List.all_eq_true.mp hballs d hd)
      · rw [he]
        exact notMem_lowerList (by decide) hbcol
      · rw [he]
        exact lowerList_idem bef
  have hnetl : (∀ c ∈ parts.netloc, (¬isNetlocEnd c : Bool) = true) ∧
      '[' ∉ parts.netloc ∧ ']' ∉ parts.netloc := by
    rcases hnet with ⟨rest, -, hnl, -, hb1, hb2⟩ | ⟨-, hnl, -⟩
    · refine ⟨?_, hb1, hb2⟩
      intro c hc
      rw [hnl] at hc
      simpa using List.mem_takeWhile_imp hc
    · rw [hnl]
      exact ⟨fun c hc => absurd hc (List.not_mem_nil c),
        List.not_mem_nil _, List.not_mem_nil _⟩
  have hr5hash : '#' ∉ rest5 := by
    rcases hfrag with ⟨frag, -, -, hh⟩ | ⟨-, he, hh⟩
    · exact hh
    · rw [he]
      exact hh
  have hpq : '#' ∉ parts.path ∧ '?' ∉ parts.path ∧ '#' ∉ parts.query ∧
      ∃ t, rest5 = parts.path ++ t := by
    rcases hquery with ⟨qq, he, hq, hqm⟩ | ⟨hq, he, hqm⟩
    · refine ⟨?_, hqm, ?_, qq.cons '?' , he⟩
      · intro hm
        exact hr5hash (by rw [he]; exact List.mem_append.mpr (Or.inl hm))
      · rw [hq]
        intro hm
        exact hr5hash (by
          rw [he]
          exact List.mem_append.mpr (Or.inr (List.mem_cons_of_mem _ hm)))
    · refine ⟨?_, ?_, ?_, [], by rw [List.append_nil, ← he]⟩
      · rw [he]
        exact hr5hash
      · rw [he]
        exact hqm
      · rw [hq]
        exact List.not_mem_nil _
  have hhead : parts.netloc ≠ [] →
      parts.path = [] ∨ parts.path.take 1 = ['/'] := by
    intro hne
    rcases hnet with ⟨rest, -, -, he4, -, -⟩ | ⟨-, hnl, -⟩
    · cases hpath : parts.path with
      | nil => exact Or.inl rfl
      | cons c t =>
        right
        obtain ⟨t2, ht2⟩ := hpq.2.2.2
        have hu4 : ∃ t3, url4 = c :: t3 := by
          rcases hfrag with ⟨frag, heu, -, -⟩ | ⟨-, heu, -⟩
          · rw [heu, ht2, hpath]
            exact ⟨t ++ t2 ++ '#' :: frag, by simp⟩
          · rw [← heu, ht2, hpath]
            exact ⟨t ++ t2, by simp⟩
        obtain ⟨t3, ht3⟩ := hu4
        rw [he4] at ht3
        have hfalse := dropWhile_head_false ht3
        have hend : isNetlocEnd c = true := by
          cases hend2 : isNetlocEnd c with
          | true => rfl
          | false =>
            rw [show (decide ¬isNetlocEnd c = true) =
              !(isNetlocEnd c) by simp] at hfalse
            rw [hend2] at hfalse
            cases hfalse
        have hc : c = '/' ∨ c = '?' ∨ c = '#' := by
          have := hend
          rw [isNetlocEnd] at this
          simpa using this
        have hcp : c ∈ parts.path := by
          rw [hpath]
          exact List.mem_cons_self _ _
        rcases hc with rfl | rfl | rfl
        · rfl
        · exact absurd hcp hpq.2.1
        · exact absurd hcp hpq.1
    · exact absurd hnl hne
  exact ⟨hscheme, hnetl.1, hnetl.2.1, hnetl.2.2, hpq.1, hpq.2.1,
    hpq.2.2.1, hhead⟩

/-! ### Unfolding `normalizeUrlL` and the YouTube fixpoint -/

theorem except_error_bind {α β : Type} (e : String)
    (f : α → Except String β) :
    ((Except.error e : Except String α) >>= f) = Except.error e := rfl

theorem normalizeUrlL_eq (url0 : List Char) :
    normalizeUrlL url0 =
      (if pyStripList url0 = [] then Except.ok []
       else
         match canonicalizeYoutube (pyStripList url0) with
         | Except.error e => Except.error e
         | Except.ok (some yt) => Except.ok yt
         | Except.ok none =>
           match urlsplitE (pyStripList url0) with
           | Except.error e => Except.error e
           | Except.ok parts =>
             match portOf parts.netloc with
             | Except.error e => Except.error e
             | Except.ok port =>
               Except.ok (urlunsplit (lowerList parts.scheme)
                 (normNetloc (lowerList parts.scheme) parts.netloc port)
                 (normPath parts.path) (normQuery parts.query) [])) := by
  by_cases h0 : pyStripList url0 = []
  · simp only [normalizeUrlL, h0]
    rfl
  · simp only [normalizeUrlL]
    rw [if_neg h0, if_neg h0]
    cases hc : canonicalizeYoutube (pyStripList url0) with
    | error e => rfl
    | ok v =>
      cases v with
      | some yt => rfl
      | none =>
        show (urlsplitE (pyStripList url0) >>= fun parts =>
            portOf parts.netloc >>= fun port =>
            pure (urlunsplit (lowerList parts.scheme)
              (normNetloc (lowerList parts.scheme) parts.netloc port)
              (normPath parts.path) (normQuery parts.query) [])) = _
        cases hs : urlsplitE (pyStripList url0) with
        | error e => rfl
        | ok parts =>
          show (portOf parts.netloc >>= fun port =>
              pure (urlunsplit (lowerList parts.scheme)
                (normNetloc (lowerList parts.scheme) parts.netloc port)
                (normPath parts.path) (normQuery parts.query) [])) =
            match portOf parts.netloc with
            | Except.error e => Except.error e
            | Except.ok port =>
              Except.ok (urlunsplit (lowerList parts.scheme)
                (normNetloc (lowerList parts.scheme) parts.netloc port)
                (normPath parts.path) (normQuery parts.query) [])
          cases hp : portOf parts.netloc with
          | error e => rfl
          | ok port => rfl

theorem canonicalizeYoutube_ok_split {url : List Char}
    {v : Option (List Char)}
    (h : canonicalizeYoutube url = Except.ok v) :
    ∃ parts, urlsplitE (pyStripList url) = Except.ok parts := by
  cases hs : urlsplitE (pyStripList url) with
  | error e =>
    simp only [canonicalizeYoutube, hs, except_error_bind] at h
    exact Except.noConfusion h
  | ok parts => exact ⟨parts, rfl⟩

theorem normalizeUrlL_watch {vid : List Char}
    (hne : vid ≠ []) (hamp : '&' ∉ vid) (hpct : '%' ∉ vid)
    (hplus : '+' ∉ vid) (hhash : '#' ∉ vid)
    (hok : ∀ c ∈ vid, okChar c = true) :
    normalizeUrlL (watchBase.data ++ vid) =
      Except.ok (watchBase.data ++ vid) := by
  have hokall : ∀ c ∈ watchBase.data ++ vid, okChar c = true := by
    intro c hc
    rcases List.mem_append.mp hc with hc | hc
    · exact List.all_eq_true.mp
        (by decide : watchBase.data.all okChar = true) c hc
    · exact hok c hc
  have hstrip : pyStripList (watchBase.data ++ vid) =
      watchBase.data ++ vid :=
    pyStripList_eq_self (fun c hc => okChar_no_pyspace (hokall c hc))
  have hne2 : watchBase.data ++ vid ≠ [] := by
    intro he
    rcases List.append_eq_nil.mp he with ⟨h1, -⟩
    exact (by decide : watchBase.data ≠ []) h1
  rw [normalizeUrlL_eq, hstrip, if_neg hne2,
    canonicalizeYoutube_watch vid hne hamp hpct hplus hhash hok]

/-! ### Character facts for the rebuilt netloc -/

theorem normNetloc_chars (scheme : List Char) {netloc : List Char}
    {port : Option Nat}
    (hpct : '%' ∉ netloc)
    (hport : portOf netloc = Except.ok port) :
    ∀ c ∈ normNetloc scheme netloc port,
      (∃ d ∈ netloc, c = d ∨ c = toLowerAscii d) ∨ c = ':' ∨
      (48 ≤ c.toNat ∧ c.toNat ≤ 57) := by
  have hui : ∀ c ∈ userinfoOf netloc, ∃ d ∈ netloc, c = d := by
    intro c hc
    rcases userinfoOf_shape netloc with he | ⟨w, he, hat, hw, rest, hrest⟩
    · rw [he] at hc
      cases hc
    · rw [he] at hc
      rcases List.mem_append.mp hc with hm | hm
      · exact ⟨c, hw c hm, rfl⟩
      · rw [List.mem_singleton.mp hm]
        exact ⟨'@', by
          rw [hrest]
          exact List.mem_append.mpr (Or.inr (List.mem_cons_self _ _)), rfl⟩
  have hhost : ∀ c ∈ lowerList (hostnameOf netloc),
      ∃ d ∈ netloc, c = toLowerAscii d := by
    intro c hc
    rw [hostnameOf_eq_of_no_pct hpct, lowerList_idem] at hc
    rcases List.mem_map.mp hc with ⟨d, hd, hde⟩
    exact ⟨d, (mem_hostinfo_fst hd).1, hde.symm⟩
  have hboth : ∀ c ∈ userinfoOf netloc ++ lowerList (hostnameOf netloc),
      (∃ d ∈ netloc, c = d ∨ c = toLowerAscii d) := by
    intro c hc
    rcases List.mem_append.mp hc with hm | hm
    · obtain ⟨d, hd, he⟩ := hui c hm
      exact ⟨d, hd, Or.inl he⟩
    · obtain ⟨d, hd, he⟩ := hhost c hm
      exact ⟨d, hd, Or.inr he⟩
  intro c hc
  cases port with
  | none =>
    rw [normNetloc_none] at hc
    exact Or.inl (hboth c hc)
  | some p =>
    by_cases hdef : (scheme = httpsScheme ∧ p = 443) ∨
        (scheme = httpScheme ∧ p = 80)
    · rw [normNetloc_some_default _ _ _ hdef] at hc
      exact Or.inl (hboth c hc)
    · rw [normNetloc_some_port _ _ _ hdef] at hc
      rcases List.mem_append.mp hc with hm | hm
      · exact Or.inl (hboth c hm)
      · rcases List.mem_cons.mp hm with rfl | hm2
        · exact Or.inr (Or.inl rfl)
        · have h65 := portOf_ok_le hport
          obtain ⟨-, -, hdig⟩ := natToDigits_spec h65
          exact Or.inr (Or.inr (isAsciiDigit_iff.mp (hdig c hm2)))

theorem normNetloc_facts (scheme : List Char) {netloc : List Char}
    {port : Option Nat}
    (hpct : '%' ∉ netloc)
    (hport : portOf netloc = Except.ok port)
    (hok : ∀ c ∈ netloc, okChar c = true)
    (hend : ∀ c ∈ netloc, (¬isNetlocEnd c : Bool) = true)
    (hb1 : '[' ∉ netloc) (hb2 : ']' ∉ netloc) :
    ∀ c ∈ normNetloc scheme netloc port,
      okChar c = true ∧ (¬isNetlocEnd c : Bool) = true ∧
      ¬c = '[' ∧ ¬c = ']' := by
  intro c hc
  rcases normNetloc_chars scheme hpct hport c hc with
    ⟨d, hd, he | he⟩ | rfl | ⟨h1, h2⟩
  · rw [he]
    exact ⟨hok d hd, hend d hd, fun h2 => hb1 (h2 ▸ hd),
      fun h2 => hb2 (h2 ▸ hd)⟩
  · rw [he]
    refine ⟨toLowerAscii_okChar (hok d hd), ?_, ?_, ?_⟩
    · have hde := hend d hd
      simp only [decide_eq_true_eq] at hde ⊢
      intro hce
      apply hde
      rw [isNetlocEnd] at hce ⊢
      simp only [Bool.or_eq_true, decide_eq_true_eq] at hce ⊢
      rcases hce with he | he | he
      · exact Or.inl (toLowerAscii_eq_nonletter (by decide) he)
      · exact Or.inr (Or.inl (toLowerAscii_eq_nonletter (by decide) he))
      · exact Or.inr (Or.inr (toLowerAscii_eq_nonletter (by decide) he))
    · intro he
      exact hb1 (toLowerAscii_eq_nonletter (by decide) he ▸ hd)
    · intro he
      exact hb2 (toLowerAscii_eq_nonletter (by decide) he ▸ hd)
  · exact ⟨by decide, by decide, by decide, by decide⟩
  · refine ⟨?_, ?_, ?_, ?_⟩
    · rw [okChar]
      simp only [Bool.and_eq_true, decide_eq_true_eq]
      omega
    · simp only [decide_eq_true_eq]
      intro hce
      rw [isNetlocEnd] at hce
      simp only [Bool.or_eq_true, decide_eq_true_eq] at hce
      rcases hce with he | he | he <;> rw [he] at h1 h2
      · exact absurd h1 (by decide)
      · exact absurd h2 (by decide)
      · exact absurd h1 (by decide)
    · intro he
      rw [he] at h1 h2
      exact absurd h2 (by decide)
    · intro he
      rw [he] at h1 h2
      exact absurd h2 (by decide)

/-! ### Second-pass YouTube detection -/

theorem rstripSlashes_isPrefix (l : List Char) : rstripSlashes l <+: l := by
  rcases rstripSlashes_spec l with ⟨k, hk⟩
  exact ⟨List.replicate k '/', hk.symm⟩

theorem prefix_head {a l t : List Char} {c : Char} (hp : a <+: l)
    (hl : l = c :: t) (ha : a ≠ []) : ∃ w, a = c :: w := by
  obtain ⟨u, hu⟩ := hp
  cases a with
  | nil => exact absurd rfl ha
  | cons d w =>
    rw [hl, List.cons_append] at hu
    injection hu with h1 _
    exact ⟨w, by rw [h1]⟩

theorem splitAll_head_ne {sep c : Char} (t : List Char) (hc : ¬c = sep) :
    ∃ hh r, splitAll sep (c :: t) = (c :: hh) :: r := by
  cases h : splitAll sep t with
  | nil => exact absurd h (splitAll_ne_nil sep t)
  | cons hh r =>
    refine ⟨hh, r, ?_⟩
    rw [splitAll, h]
    simp [hc]

theorem stripSlashes_head {l : List Char} (h : stripSlashes l ≠ []) :
    ∃ c t, stripSlashes l = c :: t ∧ ¬c = '/' := by
  have hd : stripSlashes l =
      rstripSlashes (l.dropWhile (fun c => decide (c = '/'))) := rfl
  rw [hd] at h ⊢
  cases hcu : l.dropWhile (fun c => decide (c = '/')) with
  | nil =>
    rw [hcu] at h
    exact absurd rfl h
  | cons c t =>
    rw [hcu] at h
    have hc : decide (c = '/') = false := dropWhile_head_false hcu
    obtain ⟨w, hw⟩ := prefix_head (rstripSlashes_isPrefix (c :: t)) rfl h
    exact ⟨c, w, hw, by simpa using hc⟩

theorem splitAll_shorts (t : List Char) :
    splitAll '/' (shortsSlash ++ t) =
      [] :: ['s', 'h', 'o', 'r', 't', 's'] :: splitAll '/' t := by
  have h1 : shortsSlash ++ t =
      '/' :: (['s', 'h', 'o', 'r', 't', 's'] ++ '/' :: t) := rfl
  rw [h1, splitAll_cons_sep, splitAll_append t (by decide)]

theorem get2_eq {α : Type} {L : List α} {a b v : α} {r : List α}
    (hL : L = a :: b :: v :: r) (h : 2 < L.length) :
    L.get ⟨2, h⟩ = v := by
  subst hL
  rfl

theorem ytVideoId_pass2 {host path query : List Char}
    (hyt1 : ytVideoId host path query = none ∨
      ytVideoId host path query = some [])
    (hp_ne : normPath path ≠ [])
    (hpct : '%' ∉ query) (hplus : '+' ∉ query)
    (hqok : ∀ c ∈ query, okChar c = true)
    (hvcount : rstripSlashes path = watchPath →
      (parseQsl query).countP (fun r => decide (r.1 = ['v'])) ≤ 1) :
    ytVideoId host (normPath path) (normQuery query) = none ∨
      ytVideoId host (normPath path) (normQuery query) = some [] := by
  by_cases h1 : host =
      ('y' :: 'o' :: 'u' :: 't' :: 'u' :: '.' :: 'b' :: 'e' :: [])
  · simp only [ytVideoId, if_pos h1] at hyt1 ⊢
    by_cases hsp : stripSlashes path = []
    · have hnp : normPath path = ['/'] := by
        rcases normPath_cases path with hc | hc
        · exact hc
        · rw [hc] at hp_ne
          exact absurd (rstrip_nil_of_all (stripSlashes_nil_all hsp)) hp_ne
      rw [hnp, if_neg (by decide : ¬(stripSlashes ['/'] ≠ []))]
      exact Or.inl rfl
    · exfalso
      rw [if_pos hsp] at hyt1
      obtain ⟨c, t, hct, hc⟩ := stripSlashes_head hsp
      obtain ⟨hh, r, hsa⟩ := splitAll_head_ne t hc
      rw [hct, hsa] at hyt1
      simp only [List.headD_cons] at hyt1
      rcases hyt1 with he | he
      · exact Option.noConfusion he
      · exact List.noConfusion (Option.some.inj he)
  · simp only [ytVideoId, if_neg h1] at hyt1 ⊢
    by_cases h2 : rstripSlashes path = watchPath
    · rw [if_pos h2] at hyt1
      have hnp : normPath path = watchPath := by
        have hne : path ≠ [] := by
          intro he
          rw [he] at h2
          exact (by decide : ¬rstripSlashes ([] : List Char) = watchPath) h2
        have hne2 : path ≠ ['/'] := by
          intro he
          rw [he] at h2
          exact (by decide : ¬rstripSlashes ['/'] = watchPath) h2
        rw [normPath_of_ne hne hne2, h2]
      rw [hnp, if_pos (by decide : rstripSlashes watchPath = watchPath)]
      have hclean := normQuery_pairs_clean hpct hplus
      have hP2 : parseQsl (normQuery query) =
          sortPairs (dropTrackingParams (parseQsl query)) :=
        parseQsl_joinPairs (fun p hp => (hclean p hp).1)
      rw [hP2]
      have hmem_keys :
          ∀ p ∈ sortPairs (dropTrackingParams (parseQsl query)),
          ∃ r ∈ parseQsl query, p.1 = r.1 ∧ p.2 = r.2 := by
        intro p hp
        obtain ⟨r, hr, hpe, -⟩ := mem_dropTracking (mem_sortPairs hp)
        refine ⟨r, hr, ?_, by rw [hpe]⟩
        rw [hpe]
        show pyStripList r.1 = r.1
        apply pyStripList_eq_self
        intro c hc
        exact okChar_no_pyspace
          (hqok c ((parseQsl_mem_spec hpct hplus r hr).1 c hc))
      cases hd : qslDictGet (parseQsl query) ['v'] with
      | none =>
        have hnone : qslDictGet
            (sortPairs (dropTrackingParams (parseQsl query))) ['v'] =
            none := by
          apply qslDictGet_none
          intro p hp hpk
          obtain ⟨r, hr, hk, -⟩ := hmem_keys p hp
          exact qslDictGet_none_spec hd r hr (by rw [← hk, hpk])
        rw [hnone]
        exact Or.inl rfl
      | some v =>
        rw [hd] at hyt1
        by_cases hv : v = []
        · subst hv
          have hmem0 : (['v'], ([] : List Char)) ∈ parseQsl query :=
            qslDictGet_mem hd
          have huniq : ∀ p ∈ parseQsl query, p.1 = ['v'] → p.2 = [] := by
            intro p hp hpk
            by_contra hne
            have hpne : p ≠ (['v'], []) := by
              intro he
              rw [he] at hne
              exact hne rfl
            have h2c := two_mem_countP (P := fun r => decide (r.1 = ['v']))
              hp hmem0 hpne (by simpa using hpk) (by decide)
            have h1c := hvcount h2
            omega
          have hall2 :
              ∀ p ∈ sortPairs (dropTrackingParams (parseQsl query)),
              p.1 = ['v'] → p.2 = [] := by
            intro p hp hpk
            obtain ⟨r, hr, hk1, hk2⟩ := hmem_keys p hp
            rw [hk2]
            exact huniq r hr (by rw [← hk1, hpk])
          cases hd2 : qslDictGet
              (sortPairs (dropTrackingParams (parseQsl query))) ['v'] with
          | none => exact Or.inl rfl
          | some w =>
            have hw : w = [] := hall2 _ (qslDictGet_mem hd2) rfl
            subst hw
            exact Or.inl rfl
        · exfalso
          have hyt2 : (if v ≠ [] then some v else none) =
              (none : Option (List Char)) ∨
              (if v ≠ [] then some v else none) =
                some ([] : List Char) := hyt1
          rw [if_pos hv] at hyt2
          rcases hyt2 with he | he
          · exact absurd he (by simp)
          · exact absurd (Option.some.inj he) hv
    · rw [if_neg h2] at hyt1
      by_cases h3 : (shortsSlash.isPrefixOf path : Bool)
      · rw [if_pos (by simpa using h3)] at hyt1
        obtain ⟨t, ht⟩ := List.isPrefixOf_iff_prefix.mp h3
        have hsegs1 : splitAll '/' path =
            [] :: ['s', 'h', 'o', 'r', 't', 's'] :: splitAll '/' t := by
          rw [← ht, splitAll_shorts]
        have hpos : 0 < (splitAll '/' t).length :=
          List.length_pos.mpr (splitAll_ne_nil '/' t)
        have hlen1 : 2 < (splitAll '/' path).length := by
          rw [hsegs1]
          simp only [List.length_cons]
          omega
        rw [dif_pos hlen1] at hyt1
        cases hsp2 : splitAll '/' t with
        | nil => exact absurd hsp2 (splitAll_ne_nil '/' t)
        | cons l0 lr =>
          have hL : splitAll '/' path =
              [] :: ['s', 'h', 'o', 'r', 't', 's'] :: l0 :: lr := by
            rw [hsegs1, hsp2]
          rw [get2_eq hL hlen1] at hyt1
          have hl0 : l0 = [] := by
            rcases hyt1 with he | he
            · exact absurd he (by simp)
            · exact Option.some.inj he
          have hT : t = [] ∨ ∃ t2, t = '/' :: t2 := by
            cases t with
            | nil => exact Or.inl rfl
            | cons c t2 =>
              by_cases hc : c = '/'
              · exact Or.inr ⟨t2, by rw [hc]⟩
              · exfalso
                obtain ⟨hh, r2, hsa⟩ := splitAll_head_ne t2 hc
                rw [hsa] at hsp2
                injection hsp2 with he1 _
                rw [hl0] at he1
                exact List.noConfusion he1
          have hpath_ne : path ≠ [] := by
            rw [← ht]
            intro he
            rcases List.append_eq_nil.mp he with ⟨he1, -⟩
            exact (by decide : shortsSlash ≠ []) he1
          have hpath_ne2 : path ≠ ['/'] := by
            rw [← ht]
            intro he
            have hlen := congrArg List.length he
            rw [List.length_append] at hlen
            have h8 : shortsSlash.length = 8 := by decide
            have h9 : (['/'] : List Char).length = 1 := rfl
            rw [h8, h9] at hlen
            omega
          rw [normPath_of_ne hpath_ne hpath_ne2]
          by_cases hall : ∀ c ∈ t, c = '/'
          · have hp2e : rstripSlashes path =
                ['/', 's', 'h', 'o', 'r', 't', 's'] := by
              rw [← ht, rstripSlashes_append_all shortsSlash hall]
              decide
            rw [hp2e,
              if_neg (by decide :
                ¬rstripSlashes ['/', 's', 'h', 'o', 'r', 't', 's'] =
                  watchPath),
              if_neg (by decide :
                ¬(shortsSlash.isPrefixOf
                  ['/', 's', 'h', 'o', 'r', 't', 's'] = true))]
            exact Or.inl rfl
          · push_neg at hall
            obtain ⟨c0, hc0, hc0ne⟩ := hall
            have hrne : rstripSlashes t ≠ [] := by
              intro he
              rcases rstripSlashes_spec t with ⟨k, hk⟩
              rw [he, List.nil_append] at hk
              rw [hk] at hc0
              exact hc0ne (List.eq_of_mem_replicate hc0)
            have hp2 : rstripSlashes path =
                shortsSlash ++ rstripSlashes t := by
              rw [← ht]
              exact rstripSlashes_append shortsSlash ⟨c0, hc0, hc0ne⟩
            have ht2 : ∃ t2, t = '/' :: t2 := by
              rcases hT with he | he
              · rw [he] at hc0
                cases hc0
              · exact he
            obtain ⟨t2, ht2e⟩ := ht2
            obtain ⟨w, hwe⟩ :=
              prefix_head (rstripSlashes_isPrefix t) ht2e hrne
            rw [hp2, hwe]
            have hidem : rstripSlashes (shortsSlash ++ '/' :: w) =
                shortsSlash ++ '/' :: w := by
              have hi := rstripSlashes_idem path
              rw [hp2, hwe] at hi
              exact hi
            have hne_watch :
                ¬rstripSlashes (shortsSlash ++ '/' :: w) = watchPath := by
              rw [hidem]
              intro he
              have he2 : ('/' :: 's' ::
                  (['h', 'o', 'r', 't', 's', '/'] ++ '/' :: w)) =
                  '/' :: 'w' :: ['a', 't', 'c', 'h'] := he
              injection he2 with _ he3
              injection he3 with h5 _
              exact absurd h5 (by decide)
            rw [if_neg hne_watch]
            have hpre2 : shortsSlash.isPrefixOf
                (shortsSlash ++ '/' :: w) = true :=
              List.isPrefixOf_iff_prefix.mpr ⟨'/' :: w, rfl⟩
            rw [if_pos hpre2]
            have hsegs2 : splitAll '/' (shortsSlash ++ '/' :: w) =
                [] :: ['s', 'h', 'o', 'r', 't', 's'] :: [] ::
                  splitAll '/' w := by
              rw [splitAll_shorts, splitAll_cons_sep]
            have hlen2 :
                2 < (splitAll '/' (shortsSlash ++ '/' :: w)).length := by
              rw [hsegs2]
              simp
            rw [dif_pos hlen2, get2_eq hsegs2 hlen2]
            exact Or.inr rfl
      · rcases normPath_cases path with hc | hc
        · rw [hc,
            if_neg (by decide : ¬rstripSlashes ['/'] = watchPath),
            if_neg (by decide : ¬(shortsSlash.isPrefixOf ['/'] = true))]
          exact Or.inl rfl
        · rw [hc, if_neg (by rw [rstripSlashes_idem]; exact h2)]
          have hnpre :
              ¬(shortsSlash.isPrefixOf (rstripSlashes path) = true) := by
            intro hp
            exact h3 (List.isPrefixOf_iff_prefix.mpr
              ((List.isPrefixOf_iff_prefix.mp hp).trans
                (rstripSlashes_isPrefix path)))
          rw [if_neg hnpre]
          exact Or.inl rfl

/-! ### The generic branch round trip -/

theorem normalizeUrlL_generic_eval {u : List Char}
    {parts2 : UrlSplitResult} {port2 : Option Nat}
    (hstrip : pyStripList u = u) (hne : u ≠ [])
    (hyt : canonicalizeYoutube u = Except.ok none)
    (hsp : urlsplitE u = Except.ok parts2)
    (hpt : portOf parts2.netloc = Except.ok port2) :
    normalizeUrlL u = Except.ok (urlunsplit (lowerList parts2.scheme)
      (normNetloc (lowerList parts2.scheme) parts2.netloc port2)
      (normPath parts2.path) (normQuery parts2.query) []) := by
  rw [normalizeUrlL_eq, hstrip, if_neg hne, hyt]
  show (match urlsplitE u with
    | Except.error e => Except.error e
    | Except.ok parts =>
      match portOf parts.netloc with
      | Except.error e => Except.error e
      | Except.ok port3 =>
        Except.ok (urlunsplit (lowerList parts.scheme)
          (normNetloc (lowerList parts.scheme) parts.netloc port3)
          (normPath parts.path) (normQuery parts.query) [])) = _
  rw [hsp]
  show (match portOf parts2.netloc with
    | Except.error e => Except.error e
    | Except.ok port3 =>
      Except.ok (urlunsplit (lowerList parts2.scheme)
        (normNetloc (lowerList parts2.scheme) parts2.netloc port3)
        (normPath parts2.path) (normQuery parts2.query) [])) = _
  rw [hpt]

theorem generic_roundtrip {x : List Char} {parts : UrlSplitResult}
    {port : Option Nat}
    (hokx : ∀ c ∈ x, urlOkChar c = true)
    (hsplit : urlsplitE x = Except.ok parts)
    (hport : portOf parts.netloc = Except.ok port)
    (hytx : canonicalizeYoutube x = Except.ok none)
    (hp_ne : normPath parts.path ≠ [])
    (hslash : normNetloc (lowerList parts.scheme) parts.netloc port ≠ [] ∨
      (normPath parts.path).take 2 ≠ ['/', '/'])
    (hsf : lowerList parts.scheme = [] →
      schemeFailB (urlunsplit (lowerList parts.scheme)
        (normNetloc (lowerList parts.scheme) parts.netloc port)
        (normPath parts.path) (normQuery parts.query) []) = true)
    (hvcount : rstripSlashes parts.path = watchPath →
      (parseQsl parts.query).countP (fun r => decide (r.1 = ['v'])) ≤ 1) :
    normalizeUrlL (urlunsplit (lowerList parts.scheme)
      (normNetloc (lowerList parts.scheme) parts.netloc port)
      (normPath parts.path) (normQuery parts.query) []) =
    Except.ok (urlunsplit (lowerList parts.scheme)
      (normNetloc (lowerList parts.scheme) parts.netloc port)
      (normPath parts.path) (normQuery parts.query) []) := by
  have hokc : ∀ c ∈ x, okChar c = true :=
    fun c hc => (urlOkChar_spec (hokx c hc)).1
  have hpctx : '%' ∉ x := fun hm => (urlOkChar_spec (hokx _ hm)).2.1 rfl
  have hplusx : '+' ∉ x := fun hm => (urlOkChar_spec (hokx _ hm)).2.2.1 rfl
  have hid : removeUnsafe (x.dropWhile isC0OrSpace) = x := by
    rw [dropWhile_c0_eq_self hokc]
    exact removeUnsafe_eq_self hokc
  obtain ⟨Hs0, hend_net, hbr1, hbr2, hhash_p0, hqm_p0, hhash_q0, hheadp⟩ :=
    parse_facts hokc hsplit
  obtain ⟨hsch_map, hnet_sub, hpath_sub, hq_sub⟩ := urlsplitE_sub hsplit hid
  set s' := lowerList parts.scheme with hsdef
  set n' := normNetloc s' parts.netloc port with hndef
  set p' := normPath parts.path with hpdef
  set q' := normQuery parts.query with hqdef
  set y := urlunsplit s' n' p' q' [] with hydef
  have hs'eq : s' = parts.scheme := by
    rcases Hs0 with h0 | ⟨-, -, -, h4⟩
    · rw [hsdef, h0]
      rfl
    · rw [hsdef]
      exact h4
  have Hs : s' = [] ∨ (headIsAlpha s' = true ∧
      s'.all isSchemeChar = true ∧ ':' ∉ s') := by
    rcases Hs0 with h0 | ⟨h1, h2, h3, -⟩
    · exact Or.inl (by rw [hs'eq, h0])
    · exact Or.inr (by rw [hs'eq]; exact ⟨h1, h2, h3⟩)
  have hlow : lowerList s' = s' := by
    rw [hsdef, lowerList_idem]
  have hok_s : ∀ c ∈ s', okChar c = true := by
    intro c hc
    rw [hsdef] at hc
    rcases List.mem_map.mp hc with ⟨d, hd, hde⟩
    rcases hsch_map d hd with ⟨e, he, hdee⟩
    rw [← hde, hdee]
    exact toLowerAscii_okChar (toLowerAscii_okChar (hokc e he))
  have hpct_net : '%' ∉ parts.netloc := fun hm => hpctx (hnet_sub _ hm)
  have hok_net : ∀ c ∈ parts.netloc, okChar c = true :=
    fun c hc => hokc c (hnet_sub c hc)
  have hnfacts := normNetloc_facts s' hpct_net hport hok_net hend_net
    hbr1 hbr2
  have hok_n : ∀ c ∈ n', okChar c = true := fun c hc => (hnfacts c hc).1
  have hend_n : ∀ c ∈ n', (¬isNetlocEnd c : Bool) = true :=
    fun c hc => (hnfacts c hc).2.1
  have hbr1_n : '[' ∉ n' := fun hm => (hnfacts _ hm).2.2.1 rfl
  have hbr2_n : ']' ∉ n' := fun hm => (hnfacts _ hm).2.2.2 rfl
  have hok_p : ∀ c ∈ p', okChar c = true := by
    intro c hc
    rcases mem_normPath hc with hm | rfl
    · exact hokc c (hpath_sub c hm)
    · decide
  have hp_hash : '#' ∉ p' := by
    intro hm
    rcases mem_normPath hm with hm2 | he
    · exact hhash_p0 hm2
    · cases he
  have hp_qm : '?' ∉ p' := by
    intro hm
    rcases mem_normPath hm with hm2 | he
    · exact hqm_p0 hm2
    · cases he
  have hpct_q : '%' ∉ parts.query := fun hm => hpctx (hq_sub _ hm)
  have hplus_q : '+' ∉ parts.query := fun hm => hplusx (hq_sub _ hm)
  have hok_q0 : ∀ c ∈ parts.query, okChar c = true :=
    fun c hc => hokc c (hq_sub c hc)
  have hok_q : ∀ c ∈ q', okChar c = true := by
    intro c hc
    rcases mem_normQuery hpct_q hplus_q hc with hm | rfl | rfl
    · exact hok_q0 c hm
    · decide
    · decide
  have hq_hash : '#' ∉ q' := by
    intro hm
    rcases mem_normQuery hpct_q hplus_q hm with hm2 | he | he
    · exact hhash_q0 hm2
    · cases he
    · cases he
  have hok_y : ∀ c ∈ y, okChar c = true := by
    intro c hc
    rw [hydef] at hc
    rcases mem_urlunsplit hc with h | h | h | h | rfl | rfl | rfl
    · exact hok_s c h
    · exact hok_n c h
    · exact hok_p c h
    · exact hok_q c h
    · decide
    · decide
    · decide
  have hstrip_y : pyStripList y = y :=
    pyStripList_eq_self (fun c hc => okChar_no_pyspace (hok_y c hc))
  have hnq : normQuery q' = q' := normQuery_stable hpct_q hplus_q
  have hnp_st : normPath p' = p' := normPath_stable hp_ne
  have hstable := normNetloc_stable s' hpct_net hport
  have hhost2 : lowerList (hostnameOf n') = lowerList (hostnameOf parts.netloc) :=
    hstable.1
  obtain ⟨port2, hport2, hnn_idem⟩ := hstable.2
  have hstrip_x : pyStripList x = x :=
    pyStripList_eq_self (fun c hc => okChar_no_pyspace (hokc c hc))
  have hsplitx : urlsplitE (pyStripList x) = Except.ok parts := by
    rw [hstrip_x]
    exact hsplit
  have hD : ¬isYtHost (lowerList (hostnameOf parts.netloc)) = true ∨
      ytVideoId (lowerList (hostnameOf parts.netloc)) parts.path
        parts.query = none ∨
      ytVideoId (lowerList (hostnameOf parts.netloc)) parts.path
        parts.query = some [] := by
    rcases canonicalizeYoutube_cases hsplitx hytx with ⟨-, hD⟩ |
      ⟨vid, -, -, -, hv⟩
    · exact hD
    · exact Option.noConfusion hv
  by_cases hA : n' ≠ [] ∨ (s' ≠ [] ∧
      usesNetloc.contains (String.mk s') = true ∧ p'.take 2 ≠ ['/', '/'])
  · -- netloc-rebuild branch
    have hsplit2 := pass2_split_A hA Hs hlow hok_y hend_n hbr1_n hbr2_n
      hp_ne hp_hash hp_qm hq_hash
    rw [← hydef] at hsplit2
    set pp := (if p' ≠ [] ∧ p'.take 1 ≠ ['/'] then '/' :: p' else p')
      with hppdef
    have hpp_ne : pp ≠ [] := by
      rw [hppdef]
      by_cases hcond : p' ≠ [] ∧ p'.take 1 ≠ ['/']
      · rw [if_pos hcond]
        exact fun he => List.noConfusion he
      · rw [if_neg hcond]
        exact hp_ne
    have hy_ne : y ≠ [] := by
      intro he
      rw [he] at hsplit2
      rw [show urlsplitE [] = Except.ok ⟨[], [], [], [], []⟩ from rfl]
        at hsplit2
      injection hsplit2 with h1
      injection h1 with e1 e2 e3 e4 e5
      exact hpp_ne e3.symm
    have hsplit2' : urlsplitE (pyStripList y) =
        Except.ok ⟨s', n', pp, q', []⟩ := by
      rw [hstrip_y]
      exact hsplit2
    have hnp2 : normPath pp = pp := by
      rw [hppdef]
      by_cases hcond : p' ≠ [] ∧ p'.take 1 ≠ ['/']
      · rw [if_pos hcond]
        have hp'r : p' = rstripSlashes parts.path := by
          rcases normPath_cases parts.path with hc | hc
          · exfalso
            apply hcond.2
            rw [show p' = ['/'] from hc]
            rfl
          · exact hc
        have hrst : rstripSlashes p' = p' := by
          rw [hp'r, rstripSlashes_idem]
        have hex : ∃ c ∈ p', ¬c = '/' := by
          by_contra hno
          push_neg at hno
          have h0 := rstrip_nil_of_all hno
          rw [hrst] at h0
          exact hp_ne h0
        have h1 : normPath ('/' :: p') = rstripSlashes ('/' :: p') := by
          apply normPath_of_ne
          · intro he
            exact List.noConfusion he
          · intro he
            injection he with _ h2
            exact hp_ne h2
        rw [h1, show ('/' :: p') = ['/'] ++ p' from rfl,
          rstripSlashes_append ['/'] hex, hrst]
      · rw [if_neg hcond]
        exact hnp_st
    have hyt_y : canonicalizeYoutube y = Except.ok none := by
      have hce := canonicalizeYoutube_eq hsplit2'
      rw [show (UrlSplitResult.mk s' n' pp q' []).netloc = n' from rfl,
        show (UrlSplitResult.mk s' n' pp q' []).path = pp from rfl,
        show (UrlSplitResult.mk s' n' pp q' []).query = q' from rfl] at hce
      rw [hce, hhost2]
      by_cases hyth : isYtHost (lowerList (hostnameOf parts.netloc)) = true
      · rw [if_neg (by simpa using hyth)]
        have hnl_ne : parts.netloc ≠ [] := by
          intro he
          rw [he] at hyth
          exact (by decide :
            ¬isYtHost (lowerList (hostnameOf ([] : List Char))) = true) hyth
        have hpphead : pp = p' := by
          rw [hppdef]
          apply if_neg
          intro hcc
          apply hcc.2
          rcases hheadp hnl_ne with hp0 | hp0
          · have hpe : p' = ['/'] := by
              rw [hpdef, hp0]
              exact normPath_nil
            rw [hpe]
            rfl
          · obtain ⟨pt, hpt⟩ : ∃ pt, parts.path = '/' :: pt := by
              cases hph : parts.path with
              | nil =>
                rw [hph] at hp0
                exact absurd hp0 (by decide)
              | cons a t =>
                rw [hph] at hp0
                have ha : a = '/' := by
                  have h3 : [a] = ['/'] := hp0
                  exact (List.cons_eq_cons.mp h3).1
                exact ⟨t, by rw [ha]⟩
            rcases normPath_cases parts.path with hc | hc
            · rw [show p' = ['/'] from hc]
              rfl
            · obtain ⟨w, hwe⟩ := prefix_head
                (rstripSlashes_isPrefix parts.path) hpt
                (by rw [← hc]; exact hp_ne)
              rw [show p' = rstripSlashes parts.path from hc, hwe]
              rfl
        rw [hpphead]
        have hyt1 : ytVideoId (lowerList (hostnameOf parts.netloc))
            parts.path parts.query = none ∨
            ytVideoId (lowerList (hostnameOf parts.netloc)) parts.path
              parts.query = some [] := by
          rcases hD with h | h | h
          · exact absurd hyth h
          · exact Or.inl h
          · exact Or.inr h
        have hyt2 := ytVideoId_pass2 hyt1 hp_ne hpct_q hplus_q hok_q0
          hvcount
        rw [← hpdef, ← hqdef] at hyt2
        rcases hyt2 with h2 | h2
        · rw [h2]
        · rw [h2]
          rfl
      · rw [if_pos (by simpa using hyth)]
    -- final evaluation of the second pass
    have hport2' : portOf (UrlSplitResult.mk s' n' pp q' []).netloc =
        Except.ok port2 := hport2
    have hfin := normalizeUrlL_generic_eval hstrip_y hy_ne hyt_y hsplit2
      hport2'
    rw [hfin]
    show Except.ok (urlunsplit (lowerList s')
      (normNetloc (lowerList s') n' port2)
      (normPath pp) (normQuery q') []) = Except.ok y
    rw [hlow, hnn_idem, hnp2, hnq]
    -- urlunsplit s' n' pp q' [] = y
    by_cases hcond : p' ≠ [] ∧ p'.take 1 ≠ ['/']
    · have hppe : pp = '/' :: p' := by
        rw [hppdef, if_pos hcond]
      have htk : pp.take 2 ≠ ['/', '/'] := by
        rw [hppe]
        intro he
        have he2 : '/' :: p'.take 1 = ['/', '/'] := he
        injection he2 with _ h3
        exact hcond.2 h3
      have hA2 : n' ≠ [] ∨ (s' ≠ [] ∧
          usesNetloc.contains (String.mk s') = true ∧
          pp.take 2 ≠ ['/', '/']) := by
        rcases hA with h | ⟨h1, h2, -⟩
        · exact Or.inl h
        · exact Or.inr ⟨h1, h2, htk⟩
      rw [hydef, urlunsplit_of_cond s' n' pp q' hA2,
        urlunsplit_of_cond s' n' p' q' hA]
      have e1 : (if pp ≠ [] ∧ pp.take 1 ≠ ['/'] then '/' :: pp else pp) =
          pp := by
        apply if_neg
        intro hcc
        apply hcc.2
        rw [hppe]
        rfl
      have e2 : (if p' ≠ [] ∧ p'.take 1 ≠ ['/'] then '/' :: p' else p') =
          '/' :: p' := if_pos hcond
      rw [e1, e2, hppe]
    · have hppe : pp = p' := by
        rw [hppdef, if_neg hcond]
      rw [hppe]
  · -- no-netloc branch
    have hn0 : n' = [] := by
      by_contra h
      exact hA (Or.inl h)
    have h6b : p'.take 2 ≠ ['/', '/'] := by
      rcases hslash with h | h
      · exact absurd (Or.inl h) hA
      · exact h
    have hsfail : s' = [] → schemeFail y := fun h0 =>
      schemeFailB_spec (hsf h0)
    have hsplit2 := pass2_split_notA hA h6b Hs hlow hok_y hp_ne hp_hash
      hp_qm hq_hash hsfail
    rw [← hydef] at hsplit2
    have hy_ne : y ≠ [] := by
      intro he
      rw [he] at hsplit2
      rw [show urlsplitE [] = Except.ok ⟨[], [], [], [], []⟩ from rfl]
        at hsplit2
      injection hsplit2 with h1
      injection h1 with e1 e2 e3 e4 e5
      exact hp_ne e3.symm
    have hsplit2' : urlsplitE (pyStripList y) =
        Except.ok ⟨s', [], p', q', []⟩ := by
      rw [hstrip_y]
      exact hsplit2
    have hyt_y : canonicalizeYoutube y = Except.ok none := by
      have hce := canonicalizeYoutube_eq hsplit2'
      rw [show (UrlSplitResult.mk s' [] p' q' []).netloc = ([] : List Char)
        from rfl] at hce
      rw [hce]
      rw [if_pos (by decide :
        ¬isYtHost (lowerList (hostnameOf ([] : List Char))) = true)]
    have hport2' : portOf (UrlSplitResult.mk s' [] p' q' []).netloc =
        Except.ok none := rfl
    have hfin := normalizeUrlL_generic_eval hstrip_y hy_ne hyt_y hsplit2
      hport2'
    rw [hfin]
    show Except.ok (urlunsplit (lowerList s')
      (normNetloc (lowerList s') ([] : List Char) none)
      (normPath p') (normQuery q') []) = Except.ok y
    rw [hlow, hnp_st, hnq]
    rw [show normNetloc s' ([] : List Char) none = ([] : List Char)
      from rfl]
    rw [hydef, hn0]

/-! ### The idempotence guard and the amended C4 theorem -/

theorem normalizeUrlL_nil : normalizeUrlL [] = Except.ok [] := rfl

/-- Sufficient conditions on the generic (non-YouTube) branch. -/
def c4GenericSafe (x : List Char) : Bool :=
  match urlsplitE x with
  | Except.error _ => true
  | Except.ok parts =>
    match portOf parts.netloc with
    | Except.error _ => true
    | Except.ok port =>
      decide (normPath parts.path ≠ []) &&
      decide (normNetloc (lowerList parts.scheme) parts.netloc port ≠ [] ∨
        (normPath parts.path).take 2 ≠ ['/', '/']) &&
      decide (lowerList parts.scheme = [] →
        schemeFailB (urlunsplit (lowerList parts.scheme)
          (normNetloc (lowerList parts.scheme) parts.netloc port)
          (normPath parts.path) (normQuery parts.query) []) = true) &&
      decide (rstripSlashes parts.path = watchPath →
        (parseQsl parts.query).countP
          (fun r => decide (r.1 = ['v'])) ≤ 1)

/-- Sufficient conditions for `normalize_url` to be idempotent at `x`:
printable non-space ASCII free of `%`, `+` and `[`, and (computing the
first pass) a nonempty normalized path, no `//`-headed path with empty
netloc, a reparsable scheme, at most one `v` key on a YouTube watch
URL, and no `&` inside a canonical YouTube video id. -/
def c4Safe (x : List Char) : Bool :=
  x.all urlOkChar &&
  (match canonicalizeYoutube x with
   | Except.error _ => true
   | Except.ok (some u) => decide ('&' ∉ u)
   | Except.ok none => c4GenericSafe x)

/-- C4 (amended): `normalize` is idempotent on every input satisfying the
decidable guard `c4Safe` (printable non-space ASCII without `%`, `+` or
`[`; nonempty normalized path; no `//`-headed path alongside an empty
netloc; a reparsable scheme; at most one `v` key on a YouTube watch URL;
no `&` in a canonical YouTube video id): if a first pass maps `x` to
`y`, a second pass maps `y` to itself.  Unconditional idempotence is
refuted by `wmt_c4_counterexample`. -/
theorem wmt_c4_normalize_idempotent_amended {x y : List Char}
    (hsafe : c4Safe x = true)
    (h : normalizeUrlL x = Except.ok y) :
    normalizeUrlL y = Except.ok y := by
  rw [c4Safe, Bool.and_eq_true] at hsafe
  have hall := hsafe.1
  have hrest := hsafe.2
  have hokx : ∀ c ∈ x, urlOkChar c = true := List.all_eq_true.mp hall
  have hokc : ∀ c ∈ x, okChar c = true :=
    fun c hc => (urlOkChar_spec (hokx c hc)).1
  have hpctx : '%' ∉ x := fun hm => (urlOkChar_spec (hokx _ hm)).2.1 rfl
  have hplusx : '+' ∉ x := fun hm => (urlOkChar_spec (hokx _ hm)).2.2.1 rfl
  have hstrip : pyStripList x = x :=
    pyStripList_eq_self (fun c hc => okChar_no_pyspace (hokc c hc))
  have hid : removeUnsafe (x.dropWhile isC0OrSpace) = x := by
    rw [dropWhile_c0_eq_self hokc]
    exact removeUnsafe_eq_self hokc
  rw [normalizeUrlL_eq, hstrip] at h
  by_cases hx0 : x = []
  · rw [if_pos hx0] at h
    injection h with he
    rw [← he]
    exact normalizeUrlL_nil
  · rw [if_neg hx0] at h
    cases hyt : canonicalizeYoutube x with
    | error e =>
      rw [hyt] at h
      have h2 : Except.error e = Except.ok y := h
      exact Except.noConfusion h2
    | ok v =>
      rw [hyt] at h hrest
      cases v with
      | some u =>
        have h2 : Except.ok u = Except.ok y := h
        have hamp_u : '&' ∉ u := by
          have h3 : decide ('&' ∉ u) = true := hrest
          simpa using h3
        injection h2 with he
        subst he
        obtain ⟨parts, hps⟩ := canonicalizeYoutube_ok_split hyt
        have hps2 : urlsplitE x = Except.ok parts := by
          rw [← hstrip]
          exact hps
        obtain ⟨-, -, hpath_sub, hq_sub⟩ := urlsplitE_sub hps2 hid
        obtain ⟨-, -, -, -, hhash_p0, -, hhash_q0, -⟩ :=
          parse_facts hokc hps2
        rcases canonicalizeYoutube_cases hps hyt with
          ⟨hv0, -⟩ | ⟨vid, hvne, -, hvid, hveq⟩
        · exact Option.noConfusion hv0
        · have hue : u = watchBase.data ++ vid := Option.some.inj hveq
          subst hue
          have hpctq : '%' ∉ parts.query := fun hm => hpctx (hq_sub _ hm)
          have hplusq : '+' ∉ parts.query := fun hm => hplusx (hq_sub _ hm)
          have hsubv := ytVideoId_subset hpctq hplusq hvid
          have hokv : ∀ c ∈ vid, okChar c = true := by
            intro c hc
            rcases hsubv c hc with hm | hm
            · exact hokc c (hpath_sub c hm)
            · exact hokc c (hq_sub c hm)
          have hpctv : '%' ∉ vid := by
            intro hm
            rcases hsubv _ hm with hm2 | hm2
            · exact hpctx (hpath_sub _ hm2)
            · exact hpctx (hq_sub _ hm2)
          have hplusv : '+' ∉ vid := by
            intro hm
            rcases hsubv _ hm with hm2 | hm2
            · exact hplusx (hpath_sub _ hm2)
            · exact hplusx (hq_sub _ hm2)
          have hhashv : '#' ∉ vid := by
            intro hm
            rcases hsubv _ hm with hm2 | hm2
            · exact hhash_p0 hm2
            · exact hhash_q0 hm2
          have hampv : '&' ∉ vid := fun hm =>
            hamp_u (List.mem_append.mpr (Or.inr hm))
          exact normalizeUrlL_watch hvne hampv hpctv hplusv hhashv hokv
      | none =>
        have hgen : c4GenericSafe x = true := hrest
        cases hsp : urlsplitE x with
        | error e =>
          rw [hsp] at h
          have h2 : Except.error e = Except.ok y := h
          exact Except.noConfusion h2
        | ok parts =>
          simp only [hsp] at h
          cases hpt : portOf parts.netloc with
          | error e =>
            simp only [hpt] at h
            exact Except.noConfusion h
          | ok port =>
            simp only [hpt] at h
            injection h with he
            rw [← he]
            simp only [c4GenericSafe, hsp, hpt, Bool.and_eq_true,
              decide_eq_true_eq] at hgen
            obtain ⟨⟨⟨hg1, hg2⟩, hg3⟩, hg4⟩ := hgen
            exact generic_roundtrip hokx hsp hpt hyt hg1 hg2 hg3 hg4

theorem wmt_c4_witness :
    c4Safe ("https://example.com/a?b=1").data = true ∧
    normalizeUrlL ("https://example.com/a?b=1").data =
      Except.ok ("https://example.com/a?b=1").data :=
  ⟨by decide, wmt_c4_normalize_idempotent_amended
    (by decide : c4Safe ("https://example.com/a?b=1").data = true)
    (by rfl :
      normalizeUrlL ("https://example.com/a?b=1").data =
        Except.ok ("https://example.com/a?b=1").data)⟩


/-! ### Claim C9 — concrete normalizations -/

def c9Input1 : String := "https://example.com/a/b?utm_source=x&x=1#section"

def c9Output1 : String := "https://example.com/a/b?x=1"

def c9Input2 : String := "https://youtu.be/abc123?t=10"

def c9Input3 : String := "https://www.youtube.com/watch?v=abc123&t=10s&utm_source=x"

def c9Output23 : String := "https://www.youtube.com/watch?v=abc123"

/-- C9.  `normalize` drops `utm_`-prefixed parameters and the fragment
while keeping the rest of the query, and collapses both YouTube host
forms to the canonical watch URL, discarding all other parameters. -/
theorem wmt_c9_concrete_normalizations :
    normalizeUrl c9Input1 = Except.ok c9Output1 ∧
    normalizeUrl c9Input2 = Except.ok c9Output23 ∧
    normalizeUrl c9Input3 = Except.ok c9Output23 := by
  refine ⟨by rfl, by rfl, by rfl⟩

/-! ### Claim C4 — idempotence of `normalize` -/

def c4Input : String := "https://example.com/?a=b%26c"

def c4Mid : String := "https://example.com/?a=b&c"

def c4Final : String := "https://example.com/?a=b&c="

/-- C4, counterexample: `normalize` is **not** idempotent for all
inputs.  For `"https://example.com/?a=b%26c"` one pass yields
`"https://example.com/?a=b&c"` (the percent-encoded `&` is decoded by
`parse_qsl`), and a second pass re-splits that query into the two pairs
`a=b` and `c=`, yielding `"https://example.com/?a=b&c="` — so
`normalize (normalize x) ≠ normalize x`. -/
theorem wmt_c4_counterexample :
    normalizeUrl c4Input = Except.ok c4Mid ∧
    normalizeUrl c4Mid = Except.ok c4Final ∧
    c4Final ≠ c4Mid := by
  refine ⟨by rfl, by rfl, by decide⟩

end Wmt
